import Mathlib

/-!
Verification of the shardmap repository: a sharded Robin Hood hash map.

The shard table (parallel-array layout, `shard` in the source) stores per-slot
metadata words `hdib` packing `hash:48 dib:16` next to a bucket array of
`(key, value)` pairs.  The sharded map routes each operation to one shard by
the low bits of a 64-bit fingerprint.

Embedding conventions:
* Go `uint64` values are `Nat` reduced `% 2^64` where overflow can matter;
  Go `int` values that can be negative (`cap`) are `Int`, counters that are
  provably non-negative (`length`, sizes) are `Nat`.
* Go's unbounded `for` probe loops are fueled structural recursions returning
  `Option`; fuel equal to the table size is always sufficient in reachable
  states (a table never becomes full), which is proved, and `none` never
  arises along the verified executions.
* The external 64-bit hash (wyhash in the source, whose implementation is not
  part of the table/shard logic) is a parameter `hf : K → Nat`, reduced
  `% 2^64` at call sites; the spec only requires it to be a deterministic
  function of the key.
* `float64` load-factor products `int(float64(S) * 0.85)` and
  `int(float64(S) * (1 - 0.85))` are embedded as `17 * S / 20` and
  `3 * S / 20` (Nat division).  All table sizes are powers of two `≥ 8`, and
  for `S = 2^k` (any `k` of interest) the IEEE-754 double products
  `S * 0.85000000000000004440892…` and `S * 0.14999999999999999444564…`
  have fractional parts bounded away from integers by at least `0.2 - ε`,
  so the truncations agree exactly with the rational floors used here.
-/

set_option maxHeartbeats 1000000
set_option linter.unusedSectionVars false

namespace Shardmap

/-- `dib` field of a packed `hash:48 dib:16` word: `w & maxDIB`. -/
def dibOf (w : Nat) : Nat := w &&& 65535

/-- `hash` field of a packed word: `w >> dibBitSize`. -/
def hashOf (w : Nat) : Nat := w >>> 16

/-- `w>>dibBitSize<<dibBitSize | d&maxDIB`: replace the dib field of `w` by `d`. -/
def withDib (w d : Nat) : Nat := ((w >>> 16) <<< 16) ||| (d &&& 65535)

/-- `uint64(hash)<<dibBitSize | uint64(1)&maxDIB`: fresh packed word with dib 1. -/
def mkHdib (h : Nat) : Nat := ((h <<< 16) % 2 ^ 64) ||| (1 &&& 65535)

theorem dibOf_eq (w : Nat) : dibOf w = w % 65536 := by
  have := Nat.and_pow_two_sub_one_eq_mod w 16
  simpa [dibOf] using this

theorem hashOf_eq (w : Nat) : hashOf w = w / 65536 := by
  simpa using Nat.shiftRight_eq_div_pow w 16

theorem withDib_eq (w d : Nat) : withDib w d = w / 65536 * 65536 + d % 65536 := by
  have h1 : (w >>> 16) <<< 16 = 2 ^ 16 * (w / 65536) := by
    rw [Nat.shiftLeft_eq, Nat.shiftRight_eq_div_pow]
    norm_num [Nat.mul_comm]
  have h2 : d &&& 65535 = d % 65536 := by
    have := Nat.and_pow_two_sub_one_eq_mod d 16
    simpa using this
  have h3 : d % 65536 < 2 ^ 16 := by
    have := Nat.mod_lt d (y := 65536) (by norm_num)
    norm_num
    omega
  rw [withDib, h1, h2, ← Nat.mul_add_lt_is_or h3 (w / 65536)]
  ring

theorem mkHdib_eq (h : Nat) (hh : h < 2 ^ 48) : mkHdib h = h * 65536 + 1 := by
  have hlt : h * 65536 < 2 ^ 64 := by
    have : h * 65536 < 2 ^ 48 * 65536 := by
      exact Nat.mul_lt_mul_of_lt_of_le hh (le_refl 65536) (by norm_num)
    omega
  have h1 : (h <<< 16) % 2 ^ 64 = h * 65536 := by
    rw [Nat.shiftLeft_eq]
    norm_num
    omega
  have h2 : (1 : Nat) &&& 65535 = 1 := by decide
  have h3 : h * 65536 = 2 ^ 16 * h := by ring
  rw [mkHdib, h1, h2, h3, ← Nat.mul_add_lt_is_or (by norm_num) h]

/-- The size-selection loop of `init`/`newshard`: `sz := 8; for sz < cap { sz *= 2 }`,
run here with explicit fuel (the fuel `cap.toNat` is always enough to reach a
fixed point, matching the Go loop exactly whenever `1 ≤ sz`). -/
def szGo : Nat → Nat → Int → Nat
  | 0, sz, _ => sz
  | f + 1, sz, c => if (sz : Int) < c then szGo f (sz * 2) c else sz

/-- `sz := 8; for sz < cap { sz *= 2 }; sz`. -/
def szLoop (sz : Nat) (c : Int) : Nat := szGo c.toNat sz c

/-- The shard table, parallel-array layout: `hdib` packs `hash:48 dib:16`,
`buckets` holds the user entries, scalar fields as in the source. -/
structure Shard (K V : Type) where
  hdib : List Nat
  buckets : List (K × V)
  cap : Int
  length : Nat
  mask : Nat
  growAt : Nat
  shrinkAt : Nat
deriving DecidableEq

instance {K V : Type} [Inhabited K] [Inhabited V] : Inhabited (Shard K V) :=
  ⟨⟨[], [], 0, 0, 0, 0, 0⟩⟩

variable {K V : Type} [DecidableEq K] [Inhabited K] [Inhabited V]

/-- `len(m.buckets)`. -/
def sz (m : Shard K V) : Nat := m.buckets.length

/-- `m.hdib[i]` (slot metadata word). -/
def hd (m : Shard K V) (i : Nat) : Nat := m.hdib.getD i 0

/-- `m.buckets[i]` (slot entry). -/
def bkt (m : Shard K V) (i : Nat) : K × V := m.buckets.getD i default

/-- `shard.init(cap)`: compute the size (power of two ≥ 8 covering `cap`),
round a positive `cap` up to it, and allocate zeroed arrays. -/
def Shard.init (cap : Int) : Shard K V :=
  let sz0 := szLoop 8 cap
  { cap := (if 0 < cap then (sz0 : Int) else cap),
    length := 0,
    hdib := List.replicate sz0 0,
    buckets := List.replicate sz0 default,
    mask := sz0 - 1,
    growAt := 17 * sz0 / 20,
    shrinkAt := 3 * sz0 / 20 }

/-- The probe loop of `shard.set`: carried word `w`, carried entry `e`,
current index `i`.  Branches in source order: empty slot places the entry;
equal hash and key overwrites the value (and rewrites the metadata word);
a richer resident is swapped with the carried entry; then advance one slot
and increment the carried dib. -/
def setLoop (m : Shard K V) (w : Nat) (e : K × V) (i : Nat) : Nat → Option (Shard K V × Option V)
  | 0 => none
  | fuel + 1 =>
    if dibOf (hd m i) = 0 then
      some ({ m with
                hdib := m.hdib.set i w,
                buckets := m.buckets.set i e,
                length := m.length + 1 }, none)
    else if hashOf w = hashOf (hd m i) ∧ e.1 = (bkt m i).1 then
      some ({ m with
                hdib := m.hdib.set i w,
                buckets := m.buckets.set i ((bkt m i).1, e.2) }, some (bkt m i).2)
    else if dibOf (hd m i) < dibOf w then
      setLoop { m with hdib := m.hdib.set i w, buckets := m.buckets.set i e }
        (withDib (hd m i) (dibOf (hd m i) + 1)) (bkt m i) ((i + 1) &&& m.mask) fuel
    else
      setLoop m (withDib w (dibOf w + 1)) e ((i + 1) &&& m.mask) fuel

/-- `shard.set(hash, key, value)` (the lower-case insert; no grow check). -/
def Shard.set (m : Shard K V) (hash : Nat) (key : K) (value : V) :
    Option (Shard K V × Option V) :=
  let w := mkHdib hash
  setLoop m w (key, value) ((w >>> 16) &&& m.mask) (sz m)

/-- The `for i := 0; i < len(m.buckets); i++` body of `shard.resize`:
reinsert every occupied slot into `nmap` using the stored hash. -/
def resizeLoop (m : Shard K V) (nmap : Shard K V) (i : Nat) : Nat → Option (Shard K V)
  | 0 => some nmap
  | fuel + 1 =>
    if dibOf (hd m i) ≠ 0 then
      match Shard.set nmap (hashOf (hd m i)) (bkt m i).1 (bkt m i).2 with
      | none => none
      | some (n', _) => resizeLoop m n' (i + 1) fuel
    else resizeLoop m nmap (i + 1) fuel

/-- `shard.resize(newCap)`: rebuild into a fresh table, keeping the old `cap`. -/
def Shard.resize (m : Shard K V) (newCap : Int) : Option (Shard K V) :=
  match resizeLoop m (Shard.init newCap) 0 (sz m) with
  | none => none
  | some nmap => some { nmap with cap := m.cap }

/-- `shard.Set(xxh, key, value)`: lazily init, grow at the load factor, insert. -/
def Shard.Set (m : Shard K V) (xxh : Nat) (key : K) (value : V) :
    Option (Shard K V × Option V) :=
  let m0 := if sz m = 0 then Shard.init 0 else m
  match (if m0.growAt ≤ m0.length then Shard.resize m0 (2 * sz m0 : Nat) else some m0) with
  | none => none
  | some m1 => Shard.set m1 (xxh >>> 16) key value

/-- The probe loop of `shard.Get`. -/
def getLoop (m : Shard K V) (hash : Nat) (key : K) (i : Nat) : Nat → Option (Option V)
  | 0 => none
  | fuel + 1 =>
    if dibOf (hd m i) = 0 then some none
    else if hashOf (hd m i) = hash ∧ (bkt m i).1 = key then some (some (bkt m i).2)
    else getLoop m hash key ((i + 1) &&& m.mask) fuel

/-- `shard.Get(xxh, key)`. -/
def Shard.Get (m : Shard K V) (xxh : Nat) (key : K) : Option (Option V) :=
  if sz m = 0 then some none
  else getLoop m (xxh >>> 16) key ((xxh >>> 16) &&& m.mask) (sz m)

/-- `shard.Len()`. -/
def Shard.Len (m : Shard K V) : Nat := m.length

/-- The backward-shift loop of `shard.remove`: `pi` is the current hole `i`;
look at the successor; a successor with dib ≤ 1 ends the loop and the hole is
cleared; otherwise the successor is shifted back one slot with its dib
decremented. -/
def removeLoop (m : Shard K V) (i : Nat) : Nat → Option (Shard K V)
  | 0 => none
  | fuel + 1 =>
    let j := (i + 1) &&& m.mask
    if dibOf (hd m j) ≤ 1 then
      some { m with buckets := m.buckets.set i default, hdib := m.hdib.set i 0 }
    else
      removeLoop
        { m with
            buckets := m.buckets.set i (bkt m j),
            hdib := m.hdib.set i (withDib (hd m j) (dibOf (hd m j) - 1)) } j fuel

/-- `shard.remove(i)`: zero the dib of slot `i`, backward-shift, decrement
`length`, and shrink when `len(buckets) > cap && length <= shrinkAt`. -/
def Shard.remove (m : Shard K V) (i : Nat) : Option (Shard K V) :=
  let m0 : Shard K V := { m with hdib := m.hdib.set i (withDib (hd m i) 0) }
  match removeLoop m0 i (sz m0) with
  | none => none
  | some m1 =>
    let m2 : Shard K V := { m1 with length := m1.length - 1 }
    if m2.cap < (sz m2 : Int) ∧ m2.length ≤ m2.shrinkAt then
      Shard.resize m2 (m2.length : Nat)
    else some m2

/-- The probe loop of `shard.Delete`. -/
def deleteLoop (m : Shard K V) (hash : Nat) (key : K) (i : Nat) :
    Nat → Option (Shard K V × Option V)
  | 0 => none
  | fuel + 1 =>
    if dibOf (hd m i) = 0 then some (m, none)
    else if hashOf (hd m i) = hash ∧ (bkt m i).1 = key then
      match Shard.remove m i with
      | none => none
      | some m' => some (m', some (bkt m i).2)
    else deleteLoop m hash key ((i + 1) &&& m.mask) fuel

/-- `shard.Delete(xxh, key)`. -/
def Shard.Delete (m : Shard K V) (xxh : Nat) (key : K) : Option (Shard K V × Option V) :=
  if sz m = 0 then some (m, none)
  else deleteLoop m (xxh >>> 16) key ((xxh >>> 16) &&& m.mask) (sz m)

/-- `shard.Range(iter)`: the entries an always-true visitor receives, in slot
order (occupied slots only). -/
def Shard.Range (m : Shard K V) : List (K × V) :=
  (List.range (sz m)).filterMap fun i =>
    if dibOf (hd m i) ≠ 0 then some (bkt m i) else none

/-- The scan loop of `shard.GetPos`, `i` counting up to the table size. -/
def getPosLoop (m : Shard K V) (pos : Nat) (i : Nat) : Nat → Option (K × V)
  | 0 => none
  | fuel + 1 =>
    let index := (pos + i) &&& m.mask
    if dibOf (hd m index) ≠ 0 then some (bkt m index)
    else getPosLoop m pos (i + 1) fuel

/-- `shard.GetPos(pos)`: first occupied slot scanning from `pos & mask`. -/
def Shard.GetPos (m : Shard K V) (pos : Nat) : Option (K × V) :=
  getPosLoop m pos 0 (sz m)

/-!  The sharded map (`map.go`).  The number of shards `n` (a power of two
computed from the CPU count at construction) is a parameter, and the 64-bit
key fingerprint is a parameter `hf`.

Modelled from the spec: the wyhash fingerprint function itself is not among
the table/map sources; per the spec it is an external "hash oracle", a
deterministic function of the key with 64-bit output, so it is modelled as an
arbitrary function `hf : K → Nat` taken `% 2^64`. -/

/-- The 64-bit fingerprint fed to both the shard selector and the shard. -/
def hash64 (hf : K → Nat) (key : K) : Nat := hf key % 2 ^ 64

/-- The sharded map: a fixed array of shards plus the requested capacity.
The per-shard mutexes have no observable single-threaded content. -/
structure Map (K V : Type) where
  shards : List (Shard K V)
  cap : Int
deriving DecidableEq

/-- `New(cap)` with `n` shards: each shard is `init`-ed with `cap / n`
(Go integer division truncates toward zero, hence `Int.tdiv`). -/
def Map.new (n : Nat) (cap : Int) : Map K V :=
  { shards := (List.range n).map fun _ => Shard.init (Int.tdiv cap (n : Int)),
    cap := cap }

/-- Number of shards (`len(m.mus)`). -/
def Map.nsh (M : Map K V) : Nat := M.shards.length

/-- The shard index for a fingerprint: `int(hash & uint64(len(m.mus)-1))`. -/
def shardIdx (M : Map K V) (hash : Nat) : Nat := hash &&& (M.nsh - 1)

/-- The shard a key is routed to. -/
def shardAt (M : Map K V) (s : Nat) : Shard K V := M.shards.getD s default

/-- `Map.Set(key, value)`. -/
def Map.Set (hf : K → Nat) (M : Map K V) (key : K) (value : V) :
    Option (Map K V × Option V) :=
  let hash := hash64 hf key
  let s := shardIdx M hash
  match Shard.Set (shardAt M s) hash key value with
  | none => none
  | some (m', prev) => some ({ M with shards := M.shards.set s m' }, prev)

/-- `Map.Get(key)`. -/
def Map.Get (hf : K → Nat) (M : Map K V) (key : K) : Option (Option V) :=
  let hash := hash64 hf key
  Shard.Get (shardAt M (shardIdx M hash)) hash key

/-- `Map.Delete(key)`. -/
def Map.Delete (hf : K → Nat) (M : Map K V) (key : K) :
    Option (Map K V × Option V) :=
  let hash := hash64 hf key
  let s := shardIdx M hash
  match Shard.Delete (shardAt M s) hash key with
  | none => none
  | some (m', prev) => some ({ M with shards := M.shards.set s m' }, prev)

/-- `Map.Mutate(key, mutator)`: under the shard's exclusive lock, `Get`,
call the mutator once with the old value (or zero value) and its presence,
then `Set` (keep) or `Delete` (drop), returning the size delta. -/
def Map.Mutate (hf : K → Nat) (M : Map K V) (key : K)
    (mutator : V → Bool → V × Bool) : Option (Map K V × Int) :=
  let hash := hash64 hf key
  let s := shardIdx M hash
  match Shard.Get (shardAt M s) hash key with
  | none => none
  | some oldr =>
    let r := mutator (oldr.getD default) oldr.isSome
    if r.2 then
      match Shard.Set (shardAt M s) hash key r.1 with
      | none => none
      | some (m', _) =>
        some ({ M with shards := M.shards.set s m' }, if oldr.isSome then 0 else 1)
    else
      match Shard.Delete (shardAt M s) hash key with
      | none => none
      | some (m', _) =>
        some ({ M with shards := M.shards.set s m' }, if oldr.isSome then -1 else 0)

/-- `Map.Len()`: sum of the per-shard lengths. -/
def Map.Len (M : Map K V) : Nat :=
  (M.shards.map Shard.Len).sum

/-- `Map.Range(iter)`: entries an always-true visitor receives, shard by shard. -/
def Map.Range (M : Map K V) : List (K × V) :=
  (M.shards.map Shard.Range).flatten

/-- `Map.Clear()`: reinitialize every shard with `cap / len(m.mus)`. -/
def Map.Clear (M : Map K V) : Map K V :=
  { M with shards := M.shards.map fun _ => Shard.init (Int.tdiv M.cap (M.nsh : Int)) }

/-! Single-threaded sequences of public map operations, and their outputs. -/

/-- A public map operation (the mutator of `mut` is an arbitrary function). -/
inductive MapOp (K V : Type) where
  | set (key : K) (value : V)
  | get (key : K)
  | del (key : K)
  | mut (key : K) (f : V → Bool → V × Bool)
  | len
  | range
  | clear

/-- The observable output of one public map operation. -/
inductive MapOut (K V : Type) where
  | prev (r : Option V)
  | num (n : Int)
  | entries (l : List (K × V))
  | unit
deriving DecidableEq

/-- Run one public operation. -/
def runOp (hf : K → Nat) (M : Map K V) : MapOp K V → Option (Map K V × MapOut K V)
  | .set k v => (Map.Set hf M k v).map fun r => (r.1, .prev r.2)
  | .get k => (Map.Get hf M k).map fun r => (M, .prev r)
  | .del k => (Map.Delete hf M k).map fun r => (r.1, .prev r.2)
  | .mut k f => (Map.Mutate hf M k f).map fun r => (r.1, .num r.2)
  | .len => some (M, .num (Map.Len M : Int))
  | .range => some (M, .entries (Map.Range M))
  | .clear => some (Map.Clear M, .unit)

/-- Run a sequence of public operations, collecting the outputs. -/
def runOps (hf : K → Nat) (M : Map K V) :
    List (MapOp K V) → Option (Map K V × List (MapOut K V))
  | [] => some (M, [])
  | op :: ops =>
    match runOp hf M op with
    | none => none
    | some (M', o) =>
      match runOps hf M' ops with
      | none => none
      | some (M'', os) => some (M'', o :: os)

/-- The ideal associative map, updated in program order. -/
def idealStep [Inhabited V] (f : K → Option V) : MapOp K V → (K → Option V)
  | .set k v => fun k' => if k' = k then some v else f k'
  | .del k => fun k' => if k' = k then none else f k'
  | .mut k g =>
    let old := f k
    let r := g (old.getD default) old.isSome
    if r.2 then (fun k' => if k' = k then some r.1 else f k')
    else (fun k' => if k' = k then none else f k')
  | .clear => fun _ => none
  | _ => f

/-- The ideal map after a sequence of operations. -/
def idealRun (ops : List (MapOp K V)) : K → Option V :=
  ops.foldl idealStep fun _ => none

/-- The operation does not affect the content at key `k`. -/
def untouched (k : K) : MapOp K V → Prop
  | .set k' _ => k' ≠ k
  | .del k' => k' ≠ k
  | .mut k' _ => k' ≠ k
  | .clear => False
  | _ => True

/-! ### Index arithmetic on a table of `N` slots -/

/-- Cyclic distance from `a` forward to `b` in a table of `N` slots
(for `a, b < N` this is `(b + N - a) % N`). -/
def dist (N a b : Nat) : Nat := if a ≤ b then b - a else b + N - a

/-- Successor index with wraparound (`(b + 1) % N` for `b < N`). -/
def step (N b : Nat) : Nat := (b + 1) % N

/-- Predecessor index with wraparound. -/
def prev (N i : Nat) : Nat := if i = 0 then N - 1 else i - 1

theorem step_eq {N b : Nat} (hb : b < N) :
    step N b = if b + 1 = N then 0 else b + 1 := by
  unfold step
  rcases Nat.lt_or_ge (b + 1) N with h | h
  · rw [Nat.mod_eq_of_lt h, if_neg (by omega)]
  · have : b + 1 = N := by omega
    rw [this, Nat.mod_self, if_pos rfl]

theorem step_lt {N b : Nat} (hN : 0 < N) : step N b < N := Nat.mod_lt _ hN

theorem dist_self (N a : Nat) : dist N a a = 0 := by simp [dist]

theorem dist_lt {N a b : Nat} (ha : a < N) (hb : b < N) : dist N a b < N := by
  unfold dist
  split <;> omega

theorem dist_step {N a b : Nat} (ha : a < N) (hb : b < N)
    (h : dist N a b < N - 1) : dist N a (step N b) = dist N a b + 1 := by
  rw [step_eq hb]
  unfold dist at *
  split at h <;> split <;> split <;> omega

theorem step_prev {N i : Nat} (hN : 0 < N) (hi : i < N) : step N (prev N i) = i := by
  unfold prev
  split
  · rw [step_eq (by omega)]
    split <;> omega
  · rw [step_eq (by omega)]
    split <;> omega

theorem prev_lt {N i : Nat} (hN : 0 < N) (hi : i < N) : prev N i < N := by
  unfold prev
  split <;> omega

theorem dist_prev {N a b : Nat} (ha : a < N) (hb : b < N) (h : 0 < dist N a b) :
    dist N a (prev N b) = dist N a b - 1 := by
  unfold dist prev at *
  split at h <;> split <;> split <;> omega

/-- Walking `t` slots forward from `a`. -/
def idx (N a t : Nat) : Nat := (a + t) % N

theorem idx_zero {N a : Nat} (ha : a < N) : idx N a 0 = a := by
  simp [idx, Nat.mod_eq_of_lt ha]

theorem idx_lt {N a t : Nat} (hN : 0 < N) : idx N a t < N := Nat.mod_lt _ hN

theorem idx_succ {N a t : Nat} : idx N a (t + 1) = step N (idx N a t) := by
  unfold idx step
  conv_rhs => rw [Nat.mod_add_mod]
  rw [Nat.add_assoc]

theorem dist_idx {N a t : Nat} (ha : a < N) (ht : t < N) : dist N a (idx N a t) = t := by
  unfold dist idx
  rcases Nat.lt_or_ge (a + t) N with h | h
  · rw [Nat.mod_eq_of_lt h]
    split <;> omega
  · have h2 : a + t - N < N := by omega
    have : (a + t) % N = a + t - N := by
      conv_lhs => rw [show a + t = (a + t - N) + 1 * N by omega]
      simp [Nat.add_mul_mod_self_right, Nat.mod_eq_of_lt h2]
    rw [this]
    split <;> omega

theorem idx_inj {N a s t : Nat} (ha : a < N) (hs : s < N) (ht : t < N)
    (h : idx N a s = idx N a t) : s = t := by
  have h1 := dist_idx ha hs
  have h2 := dist_idx ha ht
  rw [h] at h1
  omega

theorem idx_dist {N a b : Nat} (ha : a < N) (hb : b < N) : idx N a (dist N a b) = b := by
  unfold dist idx
  split
  · rw [Nat.mod_eq_of_lt (by omega)]
    omega
  · have : a + (b + N - a) = b + N := by omega
    rw [this]
    simp [Nat.mod_eq_of_lt hb]

/-! ### Occupancy, contents and the Robin Hood invariant of a shard -/

/-- Slot `i` is occupied (`dib ≠ 0`). -/
def occ (m : Shard K V) (i : Nat) : Prop := dibOf (hd m i) ≠ 0

instance (m : Shard K V) (i : Nat) : Decidable (occ m i) := by
  unfold occ
  infer_instance

/-- Key stored at slot `i`. -/
def keyAt (m : Shard K V) (i : Nat) : K := (bkt m i).1

/-- Value stored at slot `i`. -/
def valAt (m : Shard K V) (i : Nat) : V := (bkt m i).2

/-- Home slot of the entry at slot `i` (from its stored 48-bit hash). -/
def home (m : Shard K V) (i : Nat) : Nat := hashOf (hd m i) % sz m

/-- Displacement of the entry at slot `i` from its home. -/
def disp (m : Shard K V) (i : Nat) : Nat := dist (sz m) (home m i) i

/-- Number of occupied slots. -/
def countOcc (m : Shard K V) : Nat :=
  ((Finset.range (sz m)).filter fun i => occ m i).card

/-- The key→value content of a shard (first occupied slot holding the key,
in slot order; under the invariant there is at most one). -/
def contents (m : Shard K V) (k : K) : Option V :=
  (List.range (sz m)).findSome? fun i =>
    if occ m i ∧ keyAt m i = k then some (valAt m i) else none

/-- The structural Robin Hood invariant of a shard table, relative to the
fingerprint function `hf`: array shapes and derived scalars are consistent,
`length` counts the occupied slots, every occupied slot's hash field is the
high 48 bits of its key's fingerprint, its dib field is its displacement
plus one (and below the 16-bit cap), dibs drop by at most one backwards
along a probe chain (so chains are contiguous), and keys are unique. -/
structure Inv0 (hf : K → Nat) (m : Shard K V) : Prop where
  hdib_len : m.hdib.length = sz m
  size_pow : ∃ k, sz m = 2 ^ k
  size_ge : 8 ≤ sz m
  mask_eq : m.mask = sz m - 1
  grow_eq : m.growAt = 17 * sz m / 20
  shrink_eq : m.shrinkAt = 3 * sz m / 20
  len_eq : m.length = countOcc m
  hash_eq : ∀ i < sz m, occ m i → hashOf (hd m i) = hash64 hf (keyAt m i) / 65536
  dib_eq : ∀ i < sz m, occ m i → dibOf (hd m i) = disp m i + 1
  dib_lt : ∀ i < sz m, occ m i → disp m i + 1 < 65536
  run_ok : ∀ i < sz m, occ m i → 2 ≤ dibOf (hd m i) →
    occ m (prev (sz m) i) ∧ dibOf (hd m i) ≤ dibOf (hd m (prev (sz m) i)) + 1
  uniq : ∀ i < sz m, ∀ j < sz m, occ m i → occ m j → keyAt m i = keyAt m j → i = j

/-- The full per-operation invariant: `Inv0` plus the load-factor and
shrink-discipline facts maintained by the public operations. -/
structure Inv (hf : K → Nat) (m : Shard K V) : Prop where
  inv0 : Inv0 hf m
  len_le : m.length ≤ m.growAt
  shrink_ok : m.cap < (sz m : Int) → 8 < sz m → m.shrinkAt < m.length

/-! ### Packed-word algebra -/

theorem dibOf_withDib (w d : Nat) : dibOf (withDib w d) = d % 65536 := by
  rw [dibOf_eq, withDib_eq]
  omega

theorem hashOf_withDib (w d : Nat) : hashOf (withDib w d) = hashOf w := by
  rw [hashOf_eq, hashOf_eq, withDib_eq]
  omega

theorem word_split (w : Nat) : w = hashOf w * 65536 + dibOf w := by
  rw [hashOf_eq, dibOf_eq]
  omega

theorem dibOf_mkHdib (h : Nat) (hh : h < 2 ^ 48) : dibOf (mkHdib h) = 1 := by
  rw [mkHdib_eq h hh, dibOf_eq]
  omega

theorem hashOf_mkHdib (h : Nat) (hh : h < 2 ^ 48) : hashOf (mkHdib h) = h := by
  rw [mkHdib_eq h hh, hashOf_eq]
  omega

theorem dibOf_lt (w : Nat) : dibOf w < 65536 := by
  rw [dibOf_eq]
  omega

theorem hash64_div_lt (hf : K → Nat) (k : K) : hash64 hf k / 65536 < 2 ^ 48 := by
  unfold hash64
  omega

/-- `i &&& mask = i % N` for a table of `N = 2^k` slots. -/
theorem and_mask_eq {m : Shard K V} (hpow : ∃ k, sz m = 2 ^ k)
    (hmask : m.mask = sz m - 1) (i : Nat) : i &&& m.mask = i % sz m := by
  obtain ⟨k, hk⟩ := hpow
  rw [hmask, hk]
  exact Nat.and_pow_two_sub_one_eq_mod i k

/-! ### Counting occupied slots -/

theorem countOcc_le (m : Shard K V) : countOcc m ≤ sz m := by
  calc countOcc m ≤ (Finset.range (sz m)).card := Finset.card_filter_le _ _
    _ = sz m := Finset.card_range _

theorem exists_empty {m : Shard K V} (h : countOcc m < sz m) :
    ∃ j, j < sz m ∧ ¬ occ m j := by
  by_contra hc
  push_neg at hc
  have : (Finset.range (sz m)).filter (fun i => occ m i) = Finset.range (sz m) := by
    apply Finset.filter_true_of_mem
    intro i hi
    exact hc i (Finset.mem_range.mp hi)
  unfold countOcc at h
  rw [this, Finset.card_range] at h
  omega

/-- Change in occupied-slot count when exactly slot `j` may change. -/
theorem countOcc_update {m m' : Shard K V} (hsz : sz m' = sz m) {j : Nat}
    (hj : j < sz m)
    (hsame : ∀ i, i < sz m → i ≠ j → (occ m' i ↔ occ m i)) :
    countOcc m' + (if occ m j then 1 else 0) =
      countOcc m + (if occ m' j then 1 else 0) := by
  unfold countOcc
  rw [hsz]
  have key : ∀ (p : Nat → Prop) (_ : DecidablePred p),
      ((Finset.range (sz m)).filter fun i => p i).card =
        (((Finset.range (sz m)).erase j).filter fun i => p i).card
          + (if p j then 1 else 0) := by
    intro p hp
    have hjm : j ∈ Finset.range (sz m) := Finset.mem_range.mpr hj
    by_cases hpj : p j
    · rw [if_pos hpj]
      have : (Finset.range (sz m)).filter (fun i => p i) =
          insert j (((Finset.range (sz m)).erase j).filter fun i => p i) := by
        ext x
        simp only [Finset.mem_filter, Finset.mem_insert, Finset.mem_erase]
        constructor
        · rintro ⟨hx, hpx⟩
          by_cases hxj : x = j
          · exact Or.inl hxj
          · exact Or.inr ⟨⟨hxj, hx⟩, hpx⟩
        · rintro (rfl | ⟨⟨_, hx⟩, hpx⟩)
          · exact ⟨hjm, hpj⟩
          · exact ⟨hx, hpx⟩
      rw [this, Finset.card_insert_of_not_mem (by simp)]
    · rw [if_neg hpj, Nat.add_zero]
      have hset : (Finset.range (sz m)).filter (fun i => p i) =
          ((Finset.range (sz m)).erase j).filter fun i => p i := by
        ext x
        simp only [Finset.mem_filter, Finset.mem_erase]
        constructor
        · rintro ⟨hx, hpx⟩
          refine ⟨⟨?_, hx⟩, hpx⟩
          rintro rfl
          exact hpj hpx
        · rintro ⟨⟨_, hx⟩, hpx⟩
          exact ⟨hx, hpx⟩
      rw [hset]
  rw [key (fun i => occ m' i) inferInstance, key (fun i => occ m i) inferInstance]
  have hcongr : (((Finset.range (sz m)).erase j).filter fun i => occ m' i) =
      (((Finset.range (sz m)).erase j).filter fun i => occ m i) := by
    apply Finset.filter_congr
    intro x hx
    rw [Finset.mem_erase, Finset.mem_range] at hx
    simpa using hsame x hx.2 hx.1
  rw [hcongr]
  omega

/-! ### Slot access through `List.set` -/

theorem getD_set_self {α : Type} {l : List α} {i : Nat} {w d : α} (h : i < l.length) :
    (l.set i w).getD i d = w := by
  rw [List.getD_eq_getElem?_getD, List.getElem?_set_self (by omega)]
  rfl

theorem getD_set_ne {α : Type} {l : List α} {i j : Nat} {w d : α} (h : i ≠ j) :
    (l.set i w).getD j d = l.getD j d := by
  rw [List.getD_eq_getElem?_getD, List.getElem?_set_ne h, ← List.getD_eq_getElem?_getD]

theorem prev_step {N x : Nat} (hN : 0 < N) (hx : x < N) : prev N (step N x) = x := by
  rw [step_eq hx]
  unfold prev
  split <;> split <;> omega

/-! ### The probe-chain lemma -/

theorem home_lt {hf : K → Nat} {m : Shard K V} (hInv : Inv0 hf m) (i : Nat) :
    home m i < sz m := by
  exact Nat.mod_lt _ (by have := hInv.size_ge; omega)

theorem disp_lt {hf : K → Nat} {m : Shard K V} (hInv : Inv0 hf m) {i : Nat}
    (hi : i < sz m) : disp m i < sz m :=
  dist_lt (home_lt hInv i) hi

/-- Walking back from an occupied slot towards its home: every slot on the
way is occupied, with dib at least its distance from that home plus one. -/
theorem chain {hf : K → Nat} {m : Shard K V} (hInv : Inv0 hf m) {i : Nat}
    (hi : i < sz m) (hocc : occ m i) :
    ∀ t, t ≤ disp m i →
      occ m (idx (sz m) (home m i) t) ∧
      t + 1 ≤ dibOf (hd m (idx (sz m) (home m i) t)) := by
  have hN : 0 < sz m := by have := hInv.size_ge; omega
  have hhome : home m i < sz m := home_lt hInv i
  have hidx_i : idx (sz m) (home m i) (disp m i) = i := idx_dist hhome hi
  have aux : ∀ s, s ≤ disp m i →
      occ m (idx (sz m) (home m i) (disp m i - s)) ∧
      disp m i - s + 1 ≤ dibOf (hd m (idx (sz m) (home m i) (disp m i - s))) := by
    intro s
    induction s with
    | zero =>
      intro _
      simp only [Nat.sub_zero, hidx_i]
      refine ⟨hocc, ?_⟩
      rw [hInv.dib_eq i hi hocc]
    | succ s ih =>
      intro hs
      obtain ⟨hocc_s, hdib_s⟩ := ih (by omega)
      set j := idx (sz m) (home m i) (disp m i - s) with hj
      have hjlt : j < sz m := idx_lt hN
      have hdib2 : 2 ≤ dibOf (hd m j) := by omega
      obtain ⟨hocc_p, hdib_p⟩ := hInv.run_ok j hjlt hocc_s hdib2
      have hstep : j = step (sz m) (idx (sz m) (home m i) (disp m i - (s + 1))) := by
        rw [hj, show disp m i - s = (disp m i - (s + 1)) + 1 by omega, idx_succ]
      have hprev : prev (sz m) j = idx (sz m) (home m i) (disp m i - (s + 1)) := by
        rw [hstep, prev_step hN (idx_lt hN)]
      rw [hprev] at hocc_p hdib_p
      exact ⟨hocc_p, by omega⟩
  intro t ht
  have := aux (disp m i - t) (by omega)
  rwa [show disp m i - (disp m i - t) = t by omega] at this

/-- The displacement of an occupied slot is below the number of occupied
slots (the whole chain from its home is occupied and injective). -/
theorem disp_lt_countOcc {hf : K → Nat} {m : Shard K V} (hInv : Inv0 hf m)
    {i : Nat} (hi : i < sz m) (hocc : occ m i) : disp m i < countOcc m := by
  have hN : 0 < sz m := by have := hInv.size_ge; omega
  have hhome : home m i < sz m := home_lt hInv i
  have hdisp : disp m i < sz m := disp_lt hInv hi
  have himg : (Finset.range (disp m i + 1)).image (idx (sz m) (home m i)) ⊆
      (Finset.range (sz m)).filter fun j => occ m j := by
    intro x hx
    rw [Finset.mem_image] at hx
    obtain ⟨t, ht, rfl⟩ := hx
    rw [Finset.mem_range] at ht
    rw [Finset.mem_filter, Finset.mem_range]
    exact ⟨idx_lt hN, (chain hInv hi hocc t (by omega)).1⟩
  have hinj : Set.InjOn (idx (sz m) (home m i)) (Finset.range (disp m i + 1)) := by
    intro s hs t ht hst
    rw [Finset.coe_range, Set.mem_Iio] at hs ht
    exact idx_inj hhome (by omega) (by omega) hst
  have hcard := Finset.card_le_card himg
  rw [Finset.card_image_of_injOn hinj, Finset.card_range] at hcard
  unfold countOcc
  omega

/-! ### Contents characterization -/

/-- Some slot holds key `k`. -/
def hasKey (m : Shard K V) (k : K) : Prop :=
  ∃ i, i < sz m ∧ occ m i ∧ keyAt m i = k

theorem contents_eq_none_iff {m : Shard K V} {k : K} :
    contents m k = none ↔ ∀ i, i < sz m → occ m i → keyAt m i ≠ k := by
  unfold contents
  rw [List.findSome?_eq_none_iff]
  constructor
  · intro h i hi hocc hkey
    have := h i (List.mem_range.mpr hi)
    rw [if_pos ⟨hocc, hkey⟩] at this
    exact Option.noConfusion this
  · intro h i hi
    rw [List.mem_range] at hi
    rw [if_neg]
    rintro ⟨hocc, hkey⟩
    exact h i hi hocc hkey

theorem contents_eq_some_of {m : Shard K V} {k : K} {i : Nat}
    (huniq : ∀ i' < sz m, ∀ j' < sz m, occ m i' → occ m j' →
      keyAt m i' = keyAt m j' → i' = j')
    (hi : i < sz m) (hocc : occ m i) (hkey : keyAt m i = k) :
    contents m k = some (valAt m i) := by
  unfold contents
  rcases hres : (List.range (sz m)).findSome? (fun j =>
      if occ m j ∧ keyAt m j = k then some (valAt m j) else none) with _ | v
  · exact absurd hkey (contents_eq_none_iff.mp hres i hi hocc)
  · obtain ⟨j, hjmem, hj⟩ := List.exists_of_findSome?_eq_some hres
    rw [List.mem_range] at hjmem
    by_cases hcond : occ m j ∧ keyAt m j = k
    · rw [if_pos hcond] at hj
      have : j = i := huniq j hjmem i hi hcond.1 hocc (by rw [hcond.2, hkey])
      subst this
      rw [← hj]
    · rw [if_neg hcond] at hj
      exact Option.noConfusion hj

theorem contents_isSome_iff {m : Shard K V} {k : K} :
    (contents m k).isSome ↔ hasKey m k := by
  constructor
  · intro h
    rcases hres : contents m k with _ | v
    · rw [hres] at h
      simp at h
    · unfold contents at hres
      obtain ⟨j, hjmem, hj⟩ := List.exists_of_findSome?_eq_some hres
      rw [List.mem_range] at hjmem
      by_cases hcond : occ m j ∧ keyAt m j = k
      · exact ⟨j, hjmem, hcond.1, hcond.2⟩
      · rw [if_neg hcond] at hj
        exact Option.noConfusion hj
  · rintro ⟨i, hi, hocc, hkey⟩
    rcases hres : contents m k with _ | v
    · exact absurd hkey (contents_eq_none_iff.mp hres i hi hocc)
    · simp

/-! ### Lookup correctness -/

theorem idx_shift {N i t : Nat} (ht : 1 ≤ t) :
    idx N i t = idx N (step N i) (t - 1) := by
  unfold idx step
  conv_rhs => rw [Nat.mod_add_mod]
  congr 1
  omega

theorem getLoop_found {hf : K → Nat} {m : Shard K V} (hInv : Inv0 hf m) {k : K}
    {j : Nat} (hj : j < sz m) (hocc : occ m j) (hkey : keyAt m j = k) :
    ∀ fuel t, t ≤ disp m j → disp m j + 1 - t ≤ fuel →
      getLoop m (hashOf (hd m j)) k (idx (sz m) (home m j) t) fuel =
        some (some (valAt m j)) := by
  have hN : 0 < sz m := by have := hInv.size_ge; omega
  have hhome : home m j < sz m := home_lt hInv j
  have hidx_j : idx (sz m) (home m j) (disp m j) = j := by
    unfold disp
    exact idx_dist hhome hj
  intro fuel
  induction fuel with
  | zero => intro t ht hfuel; omega
  | succ fuel ih =>
    intro t ht hfuel
    by_cases hlast : t = disp m j
    · subst hlast
      rw [hidx_j]
      rw [getLoop]
      rw [if_neg (by simpa [occ] using hocc)]
      rw [if_pos ⟨rfl, hkey⟩]
      rfl
    · have htlt : t < disp m j := by omega
      have hdlt : disp m j < sz m := disp_lt hInv hj
      have hilt : idx (sz m) (home m j) t < sz m := idx_lt hN
      have hocc_i : occ m (idx (sz m) (home m j) t) := (chain hInv hj hocc t (by omega)).1
      have hne : idx (sz m) (home m j) t ≠ j := by
        intro h
        have h2 : idx (sz m) (home m j) t = idx (sz m) (home m j) (disp m j) := by
          rw [hidx_j]
          exact h
        exact absurd (idx_inj hhome (by omega) (by omega) h2) (by omega)
      rw [getLoop]
      rw [if_neg (by simpa [occ] using hocc_i)]
      rw [if_neg ?_]
      · rw [show idx (sz m) (home m j) t + 1 &&& m.mask = idx (sz m) (home m j) (t + 1) by
          rw [and_mask_eq hInv.size_pow hInv.mask_eq, idx_succ, step]]
        exact ih (t + 1) (by omega) (by omega)
      · rintro ⟨-, hk⟩
        refine hne (hInv.uniq _ hilt j hj hocc_i hocc ?_)
        unfold keyAt at hkey ⊢
        rw [hk, hkey]

theorem getLoop_absent {hf : K → Nat} {m : Shard K V} (hInv : Inv0 hf m)
    {k : K} (habs : ∀ i, i < sz m → occ m i → keyAt m i ≠ k) (hash : Nat) :
    ∀ fuel i, i < sz m → (∃ t, t < fuel ∧ ¬ occ m (idx (sz m) i t)) →
      getLoop m hash k i fuel = some none := by
  have hN : 0 < sz m := by have := hInv.size_ge; omega
  intro fuel
  induction fuel with
  | zero =>
    rintro i hi ⟨t, ht, -⟩
    omega
  | succ fuel ih =>
    rintro i hi ⟨t, ht, hempty⟩
    by_cases hocc_i : occ m i
    · rw [getLoop]
      rw [if_neg (by simpa [occ] using hocc_i)]
      rw [if_neg ?_]
      · rw [show (i + 1) &&& m.mask = step (sz m) i by
          rw [and_mask_eq hInv.size_pow hInv.mask_eq, step]]
        apply ih (step (sz m) i) (step_lt hN)
        have ht0 : t ≠ 0 := by
          rintro rfl
          rw [idx_zero hi] at hempty
          exact hempty hocc_i
        refine ⟨t - 1, by omega, ?_⟩
        rwa [← idx_shift (by omega)]
      · rintro ⟨-, hk⟩
        exact habs i hi hocc_i hk
    · rw [getLoop]
      rw [if_pos (by simpa [occ] using hocc_i)]

/-- `shard.Get` returns exactly the table's content for the key, when
called with the key's own fingerprint. -/
theorem Get_spec {hf : K → Nat} {m : Shard K V} (hInv : Inv0 hf m)
    (hcount : countOcc m < sz m) (k : K) :
    Shard.Get m (hash64 hf k) k = some (contents m k) := by
  have hN : 0 < sz m := by have := hInv.size_ge; omega
  unfold Shard.Get
  rw [if_neg (by omega)]
  have hsh : hash64 hf k >>> 16 = hash64 hf k / 65536 := by
    rw [Nat.shiftRight_eq_div_pow]
  rw [hsh, and_mask_eq hInv.size_pow hInv.mask_eq]
  by_cases hpres : hasKey m k
  · obtain ⟨j, hj, hocc, hkey⟩ := hpres
    have hhash : hashOf (hd m j) = hash64 hf k / 65536 := by
      rw [hInv.hash_eq j hj hocc, hkey]
    have hstart : hash64 hf k / 65536 % sz m = idx (sz m) (home m j) 0 := by
      rw [idx_zero (home_lt hInv j)]
      unfold home
      rw [hhash]
    rw [hstart, ← hhash]
    rw [getLoop_found hInv hj hocc hkey (sz m) 0 (by omega)
      (by have := disp_lt hInv hj; omega)]
    rw [contents_eq_some_of hInv.uniq hj hocc hkey]
  · have habs : ∀ i, i < sz m → occ m i → keyAt m i ≠ k := by
      intro i hi hocc hkey
      exact hpres ⟨i, hi, hocc, hkey⟩
    obtain ⟨j, hjlt, hjemp⟩ := exists_empty hcount
    have hstart : hash64 hf k / 65536 % sz m < sz m := Nat.mod_lt _ hN
    rw [getLoop_absent hInv habs _ (sz m) _ hstart
      ⟨dist (sz m) (hash64 hf k / 65536 % sz m) j,
        dist_lt hstart hjlt, by rwa [idx_dist hstart hjlt]⟩]
    have : contents m k = none := by
      rw [contents_eq_none_iff]
      exact habs
    rw [this]

/-! ### Insertion: the overwrite case -/

theorem list_set_getD_self {α : Type} : ∀ (l : List α) (i : Nat) (d : α),
    i < l.length → l.set i (l.getD i d) = l := by
  intro l
  induction l with
  | nil => intro i d h; simp at h
  | cons a l ih =>
    intro i d h
    cases i with
    | zero => simp
    | succ i =>
      simp only [List.set_cons_succ, List.getD_cons_succ]
      rw [ih i d (by simpa using h)]

/-- A run of `d` occupied slots starting anywhere bounds the occupied count. -/
theorem occ_run_le_count {m : Shard K V} {h d : Nat} (hh : h < sz m)
    (hdn : d ≤ sz m) (hocc : ∀ t, t < d → occ m (idx (sz m) h t)) :
    d ≤ countOcc m := by
  have hN : 0 < sz m := by omega
  have himg : (Finset.range d).image (idx (sz m) h) ⊆
      (Finset.range (sz m)).filter fun j => occ m j := by
    intro x hx
    rw [Finset.mem_image] at hx
    obtain ⟨t, ht, rfl⟩ := hx
    rw [Finset.mem_range] at ht
    rw [Finset.mem_filter, Finset.mem_range]
    exact ⟨idx_lt hN, hocc t ht⟩
  have hinj : Set.InjOn (idx (sz m) h) (Finset.range d) := by
    intro s hs t ht hst
    rw [Finset.coe_range, Set.mem_Iio] at hs ht
    exact idx_inj hh (by omega) (by omega) hst
  have hcard := Finset.card_le_card himg
  rw [Finset.card_image_of_injOn hinj, Finset.card_range] at hcard
  unfold countOcc
  omega

/-- In the overwrite case (`k` already stored at slot `j`, probed with a
carried word bearing the same 48-bit hash), the insert loop walks to `j`
without displacing anyone and overwrites the value there; the metadata
write is the identity, because the carried dib equals the stored dib. -/
theorem setLoop_present {hf : K → Nat} {m : Shard K V} (hInv : Inv0 hf m)
    {k : K} {v : V} {j : Nat} (hj : j < sz m) (hocc : occ m j)
    (hkey : keyAt m j = k) :
    ∀ fuel t w, t ≤ disp m j → disp m j + 1 - t ≤ fuel →
      hashOf w = hashOf (hd m j) → dibOf w = t + 1 →
      setLoop m w (k, v) (idx (sz m) (home m j) t) fuel =
        some ({ m with buckets := m.buckets.set j ((bkt m j).1, v) },
          some (valAt m j)) := by
  have hN : 0 < sz m := by have := hInv.size_ge; omega
  have hhome : home m j < sz m := home_lt hInv j
  have hidx_j : idx (sz m) (home m j) (disp m j) = j := by
    unfold disp
    exact idx_dist hhome hj
  have hdlt : disp m j < sz m := disp_lt hInv hj
  have hdcnt : disp m j < countOcc m := disp_lt_countOcc hInv hj hocc
  intro fuel
  induction fuel with
  | zero => intro t w ht hfuel _ _; omega
  | succ fuel ih =>
    intro t w ht hfuel hw_hash hw_dib
    by_cases hlast : t = disp m j
    · subst hlast
      rw [hidx_j]
      rw [setLoop]
      rw [if_neg (by simpa [occ] using hocc)]
      rw [if_pos ⟨by rw [hw_hash], hkey.symm⟩]
      have hweq : w = hd m j := by
        rw [word_split w, word_split (hd m j), hw_hash, hw_dib,
          hInv.dib_eq j hj hocc]
      have hset : m.hdib.set j w = m.hdib := by
        rw [hweq]
        exact list_set_getD_self m.hdib j 0 (by rw [hInv.hdib_len]; omega)
      rw [hset]
      rfl
    · have htlt : t < disp m j := by omega
      have hilt : idx (sz m) (home m j) t < sz m := idx_lt hN
      have hch := chain hInv hj hocc t (by omega)
      have hocc_i : occ m (idx (sz m) (home m j) t) := hch.1
      have hne : idx (sz m) (home m j) t ≠ j := by
        intro h
        have h2 : idx (sz m) (home m j) t = idx (sz m) (home m j) (disp m j) := by
          rw [hidx_j]
          exact h
        exact absurd (idx_inj hhome (by omega) (by omega) h2) (by omega)
      rw [setLoop]
      rw [if_neg (by simpa [occ] using hocc_i)]
      rw [if_neg ?_]
      rw [if_neg (by rw [hw_dib]; omega)]
      · rw [show idx (sz m) (home m j) t + 1 &&& m.mask = idx (sz m) (home m j) (t + 1) by
          rw [and_mask_eq hInv.size_pow hInv.mask_eq, idx_succ, step]]
        apply ih (t + 1) _ (by omega) (by omega)
        · rw [hashOf_withDib, hw_hash]
        · rw [dibOf_withDib, hw_dib]
          have : disp m j + 1 < 65536 := hInv.dib_lt j hj hocc
          omega
      · rintro ⟨-, hk⟩
        exact hne (hInv.uniq _ hilt j hj hocc_i hocc (hk.symm.trans hkey.symm))

/-! ### Insertion: the displacement (absent key) case -/

theorem hd_mk {hl : List Nat} {bl : List (K × V)} {c : Int} {len mask g s : Nat}
    (x : Nat) : hd (Shard.mk hl bl c len mask g s) x = hl.getD x 0 := rfl

theorem bkt_mk {hl : List Nat} {bl : List (K × V)} {c : Int} {len mask g s : Nat}
    (x : Nat) : bkt (Shard.mk hl bl c len mask g s) x = bl.getD x default := rfl

theorem sz_mk {hl : List Nat} {bl : List (K × V)} {c : Int} {len mask g s : Nat} :
    sz (Shard.mk hl bl c len mask g s) = bl.length := rfl

/-- Contents at a key not involved with slot `i` agree between two tables
that differ only at slot `i`. -/
theorem contents_agree {m m' : Shard K V} {i : Nat} {k' : K}
    (huniq : ∀ x < sz m, ∀ y < sz m, occ m x → occ m y → keyAt m x = keyAt m y → x = y)
    (huniq' : ∀ x < sz m', ∀ y < sz m', occ m' x → occ m' y →
      keyAt m' x = keyAt m' y → x = y)
    (hsz : sz m' = sz m)
    (hocc_same : ∀ x, x < sz m → x ≠ i → (occ m' x ↔ occ m x))
    (hbkt_same : ∀ x, x < sz m → x ≠ i → bkt m' x = bkt m x)
    (havoid : occ m i → keyAt m i ≠ k') (havoid' : occ m' i → keyAt m' i ≠ k') :
    contents m' k' = contents m k' := by
  by_cases hpres : hasKey m k'
  · obtain ⟨j, hj, hocc, hkey⟩ := hpres
    have hji : j ≠ i := by
      rintro rfl
      exact havoid hocc hkey
    have hocc' : occ m' j := (hocc_same j hj hji).mpr hocc
    have hkey' : keyAt m' j = k' := by
      unfold keyAt at hkey ⊢
      rw [hbkt_same j hj hji, hkey]
    rw [contents_eq_some_of huniq' (by omega : j < sz m') hocc' hkey',
      contents_eq_some_of huniq hj hocc hkey]
    unfold valAt
    rw [hbkt_same j hj hji]
  · have habs : ∀ x, x < sz m → occ m x → keyAt m x ≠ k' := by
      intro x hx hocc hkey
      exact hpres ⟨x, hx, hocc, hkey⟩
    rw [contents_eq_none_iff.mpr habs, contents_eq_none_iff]
    intro x hx hocc'
    by_cases hxi : x = i
    · subst hxi
      exact havoid' hocc'
    · rw [hsz] at hx
      have hocc := (hocc_same x hx hxi).mp hocc'
      have : keyAt m' x = keyAt m x := by
        unfold keyAt
        rw [hbkt_same x hx hxi]
      rw [this]
      exact habs x hx hocc

theorem step_ne {N i : Nat} (hN : 2 ≤ N) (hi : i < N) : step N i ≠ i := by
  rw [step_eq hi]
  split <;> omega

theorem prev_ne {N i : Nat} (hN : 2 ≤ N) (hi : i < N) : prev N i ≠ i := by
  intro h
  have := step_prev (by omega : 0 < N) hi
  rw [h] at this
  exact step_ne hN hi this

/-- Robin Hood insertion of a key not present in the table: starting from a
mid-loop configuration (carried word `w`, carried entry `e`, slot `i`) that
satisfies the loop invariant, the insert loop succeeds, adds exactly the
carried binding, and preserves the structural invariant. -/
theorem setLoop_absent {hf : K → Nat} :
    ∀ (fuel : Nat) (m : Shard K V) (w : Nat) (e : K × V) (i : Nat),
      Inv0 hf m →
      countOcc m < sz m →
      countOcc m + 1 < 65536 →
      (∀ x, x < sz m → occ m x → keyAt m x ≠ e.1) →
      hashOf w = hash64 hf e.1 / 65536 →
      i < sz m →
      dibOf w = dist (sz m) (hashOf w % sz m) i + 1 →
      (∀ t, t < dibOf w - 1 → occ m (idx (sz m) (hashOf w % sz m) t)) →
      (2 ≤ dibOf w → dibOf w ≤ dibOf (hd m (prev (sz m) i)) + 1) →
      dibOf w ≤ countOcc m + 1 →
      (∃ t, t < fuel ∧ ¬ occ m (idx (sz m) i t)) →
      ∃ m', setLoop m w e i fuel = some (m', none) ∧
        Inv0 hf m' ∧
        sz m' = sz m ∧ m'.cap = m.cap ∧ m'.mask = m.mask ∧
        m'.growAt = m.growAt ∧ m'.shrinkAt = m.shrinkAt ∧
        m'.length = m.length + 1 ∧ countOcc m' = countOcc m + 1 ∧
        (∀ k', contents m' k' = if k' = e.1 then some e.2 else contents m k') := by
  intro fuel
  induction fuel with
  | zero =>
    rintro m w e i _ _ _ _ _ _ _ _ _ _ ⟨t, ht, -⟩
    omega
  | succ fuel ih =>
    rintro m w e i hInv hcount hbound habs hw_hash hi hL1 hL2 hL3 hL4 ⟨t0, ht0, hempty⟩
    have hN : 0 < sz m := by have := hInv.size_ge; omega
    have hN2 : 2 ≤ sz m := by have := hInv.size_ge; omega
    have hlenh : m.hdib.length = sz m := hInv.hdib_len
    have hlenb : m.buckets.length = sz m := rfl
    set h := hashOf w % sz m with hh_def
    have hh : h < sz m := Nat.mod_lt _ hN
    set d := dibOf w with hd_def
    have hd1 : 1 ≤ d := by omega
    have hidx_i : idx (sz m) h (d - 1) = i := by
      rw [show d - 1 = dist (sz m) h i by omega]
      exact idx_dist hh hi
    -- the slot after i, as seen from the carried home
    by_cases hocc_i : occ m i
    · -- slot i occupied: in every sub-case the run below i extends to i
      have hrun : ∀ t, t < d → occ m (idx (sz m) h t) := by
        intro t ht
        rcases Nat.lt_or_ge t (d - 1) with h' | h'
        · exact hL2 t h'
        · have : t = d - 1 := by omega
          rw [this, hidx_i]
          exact hocc_i
      have hd_count : d ≤ countOcc m := by
        refine occ_run_le_count hh (by omega) hrun
      have hmatch : ¬ (hashOf w = hashOf (hd m i) ∧ e.1 = (bkt m i).1) := by
        rintro ⟨-, hk⟩
        exact habs i hi hocc_i hk.symm
      have hstep_eq : i + 1 &&& m.mask = step (sz m) i := by
        rw [and_mask_eq hInv.size_pow hInv.mask_eq, step]
      have hempty_next : ∀ (mx : Shard K V), sz mx = sz m →
          (∀ x, x < sz m → x ≠ i → (occ mx x ↔ occ m x)) → occ mx i →
          ∃ t, t < fuel ∧ ¬ occ mx (idx (sz m) (step (sz m) i) t) := by
        intro mx hszx hoccx hoccxi
        have ht0' : t0 ≠ 0 := by
          rintro rfl
          rw [idx_zero hi] at hempty
          exact hempty hocc_i
        refine ⟨t0 - 1, by omega, ?_⟩
        rw [← idx_shift (by omega)]
        have hne_i : idx (sz m) i t0 ≠ i := by
          intro hcon
          rw [hcon] at hempty
          exact hempty hocc_i
        intro hcon
        exact hempty ((hoccx _ (idx_lt hN) hne_i).mp hcon)
      by_cases hswap : dibOf (hd m i) < d
      · -- Robin Hood swap at slot i
        set m1 : Shard K V :=
          { m with hdib := m.hdib.set i w, buckets := m.buckets.set i e } with hm1
        have hsz1 : sz m1 = sz m := by
          rw [hm1]
          simp [sz, List.length_set]
        have hd1_self : hd m1 i = w := by
          rw [hm1]
          simp only [hd_mk, hd]
          exact getD_set_self (by omega)
        have hd1_ne : ∀ x, x ≠ i → hd m1 x = hd m x := by
          intro x hx
          rw [hm1]
          simp only [hd_mk, hd]
          exact getD_set_ne (by omega)
        have hb1_self : bkt m1 i = e := by
          rw [hm1]
          simp only [bkt_mk, bkt]
          exact getD_set_self (by omega)
        have hb1_ne : ∀ x, x ≠ i → bkt m1 x = bkt m x := by
          intro x hx
          rw [hm1]
          simp only [bkt_mk, bkt]
          exact getD_set_ne (by omega)
        have hocc1_i : occ m1 i := by
          unfold occ
          rw [hd1_self, ← hd_def]
          omega
        have hocc1_ne : ∀ x, x ≠ i → (occ m1 x ↔ occ m x) := by
          intro x hx
          unfold occ
          rw [hd1_ne x hx]
        have hdib_old_ge1 : 1 ≤ dibOf (hd m i) := by
          have : dibOf (hd m i) ≠ 0 := hocc_i
          omega
        have hd2 : 2 ≤ d := by omega
        have hdisp_i : disp m i = dibOf (hd m i) - 1 := by
          have := hInv.dib_eq i hi hocc_i
          omega
        have hhome1 : ∀ x, x ≠ i → home m1 x = home m x := by
          intro x hx
          unfold home
          rw [hd1_ne x hx, hsz1]
        have hdisp1 : ∀ x, x ≠ i → disp m1 x = disp m x := by
          intro x hx
          unfold disp
          rw [hhome1 x hx, hsz1]
        have hcount1 : countOcc m1 = countOcc m := by
          have := countOcc_update hsz1 hi
            (fun x hx hxi => hocc1_ne x hxi)
          rw [if_pos hocc_i, if_pos hocc1_i] at this
          omega
        -- invariant for m1
        have hInv1 : Inv0 hf m1 := by
          refine ⟨?_, ?_, ?_, ?_, ?_, ?_, ?_, ?_, ?_, ?_, ?_, ?_⟩
          · rw [hm1]
            simpa [sz, List.length_set] using hlenh
          · rw [hsz1]; exact hInv.size_pow
          · rw [hsz1]; exact hInv.size_ge
          · rw [hm1]
            simpa [sz, List.length_set] using hInv.mask_eq
          · rw [hm1]
            simpa [sz, List.length_set] using hInv.grow_eq
          · rw [hm1]
            simpa [sz, List.length_set] using hInv.shrink_eq
          · rw [hcount1, hm1]
            exact hInv.len_eq
          · intro x hx hocc
            by_cases hxi : x = i
            · subst hxi
              rw [hd1_self]
              unfold keyAt
              rw [hb1_self, ← hw_hash]
            · rw [hsz1] at hx
              rw [hd1_ne x hxi]
              unfold keyAt
              rw [hb1_ne x hxi]
              exact hInv.hash_eq x hx ((hocc1_ne x hxi).mp hocc)
          · intro x hx hocc
            by_cases hxi : x = i
            · subst hxi
              rw [hd1_self, ← hd_def]
              unfold disp home
              rw [hd1_self, hsz1, ← hh_def]
              omega
            · rw [hsz1] at hx
              rw [hd1_ne x hxi, hdisp1 x hxi]
              exact hInv.dib_eq x hx ((hocc1_ne x hxi).mp hocc)
          · intro x hx hocc
            by_cases hxi : x = i
            · subst hxi
              unfold disp home
              rw [hd1_self, hsz1, ← hh_def]
              omega
            · rw [hsz1] at hx
              rw [hdisp1 x hxi]
              exact hInv.dib_lt x hx ((hocc1_ne x hxi).mp hocc)
          · intro x hx hocc hdib2
            rw [hsz1] at hx
            by_cases hxi : x = i
            · subst hxi
              have hprev : prev (sz m1) x = idx (sz m) h (d - 2) := by
                rw [hsz1]
                have : x = step (sz m) (idx (sz m) h (d - 2)) := by
                  rw [← idx_succ, show d - 2 + 1 = d - 1 by omega, hidx_i]
                rw [this, prev_step hN (idx_lt hN)]
              have hpne : idx (sz m) h (d - 2) ≠ x := by
                rw [← hprev]
                rw [hsz1]
                exact prev_ne hN2 hx
              rw [hd1_self, ← hd_def] at hdib2 ⊢
              constructor
              · rw [hprev]
                rw [(hocc1_ne _ hpne)]
                exact hL2 (d - 2) (by omega)
              · rw [hprev, hd1_ne _ hpne]
                have := hL3 hdib2
                have hprev_m : prev (sz m) x = idx (sz m) h (d - 2) := by
                  have hxs : x = step (sz m) (idx (sz m) h (d - 2)) := by
                    rw [← idx_succ, show d - 2 + 1 = d - 1 by omega, hidx_i]
                  rw [hxs, prev_step hN (idx_lt hN)]
                rw [← hprev_m]
                omega
            · have hocc_x : occ m x := (hocc1_ne x hxi).mp hocc
              rw [hd1_ne x hxi] at hdib2 ⊢
              have hold := hInv.run_ok x hx hocc_x hdib2
              by_cases hpxi : prev (sz m) x = i
              · -- the previous slot is the swapped slot: dib there only grew
                rw [hsz1, hpxi]
                constructor
                · exact hocc1_i
                · rw [hd1_self, ← hd_def]
                  rw [hpxi] at hold
                  omega
              · rw [hsz1, hd1_ne _ hpxi]
                rw [(hocc1_ne _ hpxi)]
                exact hold
          · intro x hx y hy hoccx hoccy hkeq
            rw [hsz1] at hx hy
            by_cases hxi : x = i <;> by_cases hyi : y = i
            · rw [hxi, hyi]
            · subst hxi
              exfalso
              unfold keyAt at hkeq
              rw [hb1_self, hb1_ne y hyi] at hkeq
              exact habs y hy ((hocc1_ne y hyi).mp hoccy) hkeq.symm
            · subst hyi
              exfalso
              unfold keyAt at hkeq
              rw [hb1_self, hb1_ne x hxi] at hkeq
              exact habs x hx ((hocc1_ne x hxi).mp hoccx) hkeq
            · refine hInv.uniq x hx y hy ((hocc1_ne x hxi).mp hoccx)
                ((hocc1_ne y hyi).mp hoccy) ?_
              unfold keyAt at hkeq ⊢
              rwa [hb1_ne x hxi, hb1_ne y hyi] at hkeq
        -- new carried word and entry
        set w' := withDib (hd m i) (dibOf (hd m i) + 1) with hw'
        set e' := bkt m i with he'
        have hdib_old_lt : dibOf (hd m i) ≤ countOcc m := by
          have := disp_lt_countOcc hInv hi hocc_i
          omega
        have hw'_dib : dibOf w' = dibOf (hd m i) + 1 := by
          rw [hw', dibOf_withDib]
          have : dibOf (hd m i) + 1 < 65536 := by omega
          omega
        have hw'_hashOf : hashOf w' = hashOf (hd m i) := by
          rw [hw', hashOf_withDib]
        have hh' : hashOf w' % sz m = home m i := by
          rw [hw'_hashOf]
          rfl
        have hstep_lt : step (sz m) i < sz m := step_lt hN
        have hds : dist (sz m) (home m i) (step (sz m) i) = disp m i + 1 := by
          have h1 := disp_lt_countOcc hInv hi hocc_i
          unfold disp at h1
          apply dist_step (home_lt hInv i) hi
          omega
        -- apply the induction hypothesis to the displaced entry
        obtain ⟨m', hrun', hInv', hsz', hcap', hmask', hgrow', hshrink',
            hlen', hcnt', hcont'⟩ :=
          ih m1 w' e' (step (sz m) i) hInv1
            (by rw [hcount1, hsz1]; exact hcount)
            (by rw [hcount1]; exact hbound)
            (by
              intro x hx hocc hkeq
              rw [hsz1] at hx
              by_cases hxi : x = i
              · subst hxi
                unfold keyAt at hkeq
                rw [hb1_self] at hkeq
                exact habs x hx hocc_i hkeq.symm
              · have hocc_x : occ m x := (hocc1_ne x hxi).mp hocc
                unfold keyAt at hkeq
                rw [hb1_ne x hxi] at hkeq
                exact hxi (hInv.uniq x hx i hi hocc_x hocc_i hkeq))
            (by
              rw [hw'_hashOf]
              exact hInv.hash_eq i hi hocc_i)
            (by rw [hsz1]; exact hstep_lt)
            (by
              rw [hsz1, hh', hds, hw'_dib]
              omega)
            (by
              intro t ht
              rw [hsz1, hh']
              rw [hw'_dib] at ht
              have hch := chain hInv hi hocc_i t (by omega)
              by_cases hti : idx (sz m) (home m i) t = i
              · rw [hti]
                exact hocc1_i
              · rw [(hocc1_ne _ hti)]
                exact hch.1)
            (by
              intro _
              rw [hsz1, prev_step hN hi, hd1_self, hw'_dib, ← hd_def]
              omega)
            (by
              rw [hcount1, hw'_dib]
              omega)
            (by
              rw [hsz1]
              exact hempty_next m1 hsz1 (fun x hx hxi => hocc1_ne x hxi) hocc1_i)
        refine ⟨m', ?_, hInv', hsz'.trans hsz1, hcap', hmask', hgrow', hshrink',
          hlen', by rw [hcnt', hcount1], ?_⟩
        · rw [setLoop]
          rw [if_neg (by simpa [occ] using hocc_i), if_neg hmatch,
            if_pos (by rw [← hd_def]; exact hswap), hstep_eq]
          exact hrun'
        · intro k'
          rw [hcont' k']
          have hkey_i : keyAt m1 i = e.1 := by
            unfold keyAt
            rw [hb1_self]
          by_cases hk1 : k' = e'.1
          · rw [if_pos hk1]
            have hne1 : ¬ k' = e.1 := by
              intro hcon
              exact habs i hi hocc_i (hk1.symm.trans hcon)
            rw [if_neg hne1]
            rw [contents_eq_some_of hInv.uniq hi hocc_i hk1.symm]
            rfl
          · rw [if_neg hk1]
            by_cases hk2 : k' = e.1
            · rw [if_pos hk2]
              rw [contents_eq_some_of hInv1.uniq (show i < sz m1 by rw [hsz1]; exact hi)
                hocc1_i (hkey_i.trans hk2.symm)]
              unfold valAt
              rw [hb1_self]
            · rw [if_neg hk2]
              refine contents_agree hInv.uniq hInv1.uniq hsz1
                (fun x hx hxi => hocc1_ne x hxi) (fun x hx hxi => hb1_ne x hxi) ?_ ?_
              · intro _ hcon
                exact hk1 hcon.symm
              · intro _ hcon
                exact hk2 (hcon.symm.trans hkey_i)
      · -- the resident is at least as poor: advance with the same entry
        have hdib_i_ge : d ≤ dibOf (hd m i) := by omega
        have hstep_lt : step (sz m) i < sz m := step_lt hN
        have hd_lt : d + 1 < 65536 := by omega
        obtain ⟨m', hrun', hInv', hsz', hcap', hmask', hgrow', hshrink',
            hlen', hcnt', hcont'⟩ :=
          ih m (withDib w (d + 1)) e (step (sz m) i) hInv hcount hbound habs
            (by rw [hashOf_withDib]; exact hw_hash)
            hstep_lt
            (by
              rw [dibOf_withDib, Nat.mod_eq_of_lt hd_lt, hashOf_withDib, ← hh_def]
              have : dist (sz m) h (step (sz m) i) = dist (sz m) h i + 1 := by
                apply dist_step hh hi
                omega
              omega)
            (by
              intro t ht
              rw [hashOf_withDib, ← hh_def]
              rw [dibOf_withDib, Nat.mod_eq_of_lt hd_lt] at ht
              exact hrun t (by omega))
            (by
              intro _
              rw [prev_step hN hi, dibOf_withDib, Nat.mod_eq_of_lt hd_lt]
              omega)
            (by
              rw [dibOf_withDib, Nat.mod_eq_of_lt hd_lt]
              omega)
            (hempty_next m rfl (fun x hx hxi => Iff.rfl) hocc_i)
        refine ⟨m', ?_, hInv', hsz', hcap', hmask', hgrow', hshrink',
          hlen', hcnt', hcont'⟩
        rw [setLoop]
        rw [if_neg (by simpa [occ] using hocc_i), if_neg hmatch,
          if_neg (by rw [← hd_def]; omega), hstep_eq, ← hd_def]
        exact hrun'
    · -- empty slot: place the carried entry here
      have hdib_i : dibOf (hd m i) = 0 := by
        simpa [occ] using hocc_i
      set me : Shard K V :=
        { m with
            hdib := m.hdib.set i w,
            buckets := m.buckets.set i e,
            length := m.length + 1 } with hme
      have hsze : sz me = sz m := by
        rw [hme]
        simp [sz, List.length_set]
      have hde_self : hd me i = w := by
        rw [hme]
        simp only [hd_mk, hd]
        exact getD_set_self (by omega)
      have hde_ne : ∀ x, x ≠ i → hd me x = hd m x := by
        intro x hx
        rw [hme]
        simp only [hd_mk, hd]
        exact getD_set_ne (by omega)
      have hbe_self : bkt me i = e := by
        rw [hme]
        simp only [bkt_mk, bkt]
        exact getD_set_self (by omega)
      have hbe_ne : ∀ x, x ≠ i → bkt me x = bkt m x := by
        intro x hx
        rw [hme]
        simp only [bkt_mk, bkt]
        exact getD_set_ne (by omega)
      have hocce_i : occ me i := by
        unfold occ
        rw [hde_self, ← hd_def]
        omega
      have hocce_ne : ∀ x, x ≠ i → (occ me x ↔ occ m x) := by
        intro x hx
        unfold occ
        rw [hde_ne x hx]
      have hhomee : ∀ x, x ≠ i → home me x = home m x := by
        intro x hx
        unfold home
        rw [hde_ne x hx, hsze]
      have hdispe : ∀ x, x ≠ i → disp me x = disp m x := by
        intro x hx
        unfold disp
        rw [hhomee x hx, hsze]
      have hcnte : countOcc me = countOcc m + 1 := by
        have := countOcc_update hsze hi
          (fun x hx hxi => hocce_ne x hxi)
        rw [if_neg hocc_i, if_pos hocce_i] at this
        omega
      have hkeye_i : keyAt me i = e.1 := by
        unfold keyAt
        rw [hbe_self]
      have hInve : Inv0 hf me := by
        refine ⟨?_, ?_, ?_, ?_, ?_, ?_, ?_, ?_, ?_, ?_, ?_, ?_⟩
        · rw [hme]
          simpa [sz, List.length_set] using hlenh
        · rw [hsze]; exact hInv.size_pow
        · rw [hsze]; exact hInv.size_ge
        · rw [hme]
          simpa [sz, List.length_set] using hInv.mask_eq
        · rw [hme]
          simpa [sz, List.length_set] using hInv.grow_eq
        · rw [hme]
          simpa [sz, List.length_set] using hInv.shrink_eq
        · rw [hcnte]
          have : me.length = m.length + 1 := rfl
          rw [this, hInv.len_eq]
        · intro x hx hocc
          by_cases hxi : x = i
          · subst hxi
            rw [hde_self, hkeye_i]
            exact hw_hash
          · rw [hsze] at hx
            rw [hde_ne x hxi]
            unfold keyAt
            rw [hbe_ne x hxi]
            exact hInv.hash_eq x hx ((hocce_ne x hxi).mp hocc)
        · intro x hx hocc
          by_cases hxi : x = i
          · subst hxi
            rw [hde_self, ← hd_def]
            unfold disp home
            rw [hde_self, hsze, ← hh_def]
            omega
          · rw [hsze] at hx
            rw [hde_ne x hxi, hdispe x hxi]
            exact hInv.dib_eq x hx ((hocce_ne x hxi).mp hocc)
        · intro x hx hocc
          by_cases hxi : x = i
          · subst hxi
            unfold disp home
            rw [hde_self, hsze, ← hh_def]
            omega
          · rw [hsze] at hx
            rw [hdispe x hxi]
            exact hInv.dib_lt x hx ((hocce_ne x hxi).mp hocc)
        · intro x hx hocc hdib2
          rw [hsze] at hx
          by_cases hxi : x = i
          · subst hxi
            rw [hde_self, ← hd_def] at hdib2 ⊢
            have hprev : prev (sz me) x = idx (sz m) h (d - 2) := by
              rw [hsze]
              have : x = step (sz m) (idx (sz m) h (d - 2)) := by
                rw [← idx_succ, show d - 2 + 1 = d - 1 by omega, hidx_i]
              rw [this, prev_step hN (idx_lt hN)]
            have hpne : idx (sz m) h (d - 2) ≠ x := by
              rw [← hprev, hsze]
              exact prev_ne hN2 hx
            constructor
            · rw [hprev, (hocce_ne _ hpne)]
              exact hL2 (d - 2) (by omega)
            · rw [hprev, hde_ne _ hpne]
              have := hL3 hdib2
              have hprev_m : prev (sz m) x = idx (sz m) h (d - 2) := by
                have hxs : x = step (sz m) (idx (sz m) h (d - 2)) := by
                  rw [← idx_succ, show d - 2 + 1 = d - 1 by omega, hidx_i]
                rw [hxs, prev_step hN (idx_lt hN)]
              rw [← hprev_m]
              omega
          · have hocc_x : occ m x := (hocce_ne x hxi).mp hocc
            rw [hde_ne x hxi] at hdib2 ⊢
            have hold := hInv.run_ok x hx hocc_x hdib2
            by_cases hpxi : prev (sz m) x = i
            · exfalso
              rw [hpxi] at hold
              exact hocc_i hold.1
            · rw [hsze, hde_ne _ hpxi, (hocce_ne _ hpxi)]
              exact hold
        · intro x hx y hy hoccx hoccy hkeq
          rw [hsze] at hx hy
          by_cases hxi : x = i <;> by_cases hyi : y = i
          · rw [hxi, hyi]
          · subst hxi
            exfalso
            unfold keyAt at hkeq
            rw [hbe_self, hbe_ne y hyi] at hkeq
            exact habs y hy ((hocce_ne y hyi).mp hoccy) hkeq.symm
          · subst hyi
            exfalso
            unfold keyAt at hkeq
            rw [hbe_self, hbe_ne x hxi] at hkeq
            exact habs x hx ((hocce_ne x hxi).mp hoccx) hkeq
          · refine hInv.uniq x hx y hy ((hocce_ne x hxi).mp hoccx)
              ((hocce_ne y hyi).mp hoccy) ?_
            unfold keyAt at hkeq ⊢
            rwa [hbe_ne x hxi, hbe_ne y hyi] at hkeq
      refine ⟨me, ?_, hInve, hsze, rfl, rfl, rfl, rfl, rfl, hcnte, ?_⟩
      · rw [setLoop]
        rw [if_pos hdib_i]
      · intro k'
        by_cases hk : k' = e.1
        · rw [if_pos hk]
          rw [contents_eq_some_of hInve.uniq (by rw [hsze]; exact hi) hocce_i
            (by rw [hkeye_i, hk])]
          unfold valAt
          rw [hbe_self]
        · rw [if_neg hk]
          refine contents_agree hInv.uniq hInve.uniq hsze
            (fun x hx hxi => hocce_ne x hxi) (fun x hx hxi => hbe_ne x hxi) ?_ ?_
          · intro hcon
            exact absurd hcon hocc_i
          · intro _ hcon
            exact hk (by rw [← hcon, hkeye_i])

/-! ### Specification of the inner `set` -/

theorem countOcc_congr {m m' : Shard K V} (hsz : sz m' = sz m)
    (hocc : ∀ x, occ m' x ↔ occ m x) : countOcc m' = countOcc m := by
  unfold countOcc
  rw [hsz]
  congr 1
  apply Finset.filter_congr
  intro x _
  simpa using hocc x

/-- `shard.set` with the key's own fingerprint hash: returns the previous
binding, updates the contents pointwise, and preserves the structural
invariant, the scalars and the table size. -/
theorem set_spec {hf : K → Nat} {m : Shard K V} (hInv : Inv0 hf m)
    (hcount : countOcc m < sz m) (hbound : countOcc m + 1 < 65536)
    (k : K) (v : V) :
    ∃ m' r, Shard.set m (hash64 hf k / 65536) k v = some (m', r) ∧
      r = contents m k ∧
      Inv0 hf m' ∧ sz m' = sz m ∧ m'.cap = m.cap ∧ m'.mask = m.mask ∧
      m'.growAt = m.growAt ∧ m'.shrinkAt = m.shrinkAt ∧
      m'.length = (if (contents m k).isSome then m.length else m.length + 1) ∧
      countOcc m' = (if (contents m k).isSome then countOcc m else countOcc m + 1) ∧
      (∀ k', contents m' k' = if k' = k then some v else contents m k') := by
  have hN : 0 < sz m := by have := hInv.size_ge; omega
  have hlenb : m.buckets.length = sz m := rfl
  have hlenh : m.hdib.length = sz m := hInv.hdib_len
  have hhlt : hash64 hf k / 65536 < 2 ^ 48 := hash64_div_lt hf k
  have hw_hash : hashOf (mkHdib (hash64 hf k / 65536)) = hash64 hf k / 65536 :=
    hashOf_mkHdib _ hhlt
  have hw_dib : dibOf (mkHdib (hash64 hf k / 65536)) = 1 :=
    dibOf_mkHdib _ hhlt
  have hstart : mkHdib (hash64 hf k / 65536) >>> 16 &&& m.mask =
      hash64 hf k / 65536 % sz m := by
    rw [show mkHdib (hash64 hf k / 65536) >>> 16 = hashOf (mkHdib (hash64 hf k / 65536))
      from rfl, hw_hash, and_mask_eq hInv.size_pow hInv.mask_eq]
  by_cases hpres : hasKey m k
  · obtain ⟨j, hj, hocc, hkey⟩ := hpres
    have hhash : hashOf (hd m j) = hash64 hf k / 65536 := by
      rw [hInv.hash_eq j hj hocc, hkey]
    have hhome : hash64 hf k / 65536 % sz m = idx (sz m) (home m j) 0 := by
      rw [idx_zero (home_lt hInv j)]
      unfold home
      rw [hhash]
    have hcont_k : contents m k = some (valAt m j) :=
      contents_eq_some_of hInv.uniq hj hocc hkey
    have hrun := setLoop_present (v := v) hInv hj hocc hkey (sz m) 0
      (mkHdib (hash64 hf k / 65536)) (by omega)
      (by have := disp_lt hInv hj; omega)
      (by rw [hw_hash, hhash]) (by rw [hw_dib])
    refine ⟨{ m with buckets := m.buckets.set j ((bkt m j).1, v) },
      some (valAt m j), ?_, hcont_k.symm, ?_, ?_, rfl, rfl, rfl, rfl, ?_, ?_, ?_⟩
    · show setLoop m (mkHdib (hash64 hf k / 65536)) (k, v)
        ((mkHdib (hash64 hf k / 65536) >>> 16) &&& m.mask) (sz m) = _
      rw [hstart, hhome]
      exact hrun
    · -- the invariant: only a stored value changed
      set mo : Shard K V := { m with buckets := m.buckets.set j ((bkt m j).1, v) }
        with hmo
      have hszo : sz mo = sz m := by
        rw [hmo]
        simp [sz, List.length_set]
      have hdo : ∀ x, hd mo x = hd m x := fun x => rfl
      have hbo_self : bkt mo j = ((bkt m j).1, v) := by
        rw [hmo]
        simp only [bkt_mk, bkt]
        exact getD_set_self (by omega)
      have hbo_ne : ∀ x, x ≠ j → bkt mo x = bkt m x := by
        intro x hx
        rw [hmo]
        simp only [bkt_mk, bkt]
        exact getD_set_ne (Ne.symm hx)
      have hkeyo : ∀ x, keyAt mo x = keyAt m x := by
        intro x
        by_cases hxj : x = j
        · subst hxj
          unfold keyAt
          rw [hbo_self]
        · unfold keyAt
          rw [hbo_ne x hxj]
      have hocco : ∀ x, occ mo x ↔ occ m x := fun x => Iff.rfl
      have hcnto : countOcc mo = countOcc m := countOcc_congr hszo hocco
      have hhomeo : ∀ x, home mo x = home m x := by
        intro x
        unfold home
        rw [hszo]
        rfl
      have hdispo : ∀ x, disp mo x = disp m x := by
        intro x
        unfold disp
        rw [hhomeo, hszo]
      refine ⟨?_, ?_, ?_, ?_, ?_, ?_, ?_, ?_, ?_, ?_, ?_, ?_⟩
      · rw [hszo]; exact hInv.hdib_len
      · rw [hszo]; exact hInv.size_pow
      · rw [hszo]; exact hInv.size_ge
      · rw [hszo]; exact hInv.mask_eq
      · rw [hszo]; exact hInv.grow_eq
      · rw [hszo]; exact hInv.shrink_eq
      · rw [hcnto]; exact hInv.len_eq
      · intro x hx hocc
        rw [hszo] at hx
        rw [hkeyo]
        exact hInv.hash_eq x hx hocc
      · intro x hx hocc
        rw [hszo] at hx
        rw [hdispo]
        exact hInv.dib_eq x hx hocc
      · intro x hx hocc
        rw [hszo] at hx
        rw [hdispo]
        exact hInv.dib_lt x hx hocc
      · intro x hx hocc hdib
        rw [hszo] at hx
        rw [hszo]
        exact hInv.run_ok x hx hocc hdib
      · intro x hx y hy hoccx hoccy hkeq
        rw [hszo] at hx hy
        rw [hkeyo, hkeyo] at hkeq
        exact hInv.uniq x hx y hy hoccx hoccy hkeq
    · simp [sz, List.length_set]
    · rw [hcont_k]
      rfl
    · rw [hcont_k]
      show countOcc _ = countOcc m
      exact countOcc_congr (by simp [sz, List.length_set]) (fun x => Iff.rfl)
    · -- contents after an overwrite
      intro k'
      set mo : Shard K V := { m with buckets := m.buckets.set j ((bkt m j).1, v) }
        with hmo
      have hszo : sz mo = sz m := by
        rw [hmo]
        simp [sz, List.length_set]
      have hbo_self : bkt mo j = ((bkt m j).1, v) := by
        rw [hmo]
        simp only [bkt_mk, bkt]
        exact getD_set_self (by omega)
      have hbo_ne : ∀ x, x ≠ j → bkt mo x = bkt m x := by
        intro x hx
        rw [hmo]
        simp only [bkt_mk, bkt]
        exact getD_set_ne (Ne.symm hx)
      have hkeyo : ∀ x, keyAt mo x = keyAt m x := by
        intro x
        by_cases hxj : x = j
        · subst hxj
          unfold keyAt
          rw [hbo_self]
        · unfold keyAt
          rw [hbo_ne x hxj]
      have huniqo : ∀ x < sz mo, ∀ y < sz mo, occ mo x → occ mo y →
          keyAt mo x = keyAt mo y → x = y := by
        intro x hx y hy hoccx hoccy hkeq
        rw [hszo] at hx hy
        rw [hkeyo, hkeyo] at hkeq
        exact hInv.uniq x hx y hy hoccx hoccy hkeq
      by_cases hk' : k' = k
      · rw [if_pos hk']
        rw [contents_eq_some_of huniqo (show j < sz mo by omega) hocc
          (by rw [hkeyo]; rw [hkey, hk'])]
        unfold valAt
        rw [hbo_self]
      · rw [if_neg hk']
        refine contents_agree hInv.uniq huniqo hszo
          (fun x hx hxj => Iff.rfl) (fun x hx hxj => hbo_ne x hxj) ?_ ?_
        · intro _ hcon
          exact hk' (hcon ▸ hkey ▸ rfl)
        · intro _ hcon
          refine hk' ?_
          rw [← hcon, hkeyo, hkey]
  · -- absent key: Robin Hood insertion from the home slot
    have habs : ∀ x, x < sz m → occ m x → keyAt m x ≠ k := by
      intro x hx hocc hkey
      exact hpres ⟨x, hx, hocc, hkey⟩
    have hcont_k : contents m k = none := contents_eq_none_iff.mpr habs
    have hsh : hash64 hf k / 65536 % sz m < sz m := Nat.mod_lt _ hN
    obtain ⟨j0, hj0, hj0emp⟩ := exists_empty hcount
    obtain ⟨m', hrun, hInv', hsz', hcap', hmask', hgrow', hshrink',
        hlen', hcnt', hcont'⟩ :=
      setLoop_absent (sz m) m (mkHdib (hash64 hf k / 65536)) (k, v)
        (hash64 hf k / 65536 % sz m) hInv hcount hbound habs
        (by rw [hw_hash])
        hsh
        (by rw [hw_dib, hw_hash, dist_self])
        (by rw [hw_dib]; omega)
        (by rw [hw_dib]; omega)
        (by rw [hw_dib]; omega)
        ⟨dist (sz m) (hash64 hf k / 65536 % sz m) j0, dist_lt hsh hj0,
          by rwa [idx_dist hsh hj0]⟩
    refine ⟨m', none, ?_, hcont_k.symm, hInv', hsz', hcap', hmask', hgrow',
      hshrink', ?_, ?_, ?_⟩
    · show setLoop m (mkHdib (hash64 hf k / 65536)) (k, v)
        ((mkHdib (hash64 hf k / 65536) >>> 16) &&& m.mask) (sz m) = _
      rw [hstart]
      exact hrun
    · rw [hcont_k]
      simpa using hlen'
    · rw [hcont_k]
      simpa using hcnt'
    · exact hcont'

/-! ### The size loop and `init` -/

theorem szGo_spec : ∀ (f sz0 : Nat) (c : Int), 1 ≤ sz0 →
    (c : Int) ≤ (sz0 : Int) * 2 ^ f →
    ∃ t, szGo f sz0 c = sz0 * 2 ^ t ∧ (c : Int) ≤ ((sz0 * 2 ^ t : Nat) : Int) ∧
      ∀ s, s < t → ((sz0 * 2 ^ s : Nat) : Int) < c := by
  intro f
  induction f with
  | zero =>
    intro sz0 c hsz hc
    refine ⟨0, by simp [szGo], ?_, by omega⟩
    push_cast
    simpa using hc
  | succ f ih =>
    intro sz0 c hsz hc
    by_cases hlt : (sz0 : Int) < c
    · have hc' : (c : Int) ≤ ((sz0 * 2 : Nat) : Int) * 2 ^ f := by
        push_cast
        push_cast at hc
        calc (c : Int) ≤ sz0 * 2 ^ (f + 1) := hc
          _ = sz0 * 2 * 2 ^ f := by ring
      obtain ⟨t, hgo, hub, hmin⟩ := ih (sz0 * 2) c (by omega) hc'
      refine ⟨t + 1, ?_, ?_, ?_⟩
      · rw [szGo, if_pos hlt, hgo]
        ring
      · calc (c : Int) ≤ ((sz0 * 2 * 2 ^ t : Nat) : Int) := hub
          _ = ((sz0 * 2 ^ (t + 1) : Nat) : Int) := by push_cast; ring
      · intro s hs
        cases s with
        | zero =>
          simpa using hlt
        | succ s =>
          have := hmin s (by omega)
          calc ((sz0 * 2 ^ (s + 1) : Nat) : Int)
              = ((sz0 * 2 * 2 ^ s : Nat) : Int) := by push_cast; ring
            _ < c := this
    · refine ⟨0, ?_, ?_, by omega⟩
      · rw [szGo, if_neg hlt]
        simp
      · push_cast
        simpa using not_lt.mp hlt

/-- The size loop from 8: result shape, lower bounds and minimality. -/
theorem szLoop_spec (c : Int) :
    ∃ t, szLoop 8 c = 8 * 2 ^ t ∧ (c : Int) ≤ ((8 * 2 ^ t : Nat) : Int) ∧
      ∀ s, s < t → ((8 * 2 ^ s : Nat) : Int) < c := by
  apply szGo_spec c.toNat 8 c (by omega)
  rcases Int.le_or_lt c 0 with h | h
  · calc (c : Int) ≤ 0 := h
      _ ≤ (8 : Int) * 2 ^ c.toNat := by positivity
  · have h1 : (c.toNat : Int) = c := Int.toNat_of_nonneg (by omega)
    have h2 : c.toNat < 2 ^ c.toNat := Nat.lt_two_pow c.toNat
    calc (c : Int) = (c.toNat : Int) := h1.symm
      _ ≤ ((2 ^ c.toNat : Nat) : Int) := by exact_mod_cast h2.le
      _ ≤ (8 : Int) * 2 ^ c.toNat := by push_cast; nlinarith [pow_pos (by norm_num : (0:Int) < 2) c.toNat]

theorem szLoop_ge8 (c : Int) : 8 ≤ szLoop 8 c := by
  obtain ⟨t, ht, -, -⟩ := szLoop_spec c
  rw [ht]
  have : 1 ≤ 2 ^ t := Nat.one_le_two_pow
  omega

theorem szLoop_pow2 (c : Int) : ∃ k, szLoop 8 c = 2 ^ k := by
  obtain ⟨t, ht, -, -⟩ := szLoop_spec c
  exact ⟨t + 3, by rw [ht]; ring⟩

theorem szLoop_ge_cap (c : Int) : c ≤ (szLoop 8 c : Int) := by
  obtain ⟨t, ht, hub, -⟩ := szLoop_spec c
  rw [ht]
  exact_mod_cast hub

/-- The loop result is minimal: either 8, or half of it is still below `c`. -/
theorem szLoop_min (c : Int) : szLoop 8 c = 8 ∨ ((szLoop 8 c : Nat) : Int) < 2 * c := by
  obtain ⟨t, ht, hub, hmin⟩ := szLoop_spec c
  cases t with
  | zero => left; rw [ht]; ring
  | succ t =>
    right
    have := hmin t (by omega)
    rw [ht]
    push_cast
    rw [pow_succ]
    push_cast at this
    linarith

/-- A power of two at least 8 is its own size-loop fixed point. -/
theorem szLoop_eq_self {c : Nat} (k : Nat) (hk : 3 ≤ k) (hc : c = 2 ^ k) :
    szLoop 8 (c : Int) = c := by
  obtain ⟨t, ht, hub, hmin⟩ := szLoop_spec (c : Int)
  subst hc
  rw [ht]
  have hub' : 2 ^ k ≤ 8 * 2 ^ t := by exact_mod_cast hub
  by_cases h0 : t = 0
  · subst h0
    have : 2 ^ k ≤ 8 := by simpa using hub'
    have h8 : (8 : Nat) = 2 ^ 3 := by norm_num
    have : k ≤ 3 := by
      by_contra hcon
      push_neg at hcon
      have : 2 ^ 4 ≤ 2 ^ k := Nat.pow_le_pow_right (by norm_num) (by omega)
      omega
    have hk3 : k = 3 := by omega
    subst hk3
    norm_num
  · have hlow := hmin (t - 1) (by omega)
    have hlow' : 8 * 2 ^ (t - 1) < 2 ^ k := by exact_mod_cast hlow
    have h1 : 2 ^ (t + 2) < 2 ^ k := by
      calc 2 ^ (t + 2) = 8 * 2 ^ (t - 1) := by
            rw [show t + 2 = 3 + (t - 1) by omega, pow_add]
            norm_num
        _ < 2 ^ k := hlow'
    have h2 : 2 ^ k ≤ 2 ^ (t + 3) := by
      calc 2 ^ k ≤ 8 * 2 ^ t := hub'
        _ = 2 ^ (t + 3) := by rw [pow_add]; ring
    have hkt : k = t + 3 := by
      have ha : t + 2 < k := (Nat.pow_lt_pow_iff_right (by norm_num)).mp h1
      have hb : k ≤ t + 3 := (Nat.pow_le_pow_iff_right (by norm_num)).mp h2
      omega
    rw [hkt, pow_add]
    ring

/-! ### `init` facts -/

theorem hd_init (c : Int) (i : Nat) : hd (Shard.init c : Shard K V) i = 0 := by
  unfold Shard.init hd
  simp only [hd_mk]
  rcases Nat.lt_or_ge i (szLoop 8 c) with h | h
  · rw [List.getD_eq_getElem?_getD, List.getElem?_replicate, if_pos h]
    rfl
  · rw [List.getD_eq_getElem?_getD, List.getElem?_replicate, if_neg (by omega)]
    rfl

theorem init_not_occ (c : Int) (i : Nat) : ¬ occ (Shard.init c : Shard K V) i := by
  unfold occ
  rw [hd_init]
  simp [dibOf]

theorem sz_init (c : Int) : sz (Shard.init c : Shard K V) = szLoop 8 c := by
  unfold Shard.init sz
  simp

theorem countOcc_init (c : Int) : countOcc (Shard.init c : Shard K V) = 0 := by
  unfold countOcc
  rw [Finset.card_eq_zero, Finset.filter_eq_empty_iff]
  intro x _
  exact init_not_occ c x

theorem contents_init (c : Int) (k : K) : contents (Shard.init c : Shard K V) k = none := by
  rw [contents_eq_none_iff]
  intro i _ hocc
  exact absurd hocc (init_not_occ c i)

theorem Inv0_init (hf : K → Nat) (c : Int) : Inv0 hf (Shard.init c : Shard K V) := by
  have hvac : ∀ i, i < sz (Shard.init c : Shard K V) →
      occ (Shard.init c : Shard K V) i → False := by
    intro i _ hocc
    exact absurd hocc (init_not_occ c i)
  refine ⟨?_, ?_, ?_, ?_, ?_, ?_, ?_, ?_, ?_, ?_, ?_, ?_⟩
  · unfold Shard.init
    simp [sz]
  · rw [sz_init]; exact szLoop_pow2 c
  · rw [sz_init]; exact szLoop_ge8 c
  · unfold Shard.init
    simp [sz]
  · unfold Shard.init
    simp [sz]
  · unfold Shard.init
    simp [sz]
  · rw [countOcc_init]
    rfl
  · intro i hi hocc
    exact (hvac i hi hocc).elim
  · intro i hi hocc
    exact (hvac i hi hocc).elim
  · intro i hi hocc
    exact (hvac i hi hocc).elim
  · intro i hi hocc
    exact (hvac i hi hocc).elim
  · intro i hi j hj hocc
    exact (hvac i hi hocc).elim

theorem init_length (c : Int) : (Shard.init c : Shard K V).length = 0 := rfl

theorem init_cap (c : Int) :
    (Shard.init c : Shard K V).cap = if 0 < c then ((szLoop 8 c : Nat) : Int) else c := rfl

/-! ### Resize -/

/-- Occupied slots strictly below index `i`. -/
def cntBelow (m : Shard K V) (i : Nat) : Nat :=
  ((Finset.range i).filter fun j => occ m j).card

/-- Some slot strictly below `i` holds key `k`. -/
def hasKeyBelow (m : Shard K V) (i : Nat) (k : K) : Prop :=
  ∃ j, j < i ∧ j < sz m ∧ occ m j ∧ keyAt m j = k

instance (m : Shard K V) (i : Nat) (k : K) : Decidable (hasKeyBelow m i k) := by
  unfold hasKeyBelow
  infer_instance

theorem cntBelow_succ (m : Shard K V) (i : Nat) :
    cntBelow m (i + 1) = cntBelow m i + (if occ m i then 1 else 0) := by
  unfold cntBelow
  rw [Finset.range_succ, Finset.filter_insert]
  split
  · rw [Finset.card_insert_of_not_mem (by simp)]
  · rw [Nat.add_zero]

theorem cntBelow_le (m : Shard K V) (i : Nat) (hi : i ≤ sz m) :
    cntBelow m i ≤ countOcc m := by
  unfold cntBelow countOcc
  apply Finset.card_le_card
  apply Finset.filter_subset_filter
  intro x hx
  rw [Finset.mem_range] at hx ⊢
  omega

theorem cntBelow_top (m : Shard K V) : cntBelow m (sz m) = countOcc m := rfl

/-- The reinsertion loop of `resize`: processing slots `i, i+1, …` of the
source `m` into an accumulator that holds exactly the entries below `i`. -/
theorem resizeLoop_spec {hf : K → Nat} {m : Shard K V} (hInv : Inv0 hf m)
    {S0 : Nat} (hS0 : countOcc m ≤ S0) (hbound : countOcc m < 65536) :
    ∀ fuel i nmap, i + fuel = sz m →
      Inv0 hf nmap → sz nmap = S0 →
      countOcc nmap = cntBelow m i →
      (∀ k', contents nmap k' =
        if hasKeyBelow m i k' then contents m k' else none) →
      ∃ out, resizeLoop m nmap i fuel = some out ∧
        Inv0 hf out ∧ sz out = S0 ∧ out.cap = nmap.cap ∧
        out.mask = nmap.mask ∧ out.growAt = nmap.growAt ∧
        out.shrinkAt = nmap.shrinkAt ∧
        countOcc out = countOcc m ∧
        (∀ k', contents out k' = contents m k') := by
  intro fuel
  induction fuel with
  | zero =>
    intro i nmap hisz hInvN hszN hcntN hcontN
    have hieq : i = sz m := by omega
    subst hieq
    refine ⟨nmap, rfl, hInvN, hszN, rfl, rfl, rfl, rfl, ?_, ?_⟩
    · rw [hcntN, cntBelow_top]
    · intro k'
      rw [hcontN k']
      by_cases hk : hasKey m k'
      · rw [if_pos ?_]
        obtain ⟨j, hj, hocc, hkey⟩ := hk
        exact ⟨j, hj, hj, hocc, hkey⟩
      · rw [if_neg ?_]
        · symm
          rw [contents_eq_none_iff]
          intro x hx hocc hkey
          exact hk ⟨x, hx, hocc, hkey⟩
        · rintro ⟨j, -, hj, hocc, hkey⟩
          exact hk ⟨j, hj, hocc, hkey⟩
  | succ fuel ih =>
    intro i nmap hisz hInvN hszN hcntN hcontN
    have hi : i < sz m := by omega
    by_cases hocc_i : occ m i
    · -- insert slot i's entry into the accumulator
      have hkabs : contents nmap (keyAt m i) = none := by
        rw [hcontN]
        rw [if_neg]
        rintro ⟨j, hji, hj, hoccj, hkeyj⟩
        have := hInv.uniq j hj i hi hoccj hocc_i hkeyj
        omega
      have hcnt_lt : countOcc nmap < sz nmap := by
        rw [hszN, hcntN]
        have h1 : cntBelow m (i + 1) ≤ countOcc m := cntBelow_le m (i + 1) (by omega)
        have h2 := cntBelow_succ m i
        rw [if_pos hocc_i] at h2
        omega
      have hcnt_bd : countOcc nmap + 1 < 65536 := by
        rw [hcntN]
        have h1 : cntBelow m (i + 1) ≤ countOcc m := cntBelow_le m (i + 1) (by omega)
        have h2 := cntBelow_succ m i
        rw [if_pos hocc_i] at h2
        omega
      obtain ⟨n', r, hset, hr, hInv', hsz', hcap', hmask', hgrow', hshrink',
          hlen', hcnt', hcont'⟩ :=
        set_spec hInvN hcnt_lt hcnt_bd (keyAt m i) (valAt m i)
      obtain ⟨out, hrun, hio, ho1, ho2, ho3, ho4, ho5, ho6, ho7⟩ :=
        ih (i + 1) n' (by omega) hInv' (by rw [hsz', hszN])
          (by
            rw [hcnt']
            simp only [hkabs]
            rw [cntBelow_succ m i, if_pos hocc_i, hcntN]
            simp)
          (by
            intro k'
            rw [hcont' k']
            by_cases hk : k' = keyAt m i
            · rw [if_pos hk, if_pos ⟨i, by omega, hi, hocc_i, hk.symm⟩]
              rw [hk]
              exact (contents_eq_some_of hInv.uniq hi hocc_i rfl).symm
            · rw [if_neg hk, hcontN k']
              by_cases hkb : hasKeyBelow m i k'
              · rw [if_pos hkb]
                obtain ⟨j, hji, hj, hoccj, hkeyj⟩ := hkb
                rw [if_pos ⟨j, by omega, hj, hoccj, hkeyj⟩]
              · rw [if_neg hkb, if_neg]
                rintro ⟨j, hji, hj, hoccj, hkeyj⟩
                rcases Nat.lt_or_ge j i with h' | h'
                · exact hkb ⟨j, h', hj, hoccj, hkeyj⟩
                · have : j = i := by omega
                  subst this
                  exact hk hkeyj.symm)
      refine ⟨out, ?_, hio, ho1, by rw [ho2, hcap'], by rw [ho3, hmask'],
        by rw [ho4, hgrow'], by rw [ho5, hshrink'], ho6, ho7⟩
      rw [resizeLoop]
      rw [if_pos (by simpa [occ] using hocc_i)]
      rw [show hashOf (hd m i) = hash64 hf (keyAt m i) / 65536 from
        hInv.hash_eq i hi hocc_i]
      rw [show (bkt m i).1 = keyAt m i from rfl, show (bkt m i).2 = valAt m i from rfl]
      rw [hset]
      exact hrun
    · -- skip an empty slot
      obtain ⟨out, hrun, hio, ho1, ho2, ho3, ho4, ho5, ho6, ho7⟩ :=
        ih (i + 1) nmap (by omega) hInvN hszN
          (by
            rw [cntBelow_succ m i, if_neg hocc_i, hcntN]
            omega)
          (by
            intro k'
            rw [hcontN k']
            by_cases hkb : hasKeyBelow m i k'
            · rw [if_pos hkb]
              obtain ⟨j, hji, hj, hoccj, hkeyj⟩ := hkb
              rw [if_pos ⟨j, by omega, hj, hoccj, hkeyj⟩]
            · rw [if_neg hkb, if_neg]
              rintro ⟨j, hji, hj, hoccj, hkeyj⟩
              rcases Nat.lt_or_ge j i with h' | h'
              · exact hkb ⟨j, h', hj, hoccj, hkeyj⟩
              · have : j = i := by omega
                subst this
                exact hocc_i hoccj)
      refine ⟨out, ?_, hio, ho1, ho2, ho3, ho4, ho5, ho6, ho7⟩
      rw [resizeLoop]
      rw [if_neg (by simpa [occ] using hocc_i)]
      exact hrun

/-- `shard.resize(newCap)`: bit-exact content preservation, fresh scalars,
and the old `cap` restored. -/
theorem resize_spec {hf : K → Nat} {m : Shard K V} (hInv : Inv0 hf m)
    (c : Int) (hle : countOcc m ≤ szLoop 8 c) (hbound : countOcc m < 65536) :
    ∃ m', Shard.resize m c = some m' ∧ Inv0 hf m' ∧ sz m' = szLoop 8 c ∧
      m'.cap = m.cap ∧ m'.length = m.length ∧ countOcc m' = countOcc m ∧
      m'.mask = szLoop 8 c - 1 ∧ m'.growAt = 17 * szLoop 8 c / 20 ∧
      m'.shrinkAt = 3 * szLoop 8 c / 20 ∧
      (∀ k', contents m' k' = contents m k') := by
  obtain ⟨out, hrun, hio, ho1, ho2, ho3, ho4, ho5, ho6, ho7⟩ :=
    resizeLoop_spec hInv hle hbound (sz m) 0 (Shard.init c)
      (by omega) (Inv0_init hf c) (sz_init c)
      (by rw [countOcc_init]; rfl)
      (by
        intro k'
        rw [contents_init]
        rw [if_neg]
        rintro ⟨j, hj, -, -, -⟩
        omega)
  have hcap_init : (Shard.init c : Shard K V).mask = szLoop 8 c - 1 := rfl
  refine ⟨{ out with cap := m.cap }, ?_, ?_, ho1, rfl, ?_, ho6, ?_, ?_, ?_, ?_⟩
  · unfold Shard.resize
    rw [hrun]
  · -- Inv0 ignores `cap`
    obtain ⟨a1, a2, a3, a4, a5, a6, a7, a8, a9, a10, a11, a12⟩ := hio
    exact ⟨a1, a2, a3, a4, a5, a6, a7, a8, a9, a10, a11, a12⟩
  · show out.length = m.length
    have h1 : out.length = countOcc out := hio.len_eq
    rw [h1, ho6, ← hInv.len_eq]
  · show out.mask = szLoop 8 c - 1
    rw [ho3]
    rfl
  · show out.growAt = 17 * szLoop 8 c / 20
    rw [ho4]
    show (Shard.init c : Shard K V).growAt = _
    unfold Shard.init
    simp
  · show out.shrinkAt = 3 * szLoop 8 c / 20
    rw [ho5]
    show (Shard.init c : Shard K V).shrinkAt = _
    unfold Shard.init
    simp
  · intro k'
    show contents out k' = contents m k'
    exact ho7 k'

/-! ### The public `Set` -/

/-- `shard.Set` with the key's fingerprint: grows the table exactly when
`length ≥ growAt` (doubling it), then performs the insert; the full
operation invariant `Inv` is preserved. -/
theorem Set_spec {hf : K → Nat} {m : Shard K V} (hInv : Inv hf m)
    (hbound : m.length + 1 < 65536) (k : K) (v : V) :
    ∃ m' r, Shard.Set m (hash64 hf k) k v = some (m', r) ∧
      r = contents m k ∧ Inv hf m' ∧ m'.cap = m.cap ∧
      m'.length = (if (contents m k).isSome then m.length else m.length + 1) ∧
      (∀ k', contents m' k' = if k' = k then some v else contents m k') ∧
      sz m' = (if m.growAt ≤ m.length then 2 * sz m else sz m) := by
  obtain ⟨hInv0, hlen_le, hshrink_ok⟩ := hInv
  have hN8 : 8 ≤ sz m := hInv0.size_ge
  have hsz_ne : ¬ sz m = 0 := by omega
  have hgrow_lt : m.growAt < sz m := by
    rw [hInv0.grow_eq]
    omega
  have hcnt_eq : countOcc m = m.length := hInv0.len_eq.symm
  have hsh : hash64 hf k >>> 16 = hash64 hf k / 65536 := Nat.shiftRight_eq_div_pow _ _
  by_cases hgrow : m.growAt ≤ m.length
  · -- grow first: resize to 2 * sz
    obtain ⟨kk, hkk⟩ := hInv0.size_pow
    have hkk3 : 3 ≤ kk := by
      by_contra hcon
      push_neg at hcon
      interval_cases kk <;> omega
    have h2sz : szLoop 8 ((2 * sz m : Nat) : Int) = 2 * sz m := by
      apply szLoop_eq_self (kk + 1) (by omega)
      rw [hkk]
      ring
    obtain ⟨m1, hres, hInv1, hsz1, hcap1, hlen1, hcnt1, hmask1, hgrow1,
        hshrink1, hcont1⟩ :=
      resize_spec hInv0 ((2 * sz m : Nat) : Int)
        (by rw [h2sz, hcnt_eq]; omega) (by omega)
    rw [h2sz] at hsz1 hmask1 hgrow1 hshrink1
    obtain ⟨m', r, hset, hr, hInv', hsz', hcap', hmask', hgrow', hshrink',
        hlen', hcnt', hcont'⟩ :=
      set_spec hInv1 (by rw [hsz1, hcnt1, hcnt_eq]; omega)
        (by rw [hcnt1, hcnt_eq]; omega) k v
    have hcontk : contents m1 k = contents m k := hcont1 k
    refine ⟨m', r, ?_, by rw [hr, hcontk], ⟨hInv', ?_, ?_⟩,
      by rw [hcap', hcap1], ?_, ?_, ?_⟩
    · unfold Shard.Set
      rw [if_neg hsz_ne]
      simp only [if_pos hgrow]
      rw [hres, hsh]
      exact hset
    · -- load factor after growing
      rw [hlen', hgrow', hgrow1, hcontk, hlen1]
      rw [hInv0.grow_eq] at hlen_le
      split <;> omega
    · -- shrink discipline after growing: length is far above the new shrinkAt
      intro _ _
      rw [hlen', hshrink', hshrink1, hcontk, hlen1]
      rw [hInv0.grow_eq] at hgrow
      split <;> omega
    · rw [hlen', hcontk, hlen1]
    · intro k'
      rw [hcont' k', hcont1 k']
    · rw [hsz', hsz1, if_pos hgrow]
  · -- no resize
    obtain ⟨m', r, hset, hr, hInv', hsz', hcap', hmask', hgrow', hshrink',
        hlen', hcnt', hcont'⟩ :=
      set_spec hInv0 (by omega) (by omega) k v
    refine ⟨m', r, ?_, hr, ⟨hInv', ?_, ?_⟩, hcap', hlen', hcont', ?_⟩
    · unfold Shard.Set
      rw [if_neg hsz_ne]
      simp only [if_neg hgrow]
      rw [hsh]
      exact hset
    · rw [hlen', hgrow']
      split <;> omega
    · intro hc h8
      rw [hsz'] at hc h8
      rw [hcap'] at hc
      have := hshrink_ok hc h8
      rw [hlen', hshrink']
      split <;> omega
    · rw [hsz', if_neg hgrow]

/-! ### Backward-shift deletion -/

theorem dist_step_base {N i x : Nat} (hi : i < N) (hx : x < N)
    (h1 : 1 ≤ dist N i x) : dist N (step N i) x = dist N i x - 1 := by
  have hN : 0 < N := by omega
  have hs : x = idx N i (dist N i x) := (idx_dist hi hx).symm
  have h2 : dist N i x < N := dist_lt hi hx
  conv_lhs => rw [hs, idx_shift h1]
  exact dist_idx (step_lt hN) (by omega)

theorem dist_step_self {N i : Nat} (hi : i < N) : dist N (step N i) i = N - 1 := by
  rw [step_eq hi]
  unfold dist
  split <;> split <;> omega

theorem idx_ne_base {N i t : Nat} (hi : i < N) (ht1 : 1 ≤ t) (ht2 : t < N) :
    idx N i t ≠ i := by
  intro hcon
  have := dist_idx hi ht2
  rw [hcon, dist_self] at this
  omega

/-- The backward-shift loop: if the slots at cyclic distances `1 … D-1`
from the hole all carry `dib ≥ 2` and the slot at distance `D` carries
`dib ≤ 1`, the loop shifts those `D-1` entries back one slot (decrementing
their dib fields), clears the slot at distance `D-1`, and leaves the rest
untouched. -/
theorem removeLoop_spec :
    ∀ (fuel : Nat) (m : Shard K V) (i D : Nat),
      m.hdib.length = sz m → (∃ kk, sz m = 2 ^ kk) → m.mask = sz m - 1 →
      8 ≤ sz m → i < sz m → 1 ≤ D → D < sz m → D ≤ fuel →
      (∀ t, 1 ≤ t → t < D → 2 ≤ dibOf (hd m (idx (sz m) i t))) →
      dibOf (hd m (idx (sz m) i D)) ≤ 1 →
      ∃ out, removeLoop m i fuel = some out ∧
        sz out = sz m ∧ out.hdib.length = m.hdib.length ∧
        out.cap = m.cap ∧ out.length = m.length ∧ out.mask = m.mask ∧
        out.growAt = m.growAt ∧ out.shrinkAt = m.shrinkAt ∧
        (∀ x, x < sz m →
          (dist (sz m) i x + 2 ≤ D →
            hd out x = withDib (hd m (step (sz m) x))
              (dibOf (hd m (step (sz m) x)) - 1) ∧
            bkt out x = bkt m (step (sz m) x)) ∧
          (dist (sz m) i x + 1 = D → hd out x = 0 ∧ bkt out x = default) ∧
          (D ≤ dist (sz m) i x → hd out x = hd m x ∧ bkt out x = bkt m x)) := by
  intro fuel
  induction fuel with
  | zero =>
    intro m i D _ _ _ _ _ hD1 _ hDf _ _
    omega
  | succ fuel ih =>
    intro m i D hlen hpow hmask hN8 hi hD1 hDsz hDf hrun hterm
    have hN : 0 < sz m := by omega
    have hlenb : m.buckets.length = sz m := rfl
    have hstep_eq : (i + 1) &&& m.mask = step (sz m) i := by
      rw [and_mask_eq hpow hmask, step]
    have hidx1 : idx (sz m) i 1 = step (sz m) i := by
      rw [show (1 : Nat) = 0 + 1 from rfl, idx_succ, idx_zero hi]
    have hrm : removeLoop m i (fuel + 1) =
        (if dibOf (hd m ((i + 1) &&& m.mask)) ≤ 1 then
          some { m with buckets := m.buckets.set i default, hdib := m.hdib.set i 0 }
        else
          removeLoop
            { m with
                buckets := m.buckets.set i (bkt m ((i + 1) &&& m.mask)),
                hdib := m.hdib.set i (withDib (hd m ((i + 1) &&& m.mask))
                  (dibOf (hd m ((i + 1) &&& m.mask)) - 1)) }
            ((i + 1) &&& m.mask) fuel) := rfl
    by_cases hD : D = 1
    · -- terminator immediately after the hole: clear it
      subst hD
      rw [hidx1] at hterm
      set out : Shard K V :=
        { m with buckets := m.buckets.set i default, hdib := m.hdib.set i 0 }
        with hout
      have hsz_out : sz out = sz m := by
        rw [hout]
        simp [sz, List.length_set]
      refine ⟨out, ?_, hsz_out, ?_, rfl, rfl, rfl, rfl, rfl, ?_⟩
      · rw [hrm, hstep_eq, if_pos hterm]
      · rw [hout]
        simp [List.length_set]
      · intro x hx
        refine ⟨by omega, ?_, ?_⟩
        · intro hdist
          have hxi : x = i := by
            have h0 : dist (sz m) i x = 0 := by omega
            have := idx_dist hi hx
            rw [h0] at this
            rw [← this, idx_zero hi]
          subst hxi
          constructor
          · rw [hout]
            simp only [hd_mk, hd]
            exact getD_set_self (by omega)
          · rw [hout]
            simp only [bkt_mk, bkt]
            exact getD_set_self (by omega)
        · intro hdist
          have hxi : x ≠ i := by
            intro hcon
            subst hcon
            rw [dist_self] at hdist
            omega
          constructor
          · rw [hout]
            simp only [hd_mk, hd]
            exact getD_set_ne (fun hcon => hxi hcon.symm)
          · rw [hout]
            simp only [bkt_mk, bkt]
            exact getD_set_ne (fun hcon => hxi hcon.symm)
    · -- shift the successor back and continue from it
      have hD2 : 2 ≤ D := by omega
      have hd_succ : 2 ≤ dibOf (hd m (step (sz m) i)) := by
        rw [← hidx1]
        exact hrun 1 (by omega) (by omega)
      set m1 : Shard K V :=
        { m with
            buckets := m.buckets.set i (bkt m ((i + 1) &&& m.mask)),
            hdib := m.hdib.set i (withDib (hd m ((i + 1) &&& m.mask))
              (dibOf (hd m ((i + 1) &&& m.mask)) - 1)) } with hm1
      have hsz1 : sz m1 = sz m := by
        rw [hm1]
        simp [sz, List.length_set]
      have hlen1 : m1.hdib.length = sz m1 := by
        rw [hm1, hsz1]
        simpa [List.length_set] using hlen
      have hd1_self : hd m1 i = withDib (hd m (step (sz m) i))
          (dibOf (hd m (step (sz m) i)) - 1) := by
        rw [hm1]
        simp only [hd_mk, hd, hstep_eq]
        exact getD_set_self (by omega)
      have hb1_self : bkt m1 i = bkt m (step (sz m) i) := by
        rw [hm1]
        simp only [bkt_mk, bkt, hstep_eq]
        exact getD_set_self (by omega)
      have hd1_ne : ∀ x, x ≠ i → hd m1 x = hd m x := by
        intro x hx
        rw [hm1]
        simp only [hd_mk, hd]
        exact getD_set_ne (fun hcon => hx hcon.symm)
      have hb1_ne : ∀ x, x ≠ i → bkt m1 x = bkt m x := by
        intro x hx
        rw [hm1]
        simp only [bkt_mk, bkt]
        exact getD_set_ne (fun hcon => hx hcon.symm)
      have hidx_shift : ∀ t, idx (sz m) (step (sz m) i) t = idx (sz m) i (t + 1) := by
        intro t
        rw [idx_shift (show 1 ≤ t + 1 by omega)]
        simp
      obtain ⟨out, hloop, ho_sz, ho_len, ho_cap, ho_length, ho_mask, ho_grow,
          ho_shrink, ho_desc⟩ :=
        ih m1 (step (sz m) i) (D - 1)
          hlen1 (by rw [hsz1]; exact hpow) (by rw [hm1, hsz1]; simpa using hmask)
          (by rw [hsz1]; exact hN8) (by rw [hsz1]; exact step_lt hN)
          (by omega) (by rw [hsz1]; omega) (by omega)
          (by
            intro t ht1 ht2
            rw [hsz1, hidx_shift t, hd1_ne _ (idx_ne_base hi (by omega) (by omega))]
            exact hrun (t + 1) (by omega) (by omega))
          (by
            rw [hsz1, hidx_shift (D - 1), show D - 1 + 1 = D by omega,
              hd1_ne _ (idx_ne_base hi (by omega) (by omega))]
            exact hterm)
      rw [hsz1] at ho_desc ho_sz
      refine ⟨out, ?_, ho_sz, ?_, ho_cap, ho_length, ?_, ho_grow, ho_shrink, ?_⟩
      · rw [hrm, hstep_eq, if_neg (by omega), ← hstep_eq]
        rw [hstep_eq]
        exact hloop
      · rw [ho_len, hm1]
        simp [List.length_set]
      · rw [ho_mask, hm1]
      · -- translate the description one step back
        intro x hx
        by_cases hxi : x = i
        · subst hxi
          rw [dist_self]
          have hdist_j : dist (sz m) (step (sz m) x) x = sz m - 1 :=
            dist_step_self hx
          obtain ⟨hh, hb⟩ := (ho_desc x hx).2.2 (by omega)
          refine ⟨?_, by omega, by omega⟩
          intro _
          rw [hh, hb, hd1_self, hb1_self]
          exact ⟨rfl, rfl⟩
        · have hs1 : 1 ≤ dist (sz m) i x := by
            rcases Nat.eq_zero_or_pos (dist (sz m) i x) with h0 | h0
            · exfalso
              apply hxi
              have := idx_dist hi hx
              rw [h0, idx_zero hi] at this
              omega
            · omega
          have hslt : dist (sz m) i x < sz m := dist_lt hi hx
          have hds : dist (sz m) (step (sz m) i) x = dist (sz m) i x - 1 :=
            dist_step_base hi hx hs1
          have hdesc_x := ho_desc x hx
          rw [hds] at hdesc_x
          refine ⟨?_, ?_, ?_⟩
          · intro hcase
            obtain ⟨hh, hb⟩ := hdesc_x.1 (by omega)
            have hstep_ne : step (sz m) x ≠ i := by
              have h1 : idx (sz m) i (dist (sz m) i x + 1) =
                  step (sz m) (idx (sz m) i (dist (sz m) i x)) := idx_succ
              have h2 : step (sz m) x = idx (sz m) i (dist (sz m) i x + 1) := by
                rw [h1, idx_dist hi hx]
              rw [h2]
              exact idx_ne_base hi (by omega) (by omega)
            rw [hh, hb, hd1_ne _ hstep_ne, hb1_ne _ hstep_ne]
            exact ⟨rfl, rfl⟩
          · intro hcase
            exact hdesc_x.2.1 (by omega)
          · intro hcase
            obtain ⟨hh, hb⟩ := hdesc_x.2.2 (by omega)
            rw [hh, hb, hd1_ne _ hxi, hb1_ne _ hxi]
            exact ⟨rfl, rfl⟩

/-- Change in occupied-slot count when exactly two slots may change. -/
theorem countOcc_update2 {m m' : Shard K V} (hsz : sz m' = sz m) {j1 j2 : Nat}
    (hj1 : j1 < sz m) (hj2 : j2 < sz m) (hne : j1 ≠ j2)
    (hsame : ∀ x, x < sz m → x ≠ j1 → x ≠ j2 → (occ m' x ↔ occ m x)) :
    countOcc m' + (if occ m j1 then 1 else 0) + (if occ m j2 then 1 else 0) =
      countOcc m + (if occ m' j1 then 1 else 0) + (if occ m' j2 then 1 else 0) := by
  unfold countOcc
  rw [hsz]
  have key : ∀ (p : Nat → Prop) (_ : DecidablePred p),
      ((Finset.range (sz m)).filter fun i => p i).card =
        ((((Finset.range (sz m)).erase j1).erase j2).filter fun i => p i).card
          + (if p j1 then 1 else 0) + (if p j2 then 1 else 0) := by
    intro p hp
    have hj1m : j1 ∈ Finset.range (sz m) := Finset.mem_range.mpr hj1
    have hj2m : j2 ∈ (Finset.range (sz m)).erase j1 :=
      Finset.mem_erase.mpr ⟨fun h => hne h.symm, Finset.mem_range.mpr hj2⟩
    have step1 : ∀ (s : Finset Nat) (a : Nat), a ∈ s →
        ((s.filter fun i => p i).card =
          ((s.erase a).filter fun i => p i).card + (if p a then 1 else 0)) := by
      intro s a ha
      by_cases hpa : p a
      · rw [if_pos hpa]
        have : s.filter (fun i => p i) =
            insert a ((s.erase a).filter fun i => p i) := by
          ext x
          simp only [Finset.mem_filter, Finset.mem_insert, Finset.mem_erase]
          constructor
          · rintro ⟨hx, hpx⟩
            by_cases hxa : x = a
            · exact Or.inl hxa
            · exact Or.inr ⟨⟨hxa, hx⟩, hpx⟩
          · rintro (rfl | ⟨⟨_, hx⟩, hpx⟩)
            · exact ⟨ha, hpa⟩
            · exact ⟨hx, hpx⟩
        rw [this, Finset.card_insert_of_not_mem (by simp)]
      · rw [if_neg hpa, Nat.add_zero]
        congr 1
        ext x
        simp only [Finset.mem_filter, Finset.mem_erase]
        constructor
        · rintro ⟨hx, hpx⟩
          refine ⟨⟨?_, hx⟩, hpx⟩
          rintro rfl
          exact hpa hpx
        · rintro ⟨⟨_, hx⟩, hpx⟩
          exact ⟨hx, hpx⟩
    rw [step1 (Finset.range (sz m)) j1 hj1m,
      step1 ((Finset.range (sz m)).erase j1) j2 hj2m]
    ring
  rw [key (fun i => occ m' i) inferInstance, key (fun i => occ m i) inferInstance]
  have hcongr : ((((Finset.range (sz m)).erase j1).erase j2).filter fun i => occ m' i) =
      ((((Finset.range (sz m)).erase j1).erase j2).filter fun i => occ m i) := by
    apply Finset.filter_congr
    intro x hx
    rw [Finset.mem_erase, Finset.mem_erase, Finset.mem_range] at hx
    simpa using hsame x hx.2.2 hx.2.1 hx.1
  rw [hcongr]
  omega

/-- Unfolding equation for `Shard.remove` once the backward-shift loop's
result is known. -/
theorem remove_eq {m m0 out : Shard K V} {i : Nat}
    (hm0 : m0 = { m with hdib := m.hdib.set i (withDib (hd m i) 0) })
    (h : removeLoop m0 i (sz m0) = some out) :
    Shard.remove m i =
      (if ({ out with length := out.length - 1 } : Shard K V).cap <
          (sz ({ out with length := out.length - 1 } : Shard K V) : Int) ∧
          ({ out with length := out.length - 1 } : Shard K V).length ≤
            ({ out with length := out.length - 1 } : Shard K V).shrinkAt then
        Shard.resize ({ out with length := out.length - 1 } : Shard K V)
          (({ out with length := out.length - 1 } : Shard K V).length : Nat)
      else some ({ out with length := out.length - 1 } : Shard K V)) := by
  subst hm0
  show (match removeLoop { m with hdib := m.hdib.set i (withDib (hd m i) 0) } i
      (sz { m with hdib := m.hdib.set i (withDib (hd m i) 0) }) with
    | none => (none : Option (Shard K V))
    | some m1 =>
      let m2 : Shard K V := { m1 with length := m1.length - 1 }
      if m2.cap < (sz m2 : Int) ∧ m2.length ≤ m2.shrinkAt then
        Shard.resize m2 (m2.length : Nat)
      else some m2) = _
  rw [h]

/-- `shard.remove(i)` on an occupied slot: removes exactly that binding,
restores the invariant, and shrinks exactly under the source's condition. -/
theorem remove_spec {hf : K → Nat} {m : Shard K V} (hInv : Inv0 hf m)
    (hcount : countOcc m < sz m) (hbound : countOcc m < 65536)
    {j : Nat} (hj : j < sz m) (hocc_j : occ m j) :
    ∃ m', Shard.remove m j = some m' ∧ Inv0 hf m' ∧ m'.cap = m.cap ∧
      m'.length = m.length - 1 ∧ countOcc m' = countOcc m - 1 ∧
      (∀ k', contents m' k' = if k' = keyAt m j then none else contents m k') ∧
      ((m.cap < (sz m : Int) ∧ m.length - 1 ≤ m.shrinkAt) →
        sz m' = szLoop 8 ((m.length - 1 : Nat) : Int) ∧
        m'.mask = szLoop 8 ((m.length - 1 : Nat) : Int) - 1 ∧
        m'.growAt = 17 * szLoop 8 ((m.length - 1 : Nat) : Int) / 20 ∧
        m'.shrinkAt = 3 * szLoop 8 ((m.length - 1 : Nat) : Int) / 20) ∧
      (¬(m.cap < (sz m : Int) ∧ m.length - 1 ≤ m.shrinkAt) →
        sz m' = sz m ∧ m'.mask = m.mask ∧ m'.growAt = m.growAt ∧
        m'.shrinkAt = m.shrinkAt) := by
  have hN8 : 8 ≤ sz m := hInv.size_ge
  have hN : 0 < sz m := by omega
  have hlenh : m.hdib.length = sz m := hInv.hdib_len
  have hlenb : m.buckets.length = sz m := rfl
  -- step 1: the marked state m0
  set m0 : Shard K V := { m with hdib := m.hdib.set j (withDib (hd m j) 0) }
    with hm0
  have hsz0 : sz m0 = sz m := rfl
  have hd0_self : hd m0 j = withDib (hd m j) 0 := by
    rw [hm0]
    simp only [hd_mk, hd]
    exact getD_set_self (by omega)
  have hd0_ne : ∀ x, x ≠ j → hd m0 x = hd m x := by
    intro x hx
    rw [hm0]
    simp only [hd_mk, hd]
    exact getD_set_ne (fun hcon => hx hcon.symm)
  have hb0 : ∀ x, bkt m0 x = bkt m x := fun x => rfl
  have hocc0_j : ¬ occ m0 j := by
    unfold occ
    rw [hd0_self, dibOf_withDib]
    simp
  have hocc0_ne : ∀ x, x ≠ j → (occ m0 x ↔ occ m x) := by
    intro x hx
    unfold occ
    rw [hd0_ne x hx]
  have hcnt0 : countOcc m0 = countOcc m - 1 := by
    have := countOcc_update hsz0 hj
      (fun x hx hxj => hocc0_ne x hxj)
    rw [if_pos hocc_j, if_neg hocc0_j] at this
    omega
  have hcnt_pos : 1 ≤ countOcc m := by
    have : 0 < countOcc m := by
      apply Finset.card_pos.mpr
      exact ⟨j, Finset.mem_filter.mpr ⟨Finset.mem_range.mpr hj, hocc_j⟩⟩
    omega
  -- step 2: the first slot after the hole with dib ≤ 1
  obtain ⟨e, he, hemp⟩ := exists_empty hcount
  have hej : e ≠ j := by
    rintro rfl
    exact hemp hocc_j
  have hPex : ∃ t, 1 ≤ t ∧ dibOf (hd m0 (idx (sz m) j t)) ≤ 1 := by
    refine ⟨dist (sz m) j e, ?_, ?_⟩
    · have h0 : dist (sz m) j e ≠ 0 := by
        intro hcon
        apply hej
        have := idx_dist hj he
        rw [hcon, idx_zero hj] at this
        omega
      omega
    · rw [idx_dist hj he, hd0_ne e hej]
      have : dibOf (hd m e) = 0 := by
        by_contra hcon
        exact hemp hcon
      omega
  set D := Nat.find hPex with hD_def
  obtain ⟨hD1, hDterm⟩ := Nat.find_spec hPex
  have hDmin : ∀ t, 1 ≤ t → t < D → 2 ≤ dibOf (hd m0 (idx (sz m) j t)) := by
    intro t ht1 ht2
    have := Nat.find_min hPex ht2
    push_neg at this
    have := this ht1
    omega
  have hDe : D ≤ dist (sz m) j e := by
    apply Nat.find_min'
    refine ⟨?_, ?_⟩
    · have h0 : dist (sz m) j e ≠ 0 := by
        intro hcon
        apply hej
        have := idx_dist hj he
        rw [hcon, idx_zero hj] at this
        omega
      omega
    · rw [idx_dist hj he, hd0_ne e hej]
      have : dibOf (hd m e) = 0 := by
        by_contra hcon
        exact hemp hcon
      omega
  have hDsz : D < sz m := by
    have := dist_lt hj he
    omega
  -- step 3: run the backward-shift loop
  obtain ⟨out, hloop, ho_sz, ho_len, ho_cap, ho_length, ho_mask, ho_grow,
      ho_shrink, ho_desc⟩ :=
    removeLoop_spec (sz m0) m0 j D
      (by rw [hsz0]; simpa [hm0, List.length_set] using hlenh)
      (by rw [hsz0]; exact hInv.size_pow) (by rw [hm0, hsz0]; simpa using hInv.mask_eq)
      (by rw [hsz0]; exact hN8) (by rw [hsz0]; exact hj) hD1 (by rw [hsz0]; exact hDsz)
      (by rw [hsz0]; omega) (by rw [hsz0]; exact hDmin) (by rw [hsz0]; exact hDterm)
  rw [hsz0] at ho_desc ho_sz
  -- translate the description to the original table
  have hidx_step : ∀ x, x < sz m → step (sz m) x = idx (sz m) j (dist (sz m) j x + 1) := by
    intro x hx
    have h1 : idx (sz m) j (dist (sz m) j x + 1) =
        step (sz m) (idx (sz m) j (dist (sz m) j x)) := idx_succ
    rw [h1, idx_dist hj hx]
  have hminm : ∀ t, 1 ≤ t → t < D → 2 ≤ dibOf (hd m (idx (sz m) j t)) := by
    intro t ht1 ht2
    have := hDmin t ht1 ht2
    rwa [hd0_ne _ (idx_ne_base hj ht1 (by omega))] at this
  have htermm : dibOf (hd m (idx (sz m) j D)) ≤ 1 := by
    rwa [hd0_ne _ (idx_ne_base hj hD1 hDsz)] at hDterm
  have hf1 : ∀ x, x < sz m → dist (sz m) j x + 2 ≤ D →
      hd out x = withDib (hd m (step (sz m) x)) (dibOf (hd m (step (sz m) x)) - 1) ∧
      bkt out x = bkt m (step (sz m) x) := by
    intro x hx hreg
    obtain ⟨hh, hb⟩ := (ho_desc x hx).1 hreg
    have hne : step (sz m) x ≠ j := by
      rw [hidx_step x hx]
      exact idx_ne_base hj (by omega) (by have := dist_lt hj hx; omega)
    rw [hd0_ne _ hne] at hh
    rw [hb0] at hb
    exact ⟨hh, hb⟩
  have hf2 : ∀ x, x < sz m → dist (sz m) j x + 1 = D →
      hd out x = 0 ∧ bkt out x = default := fun x hx => (ho_desc x hx).2.1
  have hf3 : ∀ x, x < sz m → D ≤ dist (sz m) j x →
      hd out x = hd m x ∧ bkt out x = bkt m x := by
    intro x hx hrest
    obtain ⟨hh, hb⟩ := (ho_desc x hx).2.2 hrest
    have hne : x ≠ j := by
      intro hcon
      subst hcon
      rw [dist_self] at hrest
      omega
    rw [hd0_ne _ hne] at hh
    rw [hb0] at hb
    exact ⟨hh, hb⟩
  -- dib value in the shifted region
  have hdib_reg : ∀ x, x < sz m → dist (sz m) j x + 2 ≤ D →
      dibOf (hd out x) = dibOf (hd m (step (sz m) x)) - 1 := by
    intro x hx hreg
    rw [(hf1 x hx hreg).1, dibOf_withDib]
    have := dibOf_lt (hd m (step (sz m) x))
    omega
  have hdib_step_ge : ∀ x, x < sz m → dist (sz m) j x + 2 ≤ D →
      2 ≤ dibOf (hd m (step (sz m) x)) := by
    intro x hx hreg
    rw [hidx_step x hx]
    exact hminm _ (by omega) (by omega)
  have hocc_reg : ∀ x, x < sz m → dist (sz m) j x + 2 ≤ D → occ out x := by
    intro x hx hreg
    unfold occ
    rw [hdib_reg x hx hreg]
    have := hdib_step_ge x hx hreg
    omega
  have hocc_D1 : ∀ x, x < sz m → dist (sz m) j x + 1 = D → ¬ occ out x := by
    intro x hx hcase
    unfold occ
    rw [(hf2 x hx hcase).1]
    simp [dibOf]
  have hocc_rest : ∀ x, x < sz m → D ≤ dist (sz m) j x → (occ out x ↔ occ m x) := by
    intro x hx hcase
    unfold occ
    rw [(hf3 x hx hcase).1]
  -- the occupied count went down by exactly one
  have hcnt_out : countOcc out = countOcc m - 1 := by
    by_cases hD2 : 2 ≤ D
    · have hj2 : idx (sz m) j (D - 1) < sz m := idx_lt hN
      have hne12 : j ≠ idx (sz m) j (D - 1) := by
        intro hcon
        exact idx_ne_base hj (by omega) (by omega) hcon.symm
      have hdist_j2 : dist (sz m) j (idx (sz m) j (D - 1)) = D - 1 :=
        dist_idx hj (by omega)
      have hocc_out_j : occ out j := by
        apply hocc_reg j hj
        rw [dist_self]
        omega
      have hocc_out_j2 : ¬ occ out (idx (sz m) j (D - 1)) := by
        apply hocc_D1 _ hj2
        rw [hdist_j2]
        omega
      have hocc_m0_j2 : occ m0 (idx (sz m) j (D - 1)) := by
        unfold occ
        rw [hd0_ne _ (idx_ne_base hj (by omega) (by omega))]
        have := hminm (D - 1) (by omega) (by omega)
        omega
      have hsz_out0 : sz out = sz m0 := by rw [ho_sz, hsz0]
      have hj1_0 : j < sz m0 := by rw [hsz0]; exact hj
      have hj2_0 : idx (sz m) j (D - 1) < sz m0 := by rw [hsz0]; exact hj2
      have hupd := countOcc_update2 hsz_out0 hj1_0 hj2_0 hne12
        (by
          intro x hx hx1 hx2
          rw [hsz0] at hx
          rcases Nat.lt_or_ge (dist (sz m) j x + 1) D with hc | hc
          · have hreg : dist (sz m) j x + 2 ≤ D := by omega
            have hxj : x ≠ j := hx1
            have hds1 : 1 ≤ dist (sz m) j x := by
              rcases Nat.eq_zero_or_pos (dist (sz m) j x) with h0 | h0
              · exfalso
                apply hxj
                have := idx_dist hj hx
                rw [h0, idx_zero hj] at this
                omega
              · omega
            constructor
            · intro _
              unfold occ
              rw [hd0_ne x hxj]
              have := hminm (dist (sz m) j x) hds1 (by omega)
              rw [idx_dist hj hx] at this
              omega
            · intro _
              exact hocc_reg x hx hreg
          · rcases Nat.eq_or_lt_of_le hc with hc' | hc'
            · exfalso
              apply hx2
              have : x = idx (sz m) j (D - 1) := by
                rw [show D - 1 = dist (sz m) j x by omega]
                exact (idx_dist hj hx).symm
              exact this
            · have hrest : D ≤ dist (sz m) j x := by omega
              rw [hocc_rest x hx hrest]
              unfold occ
              rw [hd0_ne x (by
                intro hcon
                subst hcon
                rw [dist_self] at hrest
                omega)])
      rw [if_neg hocc0_j, if_pos hocc_m0_j2, if_pos hocc_out_j,
        if_neg hocc_out_j2] at hupd
      omega
    · have hD1' : D = 1 := by omega
      have : countOcc out = countOcc m0 := by
        apply countOcc_congr (by rw [ho_sz, hsz0])
        intro x
        rcases Nat.lt_or_ge x (sz m) with hx | hx
        · by_cases hxj : x = j
          · subst hxj
            constructor
            · intro hcon
              exfalso
              exact hocc_D1 x hx (by rw [dist_self]; omega) hcon
            · intro hcon
              exact absurd hcon hocc0_j
          · have hds1 : 1 ≤ dist (sz m) j x := by
              rcases Nat.eq_zero_or_pos (dist (sz m) j x) with h0 | h0
              · exfalso
                apply hxj
                have := idx_dist hj hx
                rw [h0, idx_zero hj] at this
                omega
              · omega
            rw [hocc_rest x hx (by omega)]
            unfold occ
            rw [hd0_ne x hxj]
        · unfold occ hd
          rw [List.getD_eq_getElem?_getD, List.getElem?_eq_none, List.getD_eq_getElem?_getD,
            List.getElem?_eq_none]
          · rw [hm0]
            simp only []
            rw [List.length_set]
            omega
          · have h1 : out.hdib.length = sz m := by
              rw [ho_len, hm0]
              simpa [List.length_set] using hlenh
            omega
      omega
  -- the decremented state and its invariant
  set m2 : Shard K V := { out with length := out.length - 1 } with hm2
  have hd2 : ∀ x, hd m2 x = hd out x := fun x => rfl
  have hb2 : ∀ x, bkt m2 x = bkt out x := fun x => rfl
  have hsz2 : sz m2 = sz m := by rw [hm2]; exact ho_sz
  have hocc2 : ∀ x, occ m2 x ↔ occ out x := fun x => Iff.rfl
  have hcnt2 : countOcc m2 = countOcc m - 1 := by
    rw [← hcnt_out]
    exact countOcc_congr rfl hocc2
  have hlen2 : m2.length = m.length - 1 := by
    rw [hm2]
    show out.length - 1 = m.length - 1
    rw [ho_length]
  have hcap2 : m2.cap = m.cap := by
    rw [hm2]
    show out.cap = m.cap
    rw [ho_cap]
  have hmask2 : m2.mask = m.mask := by
    rw [hm2]
    show out.mask = m.mask
    rw [ho_mask]
  have hgrow2 : m2.growAt = m.growAt := by
    rw [hm2]
    show out.growAt = m.growAt
    rw [ho_grow]
  have hshrink2 : m2.shrinkAt = m.shrinkAt := by
    rw [hm2]
    show out.shrinkAt = m.shrinkAt
    rw [ho_shrink]
  -- source slot of every occupied slot of m2
  have hsrc : ∀ x, x < sz m → occ m2 x →
      ∃ sx, sx < sz m ∧ occ m sx ∧ sx ≠ j ∧
        keyAt m2 x = keyAt m sx ∧ valAt m2 x = valAt m sx ∧
        ((dist (sz m) j x + 2 ≤ D ∧ sx = step (sz m) x ∧
          dist (sz m) j sx = dist (sz m) j x + 1) ∨
         (D ≤ dist (sz m) j x ∧ sx = x)) := by
    intro x hx hocc
    rcases Nat.lt_or_ge (dist (sz m) j x + 1) D with hc | hc
    · have hreg : dist (sz m) j x + 2 ≤ D := by omega
      refine ⟨step (sz m) x, step_lt hN, ?_, ?_, ?_, ?_, Or.inl ⟨hreg, rfl, ?_⟩⟩
      · unfold occ
        have := hdib_step_ge x hx hreg
        omega
      · rw [hidx_step x hx]
        exact idx_ne_base hj (by omega) (by have := dist_lt hj hx; omega)
      · unfold keyAt
        rw [hb2, (hf1 x hx hreg).2]
      · unfold valAt
        rw [hb2, (hf1 x hx hreg).2]
      · rw [hidx_step x hx]
        exact dist_idx hj (by have := dist_lt hj hx; omega)
    · rcases Nat.eq_or_lt_of_le hc with hc' | hc'
      · exfalso
        exact hocc_D1 x hx hc'.symm ((hocc2 x).mp hocc)
      · have hrest : D ≤ dist (sz m) j x := by omega
        have hxj : x ≠ j := by
          intro hcon
          subst hcon
          rw [dist_self] at hrest
          omega
        refine ⟨x, hx, ?_, hxj, ?_, ?_, Or.inr ⟨hrest, rfl⟩⟩
        · exact (hocc_rest x hx hrest).mp ((hocc2 x).mp hocc)
        · unfold keyAt
          rw [hb2, (hf3 x hx hrest).2]
        · unfold valAt
          rw [hb2, (hf3 x hx hrest).2]
  have huniq2 : ∀ x, x < sz m2 → ∀ y, y < sz m2 → occ m2 x → occ m2 y →
      keyAt m2 x = keyAt m2 y → x = y := by
    intro x hx y hy hoccx hoccy hkeq
    rw [hsz2] at hx hy
    obtain ⟨sx, hsx, hoccsx, -, hkx, -, hcx⟩ := hsrc x hx hoccx
    obtain ⟨sy, hsy, hoccsy, -, hky, -, hcy⟩ := hsrc y hy hoccy
    have hseq : sx = sy := by
      apply hInv.uniq sx hsx sy hsy hoccsx hoccsy
      rw [← hkx, ← hky, hkeq]
    rcases hcx with ⟨hregx, hsx_eq, hdx⟩ | ⟨hrestx, hsx_eq⟩ <;>
      rcases hcy with ⟨hregy, hsy_eq, hdy⟩ | ⟨hresty, hsy_eq⟩
    · -- both shifted: step is injective
      have : step (sz m) x = step (sz m) y := by rw [← hsx_eq, ← hsy_eq, hseq]
      have hpx := prev_step hN hx
      have hpy := prev_step hN hy
      rw [← hpx, ← hpy, this]
    · exfalso
      rw [hseq, hsy_eq] at hdx
      omega
    · exfalso
      rw [← hseq, hsx_eq] at hdy
      omega
    · rw [← hsx_eq, hseq, hsy_eq]
  have hInv2 : Inv0 hf m2 := by
    refine ⟨?_, ?_, ?_, ?_, ?_, ?_, ?_, ?_, ?_, ?_, ?_, huniq2⟩
    · rw [hsz2, hm2]
      show out.hdib.length = sz m
      rw [ho_len, hm0]
      simpa [List.length_set] using hlenh
    · rw [hsz2]; exact hInv.size_pow
    · rw [hsz2]; exact hInv.size_ge
    · rw [hsz2, hmask2]; exact hInv.mask_eq
    · rw [hsz2, hgrow2]; exact hInv.grow_eq
    · rw [hsz2, hshrink2]; exact hInv.shrink_eq
    · rw [hlen2, hcnt2, hInv.len_eq]
    · -- hash integrity through the shift
      intro x hx hocc
      rw [hsz2] at hx
      rcases Nat.lt_or_ge (dist (sz m) j x + 1) D with hc | hc
      · have hreg : dist (sz m) j x + 2 ≤ D := by omega
        have hoccs : occ m (step (sz m) x) := by
          unfold occ
          have := hdib_step_ge x hx hreg
          omega
        have hkx : keyAt m2 x = keyAt m (step (sz m) x) := by
          unfold keyAt
          rw [hb2, (hf1 x hx hreg).2]
        rw [hd2, (hf1 x hx hreg).1, hashOf_withDib, hkx]
        exact hInv.hash_eq _ (step_lt hN) hoccs
      · rcases Nat.eq_or_lt_of_le hc with hc' | hc'
        · exact absurd hocc (hocc_D1 x hx hc'.symm)
        · have hrest : D ≤ dist (sz m) j x := by omega
          have hkx : keyAt m2 x = keyAt m x := by
            unfold keyAt
            rw [hb2, (hf3 x hx hrest).2]
          rw [hd2, (hf3 x hx hrest).1, hkx]
          exact hInv.hash_eq x hx ((hocc_rest x hx hrest).mp hocc)
    · -- dib = displacement + 1 through the shift
      intro x hx hocc
      rw [hsz2] at hx
      rcases Nat.lt_or_ge (dist (sz m) j x + 1) D with hc | hc
      · have hreg : dist (sz m) j x + 2 ≤ D := by omega
        have hoccs : occ m (step (sz m) x) := by
          unfold occ
          have := hdib_step_ge x hx hreg
          omega
        have hds := hInv.dib_eq _ (step_lt hN) hoccs
        have hlt := hInv.dib_lt _ (step_lt hN) hoccs
        have hge := hdib_step_ge x hx hreg
        have hhome_eq : home m2 x = home m (step (sz m) x) := by
          unfold home
          rw [hd2, (hf1 x hx hreg).1, hashOf_withDib, hsz2]
        have hdisp_pos : 0 < dist (sz m) (home m (step (sz m) x)) (step (sz m) x) := by
          unfold disp at hds
          omega
        have hdisp2 : disp m2 x = disp m (step (sz m) x) - 1 := by
          have hdp := dist_prev (home_lt hInv (step (sz m) x)) (step_lt hN) hdisp_pos
          rw [prev_step hN hx] at hdp
          unfold disp
          rw [hhome_eq, hsz2, hdp]
        rw [hd2, hdib_reg x hx hreg, hdisp2]
        unfold disp at hds ⊢
        omega
      · rcases Nat.eq_or_lt_of_le hc with hc' | hc'
        · exact absurd hocc (hocc_D1 x hx hc'.symm)
        · have hrest : D ≤ dist (sz m) j x := by omega
          have hhome_eq : home m2 x = home m x := by
            unfold home
            rw [hd2, (hf3 x hx hrest).1, hsz2]
          have hdisp2 : disp m2 x = disp m x := by
            unfold disp
            rw [hhome_eq, hsz2]
          rw [hd2, (hf3 x hx hrest).1, hdisp2]
          exact hInv.dib_eq x hx ((hocc_rest x hx hrest).mp hocc)
    · -- dib bound
      intro x hx hocc
      rw [hsz2] at hx
      rcases Nat.lt_or_ge (dist (sz m) j x + 1) D with hc | hc
      · have hreg : dist (sz m) j x + 2 ≤ D := by omega
        have hoccs : occ m (step (sz m) x) := by
          unfold occ
          have := hdib_step_ge x hx hreg
          omega
        have hds := hInv.dib_eq _ (step_lt hN) hoccs
        have hlt := hInv.dib_lt _ (step_lt hN) hoccs
        have hge := hdib_step_ge x hx hreg
        have hhome_eq : home m2 x = home m (step (sz m) x) := by
          unfold home
          rw [hd2, (hf1 x hx hreg).1, hashOf_withDib, hsz2]
        have hdisp_pos : 0 < dist (sz m) (home m (step (sz m) x)) (step (sz m) x) := by
          unfold disp at hds
          omega
        have hdisp2 : disp m2 x = disp m (step (sz m) x) - 1 := by
          have hdp := dist_prev (home_lt hInv (step (sz m) x)) (step_lt hN) hdisp_pos
          rw [prev_step hN hx] at hdp
          unfold disp
          rw [hhome_eq, hsz2, hdp]
        rw [hdisp2]
        omega
      · rcases Nat.eq_or_lt_of_le hc with hc' | hc'
        · exact absurd hocc (hocc_D1 x hx hc'.symm)
        · have hrest : D ≤ dist (sz m) j x := by omega
          have hhome_eq : home m2 x = home m x := by
            unfold home
            rw [hd2, (hf3 x hx hrest).1, hsz2]
          have hdisp2 : disp m2 x = disp m x := by
            unfold disp
            rw [hhome_eq, hsz2]
          rw [hdisp2]
          exact hInv.dib_lt x hx ((hocc_rest x hx hrest).mp hocc)
    · -- the run invariant
      intro x hx hocc hdib
      rw [hsz2] at hx
      rw [hsz2]
      rw [hd2] at hdib
      rcases Nat.lt_or_ge (dist (sz m) j x + 1) D with hc | hc
      · have hreg : dist (sz m) j x + 2 ≤ D := by omega
        have hd_step := hdib_reg x hx hreg
        have hge3 : 3 ≤ dibOf (hd m (step (sz m) x)) := by omega
        have hoccs : occ m (step (sz m) x) := by
          unfold occ
          omega
        have hrun_s := hInv.run_ok _ (step_lt hN) hoccs (by omega)
        rw [prev_step hN hx] at hrun_s
        have hs2 := hrun_s.2
        by_cases hx0 : dist (sz m) j x = 0
        · -- the original hole: its new occupant leans on the slot before the hole
          have hxj : x = j := by
            have := idx_dist hj hx
            rw [hx0, idx_zero hj] at this
            omega
          subst hxj
          have hdibj : 2 ≤ dibOf (hd m x) := by omega
          have hrun_j := hInv.run_ok x hx hocc_j hdibj
          have hprev_rest : D ≤ dist (sz m) x (prev (sz m) x) := by
            have h1 : step (sz m) (prev (sz m) x) = x := step_prev hN hx
            have h2 : dist (sz m) (step (sz m) (prev (sz m) x)) (prev (sz m) x) =
                sz m - 1 := dist_step_self (prev_lt hN hx)
            rw [h1] at h2
            omega
          have hprev_lt : prev (sz m) x < sz m := prev_lt hN hx
          have hjr2 := hrun_j.2
          constructor
          · exact (hocc_rest _ hprev_lt hprev_rest).mpr hrun_j.1
          · rw [hd2, hd2, (hf3 _ hprev_lt hprev_rest).1]
            omega
        · -- inside the shifted run
          have hds1 : 1 ≤ dist (sz m) j x := by omega
          have hprev_lt : prev (sz m) x < sz m := prev_lt hN hx
          have h1 : step (sz m) (prev (sz m) x) = x := step_prev hN hx
          have h2 : dist (sz m) j (prev (sz m) x) = dist (sz m) j x - 1 :=
            dist_prev hj hx (by omega)
          have hprev_reg : dist (sz m) j (prev (sz m) x) + 2 ≤ D := by omega
          have hd_prev : dibOf (hd out (prev (sz m) x)) = dibOf (hd m x) - 1 := by
            have := hdib_reg _ hprev_lt hprev_reg
            rwa [h1] at this
          constructor
          · exact hocc_reg _ hprev_lt hprev_reg
          · rw [hd2, hd2, hd_prev, hd_step]
            omega
      · rcases Nat.eq_or_lt_of_le hc with hc' | hc'
        · exact absurd hocc (hocc_D1 x hx hc'.symm)
        · have hrest : D ≤ dist (sz m) j x := by omega
          rw [(hf3 x hx hrest).1] at hdib
          rcases Nat.eq_or_lt_of_le hrest with hD_eq | hgt
          · exfalso
            have hxid : x = idx (sz m) j D := by
              rw [hD_eq]
              exact (idx_dist hj hx).symm
            rw [hxid] at hdib
            omega
          · have hoccx : occ m x := (hocc_rest x hx hrest).mp hocc
            have hrun_x := hInv.run_ok x hx hoccx hdib
            have hprev_lt : prev (sz m) x < sz m := prev_lt hN hx
            have h2 : dist (sz m) j (prev (sz m) x) = dist (sz m) j x - 1 :=
              dist_prev hj hx (by omega)
            have hprev_rest : D ≤ dist (sz m) j (prev (sz m) x) := by omega
            constructor
            · exact (hocc_rest _ hprev_lt hprev_rest).mpr hrun_x.1
            · rw [hd2, hd2, (hf3 x hx hrest).1, (hf3 _ hprev_lt hprev_rest).1]
              exact hrun_x.2
  -- the content of the decremented state
  have hcont2 : ∀ k', contents m2 k' = if k' = keyAt m j then none
      else contents m k' := by
    intro k'
    by_cases hk : k' = keyAt m j
    · rw [if_pos hk, contents_eq_none_iff]
      intro x hx hocc hkey
      rw [hsz2] at hx
      obtain ⟨sx, hsx, hoccsx, hsxj, hkx, -, -⟩ := hsrc x hx hocc
      apply hsxj
      apply hInv.uniq sx hsx j hj hoccsx hocc_j
      rw [← hkx, hkey, hk]
    · rw [if_neg hk]
      by_cases hpres : hasKey m k'
      · obtain ⟨y, hy, hoccy, hkeyy⟩ := hpres
        have hyj : y ≠ j := by
          rintro rfl
          exact hk hkeyy.symm
        have hdy1 : 1 ≤ dist (sz m) j y := by
          rcases Nat.eq_zero_or_pos (dist (sz m) j y) with h0 | h0
          · exfalso
            apply hyj
            have := idx_dist hj hy
            rw [h0, idx_zero hj] at this
            omega
          · omega
        rw [contents_eq_some_of hInv.uniq hy hoccy hkeyy]
        rcases Nat.lt_or_ge (dist (sz m) j y) D with hlt | hge
        · -- the slot holding the key was shifted back by one
          have hpy_lt : prev (sz m) y < sz m := prev_lt hN hy
          have hstep_py : step (sz m) (prev (sz m) y) = y := step_prev hN hy
          have hdp : dist (sz m) j (prev (sz m) y) = dist (sz m) j y - 1 :=
            dist_prev hj hy (by omega)
          have hpreg : dist (sz m) j (prev (sz m) y) + 2 ≤ D := by omega
          have hocc_py : occ m2 (prev (sz m) y) := hocc_reg _ hpy_lt hpreg
          have hkey_py : keyAt m2 (prev (sz m) y) = k' := by
            unfold keyAt
            rw [hb2, (hf1 _ hpy_lt hpreg).2, hstep_py]
            exact hkeyy
          rw [contents_eq_some_of huniq2 (by rw [hsz2]; exact hpy_lt) hocc_py hkey_py]
          congr 1
          unfold valAt
          rw [hb2, (hf1 _ hpy_lt hpreg).2, hstep_py]
        · -- the slot holding the key is untouched
          have hocc_y2 : occ m2 y := (hocc_rest y hy hge).mpr hoccy
          have hkey_y2 : keyAt m2 y = k' := by
            unfold keyAt
            rw [hb2, (hf3 y hy hge).2]
            exact hkeyy
          rw [contents_eq_some_of huniq2 (by rw [hsz2]; exact hy) hocc_y2 hkey_y2]
          congr 1
          unfold valAt
          rw [hb2, (hf3 y hy hge).2]
      · have hnone : contents m k' = none := by
          rw [contents_eq_none_iff]
          intro x hx hocc hkey
          exact hpres ⟨x, hx, hocc, hkey⟩
        rw [hnone, contents_eq_none_iff]
        intro x hx hocc hkey
        rw [hsz2] at hx
        obtain ⟨sx, hsx, hoccsx, -, hkx, -, -⟩ := hsrc x hx hocc
        exact hpres ⟨sx, hsx, hoccsx, by rw [← hkx, hkey]⟩
  -- the final branch of `shard.remove`: shrink or keep
  have hrm := remove_eq hm0 hloop
  rw [← hm2] at hrm
  have hcond_iff : (m2.cap < (sz m2 : Int) ∧ m2.length ≤ m2.shrinkAt) ↔
      (m.cap < (sz m : Int) ∧ m.length - 1 ≤ m.shrinkAt) := by
    rw [hcap2, hsz2, hlen2, hshrink2]
  by_cases hcond : m.cap < (sz m : Int) ∧ m.length - 1 ≤ m.shrinkAt
  · -- shrink: rebuild at capacity `length`
    have hlen_eq := hInv.len_eq
    have hc_le := szLoop_ge_cap ((m2.length : Nat) : Int)
    have hle2 : countOcc m2 ≤ szLoop 8 ((m2.length : Nat) : Int) := by
      rw [hcnt2]
      omega
    have hbound2 : countOcc m2 < 65536 := by
      rw [hcnt2]
      omega
    obtain ⟨mr, hres, hInvr, hszr, hcapr, hlenr, hcntr, hmaskr, hgrowr, hshrinkr,
        hcontr⟩ := resize_spec hInv2 ((m2.length : Nat) : Int) hle2 hbound2
    refine ⟨mr, ?_, hInvr, ?_, ?_, ?_, ?_, ?_, ?_⟩
    · rw [hrm, if_pos (hcond_iff.mpr hcond)]
      exact hres
    · rw [hcapr, hcap2]
    · rw [hlenr, hlen2]
    · rw [hcntr, hcnt2]
    · intro k'
      rw [hcontr k', hcont2 k']
    · intro _
      rw [hlen2] at hszr hmaskr hgrowr hshrinkr
      exact ⟨hszr, hmaskr, hgrowr, hshrinkr⟩
    · intro hncond
      exact absurd hcond hncond
  · -- no shrink: just the decremented state
    refine ⟨m2, ?_, hInv2, hcap2, hlen2, hcnt2, hcont2, ?_, ?_⟩
    · rw [hrm, if_neg (fun hc => hcond (hcond_iff.mp hc))]
    · intro hc
      exact absurd hc hcond
    · intro _
      exact ⟨hsz2, hmask2, hgrow2, hshrink2⟩

/-- The shrink target can absorb the shrink trigger: for a table of `2 ^ kk`
slots, the table of `szLoop 8 (3 * 2 ^ kk / 20)` slots has a grow threshold
at least `3 * 2 ^ kk / 20`. -/
theorem shrink_len_le {kk : Nat} (hkk : 3 ≤ kk) :
    3 * 2 ^ kk / 20 ≤ 17 * szLoop 8 ((3 * 2 ^ kk / 20 : Nat) : Int) / 20 := by
  rcases Nat.lt_or_ge kk 6 with h6 | h6
  · have hP8 : 8 ≤ szLoop 8 ((3 * 2 ^ kk / 20 : Nat) : Int) := szLoop_ge8 _
    have h6' : 6 ≤ 17 * szLoop 8 ((3 * 2 ^ kk / 20 : Nat) : Int) / 20 := by
      calc 6 = 17 * 8 / 20 := by norm_num
        _ ≤ 17 * szLoop 8 ((3 * 2 ^ kk / 20 : Nat) : Int) / 20 :=
          Nat.div_le_div_right (by omega)
    interval_cases kk <;> omega
  · obtain ⟨Kk, rfl⟩ : ∃ t, kk = t + 6 := ⟨kk - 6, by omega⟩
    set M := 2 ^ Kk with hM
    have hM1 : 1 ≤ M := Nat.one_le_two_pow
    have hpow : (2 : Nat) ^ (Kk + 6) = 64 * M := by
      rw [hM, show Kk + 6 = 6 + Kk from by omega, pow_add]
      norm_num
    set c : Nat := 3 * 2 ^ (Kk + 6) / 20 with hc
    have hc' : c = 192 * M / 20 := by
      rw [hc, hpow]
      congr 1
      ring
    obtain ⟨t, hP, hub, hmin⟩ := szLoop_spec ((c : Nat) : Int)
    have hub' : c ≤ 8 * 2 ^ t := by exact_mod_cast hub
    have hlo : 8 * M < c := by omega
    have hhi : c ≤ 16 * M := by omega
    by_cases ht : t ≤ Kk
    · exfalso
      have h2 : (2 : Nat) ^ t ≤ 2 ^ Kk := Nat.pow_le_pow_right (by omega) ht
      rw [← hM] at h2
      omega
    · have hKt : Kk + 1 ≤ t := by omega
      have h2 : (2 : Nat) ^ (Kk + 1) ≤ 2 ^ t := Nat.pow_le_pow_right (by omega) hKt
      have h2' : (2 : Nat) ^ (Kk + 1) = 2 * M := by
        rw [hM, pow_succ]
        ring
      have h16 : 16 * M ≤ 8 * 2 ^ t := by omega
      rw [hP]
      have hmono : 192 * M / 20 ≤ 17 * (8 * 2 ^ t) / 20 :=
        Nat.div_le_div_right (by omega)
      omega

/-- The probe loop of `shard.Delete` finds a present key at its slot and
hands the slot index to `shard.remove`. -/
theorem deleteLoop_found {hf : K → Nat} {m : Shard K V} (hInv : Inv0 hf m) {k : K}
    {j : Nat} (hj : j < sz m) (hocc : occ m j) (hkey : keyAt m j = k) :
    ∀ fuel t, t ≤ disp m j → disp m j + 1 - t ≤ fuel →
      deleteLoop m (hashOf (hd m j)) k (idx (sz m) (home m j) t) fuel =
        (match Shard.remove m j with
          | none => none
          | some m' => some (m', some (valAt m j))) := by
  have hN : 0 < sz m := by have := hInv.size_ge; omega
  have hhome : home m j < sz m := home_lt hInv j
  have hidx_j : idx (sz m) (home m j) (disp m j) = j := by
    unfold disp
    exact idx_dist hhome hj
  intro fuel
  induction fuel with
  | zero => intro t ht hfuel; omega
  | succ fuel ih =>
    intro t ht hfuel
    by_cases hlast : t = disp m j
    · subst hlast
      rw [hidx_j]
      rw [deleteLoop]
      rw [if_neg (by simpa [occ] using hocc)]
      rw [if_pos ⟨rfl, hkey⟩]
      rfl
    · have htlt : t < disp m j := by omega
      have hdlt : disp m j < sz m := disp_lt hInv hj
      have hilt : idx (sz m) (home m j) t < sz m := idx_lt hN
      have hocc_i : occ m (idx (sz m) (home m j) t) := (chain hInv hj hocc t (by omega)).1
      have hne : idx (sz m) (home m j) t ≠ j := by
        intro h
        have h2 : idx (sz m) (home m j) t = idx (sz m) (home m j) (disp m j) := by
          rw [hidx_j]
          exact h
        exact absurd (idx_inj hhome (by omega) (by omega) h2) (by omega)
      rw [deleteLoop]
      rw [if_neg (by simpa [occ] using hocc_i)]
      rw [if_neg ?_]
      · rw [show idx (sz m) (home m j) t + 1 &&& m.mask = idx (sz m) (home m j) (t + 1) by
          rw [and_mask_eq hInv.size_pow hInv.mask_eq, idx_succ, step]]
        exact ih (t + 1) (by omega) (by omega)
      · rintro ⟨-, hk⟩
        refine hne (hInv.uniq _ hilt j hj hocc_i hocc ?_)
        unfold keyAt at hkey ⊢
        rw [hk, hkey]

/-- The probe loop of `shard.Delete` on an absent key reaches an empty slot
and returns the state unchanged. -/
theorem deleteLoop_absent {hf : K → Nat} {m : Shard K V} (hInv : Inv0 hf m)
    {k : K} (habs : ∀ i, i < sz m → occ m i → keyAt m i ≠ k) (hash : Nat) :
    ∀ fuel i, i < sz m → (∃ t, t < fuel ∧ ¬ occ m (idx (sz m) i t)) →
      deleteLoop m hash k i fuel = some (m, none) := by
  have hN : 0 < sz m := by have := hInv.size_ge; omega
  intro fuel
  induction fuel with
  | zero =>
    rintro i hi ⟨t, ht, -⟩
    omega
  | succ fuel ih =>
    rintro i hi ⟨t, ht, hempty⟩
    by_cases hocc_i : occ m i
    · rw [deleteLoop]
      rw [if_neg (by simpa [occ] using hocc_i)]
      rw [if_neg ?_]
      · rw [show (i + 1) &&& m.mask = step (sz m) i by
          rw [and_mask_eq hInv.size_pow hInv.mask_eq, step]]
        apply ih (step (sz m) i) (step_lt hN)
        have ht0 : t ≠ 0 := by
          rintro rfl
          rw [idx_zero hi] at hempty
          exact hempty hocc_i
        refine ⟨t - 1, by omega, ?_⟩
        rwa [← idx_shift (by omega)]
      · rintro ⟨-, hk⟩
        exact habs i hi hocc_i hk
    · rw [deleteLoop]
      rw [if_pos (by simpa [occ] using hocc_i)]

/-- `shard.Delete` with the key's own fingerprint: removes the binding when
present (shrinking exactly under the source's condition) and is a no-op on
an absent key; the full invariant is preserved. -/
theorem Delete_spec {hf : K → Nat} {m : Shard K V} (hInv : Inv hf m)
    (hbound : m.length < 65536) (k : K) :
    ∃ m' r, Shard.Delete m (hash64 hf k) k = some (m', r) ∧
      r = contents m k ∧ Inv hf m' ∧ m'.cap = m.cap ∧
      m'.length = (if (contents m k).isSome then m.length - 1 else m.length) ∧
      (∀ k', contents m' k' = if k' = k then none else contents m k') ∧
      ((contents m k).isSome →
        (m.cap < (sz m : Int) ∧ m.length - 1 ≤ m.shrinkAt →
          sz m' = szLoop 8 ((m.length - 1 : Nat) : Int)) ∧
        (¬(m.cap < (sz m : Int) ∧ m.length - 1 ≤ m.shrinkAt) → sz m' = sz m)) ∧
      (contents m k = none → m' = m) := by
  obtain ⟨hInv0, hlen_le, hshrink_ok⟩ := hInv
  have hN8 : 8 ≤ sz m := hInv0.size_ge
  have hN : 0 < sz m := by omega
  have hgrow_lt : m.growAt < sz m := by
    rw [hInv0.grow_eq]
    omega
  have hcount : countOcc m < sz m := by
    rw [← hInv0.len_eq]
    omega
  have hsh : hash64 hf k >>> 16 = hash64 hf k / 65536 := Nat.shiftRight_eq_div_pow _ _
  unfold Shard.Delete
  rw [if_neg (by omega)]
  rw [hsh, and_mask_eq hInv0.size_pow hInv0.mask_eq]
  by_cases hpres : hasKey m k
  · obtain ⟨j, hj, hocc, hkey⟩ := hpres
    have hhash : hashOf (hd m j) = hash64 hf k / 65536 := by
      rw [hInv0.hash_eq j hj hocc, hkey]
    have hstart : hash64 hf k / 65536 % sz m = idx (sz m) (home m j) 0 := by
      rw [idx_zero (home_lt hInv0 j)]
      unfold home
      rw [hhash]
    rw [hstart, ← hhash]
    rw [deleteLoop_found hInv0 hj hocc hkey (sz m) 0 (by omega)
      (by have := disp_lt hInv0 hj; omega)]
    obtain ⟨mr, hrem, hInvr, hcapr, hlenr, hcntr, hcontr, hshrinkcase, hnoshrinkcase⟩ :=
      remove_spec hInv0 hcount (by rw [← hInv0.len_eq]; omega) hj hocc
    rw [hrem]
    have hckey : contents m k = some (valAt m j) :=
      contents_eq_some_of hInv0.uniq hj hocc hkey
    have hInvmr : Inv hf mr := by
      by_cases hcond : m.cap < (sz m : Int) ∧ m.length - 1 ≤ m.shrinkAt
      · obtain ⟨hszr, hmaskr, hgrowr, hshrinkr⟩ := hshrinkcase hcond
        refine ⟨hInvr, ?_, ?_⟩
        · -- the post-shrink table absorbs the surviving entries
          rw [hlenr, hgrowr]
          by_cases h8 : 8 < sz m
          · have hso := hshrink_ok hcond.1 h8
            have hle : m.length - 1 = m.shrinkAt := by omega
            rw [hle, hInv0.shrink_eq]
            obtain ⟨kk, hkk⟩ := hInv0.size_pow
            have hkk3 : 3 ≤ kk := by
              by_contra hcon
              push_neg at hcon
              interval_cases kk <;> omega
            rw [hkk]
            exact shrink_len_le hkk3
          · have hsz8 : sz m = 8 := by omega
            have hsa : m.shrinkAt = 1 := by rw [hInv0.shrink_eq, hsz8]
            have hP8 : 8 ≤ szLoop 8 ((m.length - 1 : Nat) : Int) := szLoop_ge8 _
            have h6' : 6 ≤ 17 * szLoop 8 ((m.length - 1 : Nat) : Int) / 20 := by
              calc 6 = 17 * 8 / 20 := by norm_num
                _ ≤ 17 * szLoop 8 ((m.length - 1 : Nat) : Int) / 20 :=
                  Nat.div_le_div_right (by omega)
            omega
        · -- after a shrink the table is more than `shrinkAt` full
          intro hcap hlt8
          rw [hszr] at hlt8
          rw [hlenr, hshrinkr]
          have hP8 : 8 ≤ szLoop 8 ((m.length - 1 : Nat) : Int) := szLoop_ge8 _
          rcases szLoop_min ((m.length - 1 : Nat) : Int) with h | h
          · omega
          · omega
      · obtain ⟨hszr, hmaskr, hgrowr, hshrinkr⟩ := hnoshrinkcase hcond
        refine ⟨hInvr, ?_, ?_⟩
        · rw [hlenr, hgrowr]
          omega
        · intro hcap hlt8
          rw [hcapr, hszr] at hcap
          rw [hlenr, hshrinkr]
          by_contra hcon
          push_neg at hcon
          exact hcond ⟨hcap, by omega⟩
    refine ⟨mr, some (valAt m j), rfl, hckey.symm, hInvmr, hcapr, ?_, ?_, ?_, ?_⟩
    · rw [hckey]
      simpa using hlenr
    · intro k'
      rw [hcontr k', hkey]
    · intro _
      exact ⟨fun hc => (hshrinkcase hc).1, fun hnc => (hnoshrinkcase hnc).1⟩
    · intro h0
      rw [hckey] at h0
      exact (Option.some_ne_none _ h0).elim
  · have habs : ∀ i, i < sz m → occ m i → keyAt m i ≠ k := by
      intro i hi hocc hkey
      exact hpres ⟨i, hi, hocc, hkey⟩
    have hnone : contents m k = none := contents_eq_none_iff.mpr habs
    obtain ⟨e, he, hemp⟩ := exists_empty hcount
    have hstart_lt : hash64 hf k / 65536 % sz m < sz m := Nat.mod_lt _ hN
    rw [deleteLoop_absent hInv0 habs _ (sz m) _ hstart_lt
      ⟨dist (sz m) (hash64 hf k / 65536 % sz m) e,
        dist_lt hstart_lt he, by rwa [idx_dist hstart_lt he]⟩]
    refine ⟨m, none, rfl, hnone.symm, ⟨hInv0, hlen_le, hshrink_ok⟩, rfl, ?_, ?_, ?_,
      fun _ => rfl⟩
    · rw [hnone]
      simp
    · intro k'
      by_cases hk' : k' = k
      · rw [if_pos hk', hk', hnone]
      · rw [if_neg hk']
    · intro hsome
      rw [hnone] at hsome
      simp at hsome

/-! ### The map level: per-shard invariants along public-operation sequences -/

/-- A fresh shard satisfies the full invariant. -/
theorem Inv_init (hf : K → Nat) (c : Int) : Inv hf (Shard.init c : Shard K V) := by
  refine ⟨Inv0_init hf c, ?_, ?_⟩
  · rw [init_length]
    omega
  · intro hcap h8
    exfalso
    rw [sz_init] at h8 hcap
    rw [init_cap] at hcap
    split at hcap
    · omega
    · have h8' : szLoop 8 c = 8 := by
        obtain ⟨t, hP, hub, hmin⟩ := szLoop_spec c
        cases t with
        | zero =>
          rw [hP]
          norm_num
        | succ t =>
          have h0 := hmin 0 (by omega)
          norm_num at h0
          omega
      omega

/-- Inside a map with at least one shard, a fingerprint's shard index is in
range. -/
theorem shardIdx_lt {M : Map K V} (h : 0 < M.nsh) (hash : Nat) :
    shardIdx M hash < M.nsh := by
  unfold shardIdx
  have := Nat.and_le_right (n := hash) (m := M.nsh - 1)
  omega

theorem nsh_set (M : Map K V) (s : Nat) (m' : Shard K V) :
    ({ M with shards := M.shards.set s m' } : Map K V).nsh = M.nsh := by
  unfold Map.nsh
  simp

theorem shardIdx_set (M : Map K V) (s : Nat) (m' : Shard K V) (h : Nat) :
    shardIdx { M with shards := M.shards.set s m' } h = shardIdx M h := by
  unfold shardIdx Map.nsh
  simp

theorem shardAt_set_self {M : Map K V} {s : Nat} (hs : s < M.nsh) (m' : Shard K V) :
    shardAt { M with shards := M.shards.set s m' } s = m' := by
  unfold shardAt
  exact getD_set_self hs

theorem shardAt_set_ne {M : Map K V} {s s' : Nat} (h : s ≠ s') (m' : Shard K V) :
    shardAt { M with shards := M.shards.set s m' } s' = shardAt M s' := by
  unfold shardAt
  exact getD_set_ne h

/-- The map-level invariant relative to the ideal content `f` and a bound `b`
on every shard's `length`: shards are invariant, the ideal content is read
off the key's own shard, and occupied keys sit in the shard they hash to. -/
def MapInv (hf : K → Nat) (M : Map K V) (f : K → Option V) (b : Nat) : Prop :=
  0 < M.nsh ∧
  (∀ s, s < M.nsh → Inv hf (shardAt M s)) ∧
  (∀ s, s < M.nsh → (shardAt M s).length ≤ b) ∧
  (∀ k, f k = contents (shardAt M (shardIdx M (hash64 hf k))) k) ∧
  (∀ s, s < M.nsh → ∀ k, (contents (shardAt M s) k).isSome →
    shardIdx M (hash64 hf k) = s)

theorem MapInv_mono {hf : K → Nat} {M : Map K V} {f : K → Option V} {b b' : Nat}
    (h : MapInv hf M f b) (hb : b ≤ b') : MapInv hf M f b' :=
  ⟨h.1, h.2.1, fun s hs => le_trans (h.2.2.1 s hs) hb, h.2.2.2.1, h.2.2.2.2⟩

/-- `New(cap)` with at least one shard satisfies the invariant with empty
ideal content. -/
theorem MapInv_new (hf : K → Nat) {n : Nat} (hn : 0 < n) (cap : Int) :
    MapInv hf (Map.new n cap : Map K V) (fun _ => none) 0 := by
  have hnsh : (Map.new n cap : Map K V).nsh = n := by
    unfold Map.new Map.nsh
    simp
  have hsh : ∀ s, s < n → shardAt (Map.new n cap : Map K V) s =
      Shard.init (Int.tdiv cap (n : Int)) := by
    intro s hs
    unfold Map.new shardAt
    simp only []
    rw [List.getD_eq_getElem?_getD, List.getElem?_map, List.getElem?_range hs]
    rfl
  have hn' : 0 < (Map.new n cap : Map K V).nsh := by
    rw [hnsh]
    exact hn
  refine ⟨hn', ?_, ?_, ?_, ?_⟩
  · intro s hs
    rw [hnsh] at hs
    rw [hsh s hs]
    exact Inv_init hf _
  · intro s hs
    rw [hnsh] at hs
    rw [hsh s hs, init_length]
  · intro k
    have hlt := shardIdx_lt hn' (hash64 hf k)
    rw [hnsh] at hlt
    rw [hsh _ hlt, contents_init]
  · intro s hs k hsome
    rw [hnsh] at hs
    rw [hsh s hs, contents_init] at hsome
    simp at hsome

/-- Updating the key's own shard with content `if k' = k then w else old`
preserves the map invariant. -/
theorem MapInv_update {hf : K → Nat} {M : Map K V} {f : K → Option V} {b : Nat}
    (hM : MapInv hf M f b) {k : K} {w : Option V} {m' : Shard K V} (b' : Nat)
    (hInv' : Inv hf m') (hlen' : m'.length ≤ b') (hb : b ≤ b')
    (hcont' : ∀ k', contents m' k' =
      if k' = k then w else contents (shardAt M (shardIdx M (hash64 hf k))) k') :
    MapInv hf { M with shards := M.shards.set (shardIdx M (hash64 hf k)) m' }
      (fun k' => if k' = k then w else f k') b' := by
  obtain ⟨hn, hinv, hlen, hcont, hroute⟩ := hM
  have hs : shardIdx M (hash64 hf k) < M.nsh := shardIdx_lt hn _
  refine ⟨?_, ?_, ?_, ?_, ?_⟩
  · rw [nsh_set]
    exact hn
  · intro s' hs'
    rw [nsh_set] at hs'
    by_cases hss : s' = shardIdx M (hash64 hf k)
    · subst hss
      rw [shardAt_set_self hs]
      exact hInv'
    · rw [shardAt_set_ne (fun hc => hss hc.symm)]
      exact hinv s' hs'
  · intro s' hs'
    rw [nsh_set] at hs'
    by_cases hss : s' = shardIdx M (hash64 hf k)
    · subst hss
      rw [shardAt_set_self hs]
      exact hlen'
    · rw [shardAt_set_ne (fun hc => hss hc.symm)]
      exact le_trans (hlen s' hs') hb
  · intro k'
    show (if k' = k then w else f k') = _
    rw [shardIdx_set]
    by_cases hk' : k' = k
    · subst hk'
      rw [if_pos rfl, shardAt_set_self hs, hcont' k', if_pos rfl]
    · rw [if_neg hk']
      by_cases hss : shardIdx M (hash64 hf k') = shardIdx M (hash64 hf k)
      · rw [hss, shardAt_set_self hs, hcont' k', if_neg hk']
        rw [hcont k', hss]
      · rw [shardAt_set_ne (fun hc => hss hc.symm)]
        exact hcont k'
  · intro s' hs' k'' hsome
    rw [nsh_set] at hs'
    rw [shardIdx_set]
    by_cases hss : s' = shardIdx M (hash64 hf k)
    · subst hss
      rw [shardAt_set_self hs, hcont' k''] at hsome
      by_cases hk'' : k'' = k
      · subst hk''
        rfl
      · rw [if_neg hk''] at hsome
        exact hroute _ hs k'' hsome
    · rw [shardAt_set_ne (fun hc => hss hc.symm)] at hsome
      exact hroute s' hs' k'' hsome

/-- Under the invariant a shard is never full. -/
theorem Inv_count_lt {hf : K → Nat} {m : Shard K V} (h : Inv hf m) :
    countOcc m < sz m := by
  have h1 := h.inv0.len_eq
  have h2 := h.len_le
  have h3 : m.growAt < sz m := by
    rw [h.inv0.grow_eq]
    have := h.inv0.size_ge
    omega
  omega

/-- Unfolding equation for `Map.Mutate` once the inner `Get` is known. -/
theorem Mutate_eq {hf : K → Nat} {M : Map K V} {k : K} {g : V → Bool → V × Bool}
    {old : Option V}
    (hget : Shard.Get (shardAt M (shardIdx M (hash64 hf k))) (hash64 hf k) k =
      some old) :
    Map.Mutate hf M k g =
      (if (g (old.getD default) old.isSome).2 then
        match Shard.Set (shardAt M (shardIdx M (hash64 hf k))) (hash64 hf k) k
            (g (old.getD default) old.isSome).1 with
        | none => none
        | some (m', _) =>
          some ({ M with shards := M.shards.set (shardIdx M (hash64 hf k)) m' },
            if old.isSome then 0 else 1)
      else
        match Shard.Delete (shardAt M (shardIdx M (hash64 hf k))) (hash64 hf k) k with
        | none => none
        | some (m', _) =>
          some ({ M with shards := M.shards.set (shardIdx M (hash64 hf k)) m' },
            if old.isSome then -1 else 0)) := by
  simp only [Map.Mutate]
  rw [hget]

/-- One public operation always succeeds, preserves the map invariant, and
advances the ideal content by `idealStep`. -/
theorem runOp_step {hf : K → Nat} {M : Map K V} {f : K → Option V} {b : Nat}
    (hM : MapInv hf M f b) (hb : b + 1 < 65536) (op : MapOp K V) :
    ∃ M' o, runOp hf M op = some (M', o) ∧
      MapInv hf M' (idealStep f op) (b + 1) := by
  obtain ⟨hn, hinv, hlen, hcont, hroute⟩ := hM
  cases op with
  | set k v =>
    have hs : shardIdx M (hash64 hf k) < M.nsh := shardIdx_lt hn _
    have hshInv := hinv _ hs
    have hshLen := hlen _ hs
    obtain ⟨m', r, hset, hr, hInv', hcap', hlen', hcont', hsz'⟩ :=
      Set_spec hshInv (by omega) k v
    refine ⟨{ M with shards := M.shards.set (shardIdx M (hash64 hf k)) m' },
      .prev r, ?_, ?_⟩
    · simp only [runOp, Map.Set]
      rw [hset]
      rfl
    · show MapInv hf _ (fun k' => if k' = k then some v else f k') (b + 1)
      apply MapInv_update ⟨hn, hinv, hlen, hcont, hroute⟩ (b + 1) hInv' ?_
        (by omega) hcont'
      rw [hlen']
      split <;> omega
  | get k =>
    have hs : shardIdx M (hash64 hf k) < M.nsh := shardIdx_lt hn _
    have hshInv := hinv _ hs
    refine ⟨M, .prev (contents (shardAt M (shardIdx M (hash64 hf k))) k), ?_, ?_⟩
    · simp only [runOp, Map.Get]
      rw [Get_spec hshInv.inv0 (Inv_count_lt hshInv) k]
      rfl
    · exact MapInv_mono ⟨hn, hinv, hlen, hcont, hroute⟩ (by omega)
  | del k =>
    have hs : shardIdx M (hash64 hf k) < M.nsh := shardIdx_lt hn _
    have hshInv := hinv _ hs
    have hshLen := hlen _ hs
    obtain ⟨m', r, hdel, hr, hInv', hcap', hlen', hcont', hszcase, habs⟩ :=
      Delete_spec hshInv (by omega) k
    refine ⟨{ M with shards := M.shards.set (shardIdx M (hash64 hf k)) m' },
      .prev r, ?_, ?_⟩
    · simp only [runOp, Map.Delete]
      rw [hdel]
      rfl
    · show MapInv hf _ (fun k' => if k' = k then none else f k') (b + 1)
      apply MapInv_update ⟨hn, hinv, hlen, hcont, hroute⟩ (b + 1) hInv' ?_
        (by omega) hcont'
      rw [hlen']
      split <;> omega
  | «mut» k g =>
    have hs : shardIdx M (hash64 hf k) < M.nsh := shardIdx_lt hn _
    have hshInv := hinv _ hs
    have hshLen := hlen _ hs
    have hget := Get_spec hshInv.inv0 (Inv_count_lt hshInv) k
    have hfk : f k = contents (shardAt M (shardIdx M (hash64 hf k))) k := hcont k
    have hstep : idealStep f (MapOp.mut k g) =
        (if (g ((contents (shardAt M (shardIdx M (hash64 hf k))) k).getD default)
              (contents (shardAt M (shardIdx M (hash64 hf k))) k).isSome).2 then
          (fun k' => if k' = k then
            some (g ((contents (shardAt M (shardIdx M (hash64 hf k))) k).getD default)
              (contents (shardAt M (shardIdx M (hash64 hf k))) k).isSome).1
            else f k')
        else fun k' => if k' = k then none else f k') := by
      simp only [idealStep]
      rw [hfk]
    rcases hg2 : (g ((contents (shardAt M (shardIdx M (hash64 hf k))) k).getD default)
        (contents (shardAt M (shardIdx M (hash64 hf k))) k).isSome).2 with _ | _
    · obtain ⟨m', r, hdel, hr, hInv', hcap', hlen', hcont', hszcase, habs⟩ :=
        Delete_spec hshInv (by omega) k
      refine ⟨{ M with shards := M.shards.set (shardIdx M (hash64 hf k)) m' },
        .num (if (contents (shardAt M (shardIdx M (hash64 hf k))) k).isSome
          then -1 else 0), ?_, ?_⟩
      · simp only [runOp]
        rw [Mutate_eq hget, hg2, if_neg (by simp), hdel]
        rfl
      · rw [hstep, hg2, if_neg (by simp)]
        apply MapInv_update ⟨hn, hinv, hlen, hcont, hroute⟩ (b + 1) hInv' ?_
          (by omega) hcont'
        rw [hlen']
        split <;> omega
    · obtain ⟨m', r, hset, hr, hInv', hcap', hlen', hcont', hsz'⟩ :=
        Set_spec hshInv (by omega) k
          (g ((contents (shardAt M (shardIdx M (hash64 hf k))) k).getD default)
            (contents (shardAt M (shardIdx M (hash64 hf k))) k).isSome).1
      refine ⟨{ M with shards := M.shards.set (shardIdx M (hash64 hf k)) m' },
        .num (if (contents (shardAt M (shardIdx M (hash64 hf k))) k).isSome
          then 0 else 1), ?_, ?_⟩
      · simp only [runOp]
        rw [Mutate_eq hget, hg2, if_pos rfl, hset]
        rfl
      · rw [hstep, hg2, if_pos rfl]
        apply MapInv_update ⟨hn, hinv, hlen, hcont, hroute⟩ (b + 1) hInv' ?_
          (by omega) hcont'
        rw [hlen']
        split <;> omega
  | len =>
    exact ⟨M, .num (Map.Len M : Int), rfl,
      MapInv_mono ⟨hn, hinv, hlen, hcont, hroute⟩ (by omega)⟩
  | range =>
    exact ⟨M, .entries (Map.Range M), rfl,
      MapInv_mono ⟨hn, hinv, hlen, hcont, hroute⟩ (by omega)⟩
  | clear =>
    have hnsh : (Map.Clear M).nsh = M.nsh := by
      unfold Map.Clear Map.nsh
      simp
    have hsh : ∀ s, s < M.nsh → shardAt (Map.Clear M) s =
        Shard.init (Int.tdiv M.cap (M.nsh : Int)) := by
      intro s hs
      unfold Map.Clear shardAt
      simp only []
      rw [List.getD_eq_getElem?_getD, List.getElem?_map, List.getElem?_eq_getElem hs]
      rfl
    have hidx : ∀ h, shardIdx (Map.Clear M) h = shardIdx M h := by
      intro h
      unfold shardIdx
      rw [hnsh]
    refine ⟨Map.Clear M, .unit, rfl, ?_, ?_, ?_, ?_, ?_⟩
    · rw [hnsh]
      exact hn
    · intro s hs
      rw [hnsh] at hs
      rw [hsh s hs]
      exact Inv_init hf _
    · intro s hs
      rw [hnsh] at hs
      rw [hsh s hs, init_length]
      omega
    · intro k
      rw [hidx, hsh _ (shardIdx_lt hn _), contents_init]
      rfl
    · intro s hs k hsome
      rw [hnsh] at hs
      rw [hsh s hs, contents_init] at hsome
      simp at hsome

/-- Every sequence of public operations succeeds, keeps every shard
invariant, and tracks the ideal map in program order. -/
theorem runOps_ideal {hf : K → Nat} :
    ∀ (ops : List (MapOp K V)) (M : Map K V) (f : K → Option V) (b : Nat),
      MapInv hf M f b → b + ops.length < 65536 →
      ∃ M' outs, runOps hf M ops = some (M', outs) ∧
        MapInv hf M' (ops.foldl idealStep f) (b + ops.length) := by
  intro ops
  induction ops with
  | nil =>
    intro M f b hM hb
    exact ⟨M, [], rfl, hM⟩
  | cons op ops ih =>
    intro M f b hM hb
    have hb' : b + 1 + ops.length < 65536 := by
      rw [List.length_cons] at hb
      omega
    obtain ⟨M1, o, hop, hM1⟩ := runOp_step hM (by omega) op
    obtain ⟨M2, outs, hops, hM2⟩ := ih M1 (idealStep f op) (b + 1) hM1 (by omega)
    refine ⟨M2, o :: outs, ?_, ?_⟩
    · rw [runOps, hop]
      show (match runOps hf M1 ops with
        | none => none
        | some (M'', os) => some (M'', o :: os)) = some (M2, o :: outs)
      rw [hops]
    · rw [List.foldl_cons]
      exact MapInv_mono hM2 (by rw [List.length_cons]; omega)

/-! ### The `cap` field is read only by the shrink test

None of the probe loops reads `cap`; `resize` copies it; `remove` compares it
with the table size.  These lemmas push a changed `cap` through every
operation, for the `New(cap ≤ 0) ≡ New(0)` equivalence. -/

theorem getLoop_cap (c : Int) (hsh : Nat) (k' : K) :
    ∀ (fuel : Nat) (m : Shard K V) (i : Nat),
      getLoop { m with cap := c } hsh k' i fuel = getLoop m hsh k' i fuel := by
  intro fuel
  induction fuel with
  | zero => intro m i; rfl
  | succ fuel ih =>
    intro m i
    show (if dibOf (hd m i) = 0 then some none
      else if hashOf (hd m i) = hsh ∧ (bkt m i).1 = k' then some (some (bkt m i).2)
      else getLoop { m with cap := c } hsh k' ((i + 1) &&& m.mask) fuel) =
      getLoop m hsh k' i (fuel + 1)
    rw [ih, getLoop]

theorem getPosLoop_cap (c : Int) (pos : Nat) :
    ∀ (fuel : Nat) (m : Shard K V) (i : Nat),
      getPosLoop { m with cap := c } pos i fuel = getPosLoop m pos i fuel := by
  intro fuel
  induction fuel with
  | zero => intro m i; rfl
  | succ fuel ih =>
    intro m i
    show (if dibOf (hd m ((pos + i) &&& m.mask)) ≠ 0 then some (bkt m ((pos + i) &&& m.mask))
      else getPosLoop { m with cap := c } pos (i + 1) fuel) = getPosLoop m pos i (fuel + 1)
    rw [ih, getPosLoop]

theorem setLoop_cap (c : Int) :
    ∀ (fuel : Nat) (m : Shard K V) (w : Nat) (e : K × V) (i : Nat),
      setLoop { m with cap := c } w e i fuel =
        (setLoop m w e i fuel).map fun p => ({ p.1 with cap := c }, p.2) := by
  intro fuel
  induction fuel with
  | zero => intro m w e i; rfl
  | succ fuel ih =>
    intro m w e i
    show (if dibOf (hd m i) = 0 then
        some ({ m with
                  hdib := m.hdib.set i w,
                  buckets := m.buckets.set i e,
                  length := m.length + 1,
                  cap := c }, none)
      else if hashOf w = hashOf (hd m i) ∧ e.1 = (bkt m i).1 then
        some ({ m with
                  hdib := m.hdib.set i w,
                  buckets := m.buckets.set i ((bkt m i).1, e.2),
                  cap := c }, some (bkt m i).2)
      else if dibOf (hd m i) < dibOf w then
        setLoop { m with hdib := m.hdib.set i w, buckets := m.buckets.set i e, cap := c }
          (withDib (hd m i) (dibOf (hd m i) + 1)) (bkt m i) ((i + 1) &&& m.mask) fuel
      else
        setLoop { m with cap := c } (withDib w (dibOf w + 1)) e ((i + 1) &&& m.mask) fuel) =
      (setLoop m w e i (fuel + 1)).map fun p => ({ p.1 with cap := c }, p.2)
    rw [setLoop]
    by_cases h1 : dibOf (hd m i) = 0
    · rw [if_pos h1, if_pos h1]
      rfl
    · rw [if_neg h1, if_neg h1]
      by_cases h2 : hashOf w = hashOf (hd m i) ∧ e.1 = (bkt m i).1
      · rw [if_pos h2, if_pos h2]
        rfl
      · rw [if_neg h2, if_neg h2]
        by_cases h3 : dibOf (hd m i) < dibOf w
        · rw [if_pos h3, if_pos h3]
          exact ih { m with hdib := m.hdib.set i w, buckets := m.buckets.set i e }
            (withDib (hd m i) (dibOf (hd m i) + 1)) (bkt m i) ((i + 1) &&& m.mask)
        · rw [if_neg h3, if_neg h3]
          exact ih m (withDib w (dibOf w + 1)) e ((i + 1) &&& m.mask)

theorem removeLoop_cap (c : Int) :
    ∀ (fuel : Nat) (m : Shard K V) (i : Nat),
      removeLoop { m with cap := c } i fuel =
        (removeLoop m i fuel).map fun m' => { m' with cap := c } := by
  intro fuel
  induction fuel with
  | zero => intro m i; rfl
  | succ fuel ih =>
    intro m i
    show (if dibOf (hd m ((i + 1) &&& m.mask)) ≤ 1 then
        some { m with
                 buckets := m.buckets.set i default,
                 hdib := m.hdib.set i 0,
                 cap := c }
      else
        removeLoop
          { m with
              buckets := m.buckets.set i (bkt m ((i + 1) &&& m.mask)),
              hdib := m.hdib.set i (withDib (hd m ((i + 1) &&& m.mask))
                (dibOf (hd m ((i + 1) &&& m.mask)) - 1)),
              cap := c } ((i + 1) &&& m.mask) fuel) =
      (removeLoop m i (fuel + 1)).map fun m' => { m' with cap := c }
    rw [removeLoop]
    by_cases h1 : dibOf (hd m ((i + 1) &&& m.mask)) ≤ 1
    · rw [if_pos h1, if_pos h1]
      rfl
    · rw [if_neg h1, if_neg h1]
      exact ih
        { m with
            buckets := m.buckets.set i (bkt m ((i + 1) &&& m.mask)),
            hdib := m.hdib.set i (withDib (hd m ((i + 1) &&& m.mask))
              (dibOf (hd m ((i + 1) &&& m.mask)) - 1)) } ((i + 1) &&& m.mask)

theorem resizeLoop_cap (c : Int) :
    ∀ (fuel : Nat) (m nmap : Shard K V) (i : Nat),
      resizeLoop { m with cap := c } nmap i fuel = resizeLoop m nmap i fuel := by
  intro fuel
  induction fuel with
  | zero => intro m nmap i; rfl
  | succ fuel ih =>
    intro m nmap i
    show (if dibOf (hd m i) ≠ 0 then
        match Shard.set nmap (hashOf (hd m i)) (bkt m i).1 (bkt m i).2 with
        | none => none
        | some (n', _) => resizeLoop { m with cap := c } n' (i + 1) fuel
      else resizeLoop { m with cap := c } nmap (i + 1) fuel) =
      resizeLoop m nmap i (fuel + 1)
    rw [resizeLoop]
    by_cases h1 : dibOf (hd m i) ≠ 0
    · rw [if_pos h1, if_pos h1]
      cases hset : Shard.set nmap (hashOf (hd m i)) (bkt m i).1 (bkt m i).2 with
      | none => rfl
      | some p =>
        obtain ⟨n', r⟩ := p
        exact ih _ _ _
    · rw [if_neg h1, if_neg h1]
      exact ih _ _ _

theorem set_cap (c : Int) (m : Shard K V) (hsh : Nat) (k : K) (v : V) :
    Shard.set { m with cap := c } hsh k v =
      (Shard.set m hsh k v).map fun p => ({ p.1 with cap := c }, p.2) := by
  show setLoop { m with cap := c } (mkHdib hsh) (k, v)
      ((mkHdib hsh >>> 16) &&& m.mask) (sz m) = _
  rw [setLoop_cap]
  rfl

theorem resize_cap (c : Int) (m : Shard K V) (x : Int) :
    Shard.resize { m with cap := c } x =
      (Shard.resize m x).map fun m' => { m' with cap := c } := by
  show ((match resizeLoop { m with cap := c } (Shard.init x) 0 (sz m) with
    | none => none
    | some nmap => some { nmap with cap := c }) : Option (Shard K V)) =
    ((match resizeLoop m (Shard.init x) 0 (sz m) with
      | none => none
      | some nmap => some { nmap with cap := m.cap }) :
        Option (Shard K V)).map fun m' => { m' with cap := c }
  rw [resizeLoop_cap]
  cases resizeLoop m (Shard.init x) 0 (sz m) with
  | none => rfl
  | some nmap => rfl

/-- Unfolding of `Shard.Set` when the table is allocated. -/
theorem Set_eq_of_pos {m : Shard K V} (h0 : ¬ sz m = 0) (hsh : Nat) (k : K) (v : V) :
    Shard.Set m hsh k v =
      (match (if m.growAt ≤ m.length then Shard.resize m (2 * sz m : Nat)
          else some m) with
        | none => none
        | some m1 => Shard.set m1 (hsh >>> 16) k v) := by
  simp only [Shard.Set]
  rw [if_neg h0]

theorem Set_cap (c : Int) {m : Shard K V} (h0 : 0 < sz m) (hsh : Nat) (k : K) (v : V) :
    Shard.Set { m with cap := c } hsh k v =
      (Shard.Set m hsh k v).map fun p => ({ p.1 with cap := c }, p.2) := by
  rw [Set_eq_of_pos (m := { m with cap := c }) (by show ¬ sz m = 0; omega) hsh k v,
    Set_eq_of_pos (by omega) hsh k v]
  show (match (if m.growAt ≤ m.length then
        Shard.resize { m with cap := c } (2 * sz m : Nat)
      else some { m with cap := c }) with
      | none => none
      | some m1 => Shard.set m1 (hsh >>> 16) k v) = _
  by_cases hg : m.growAt ≤ m.length
  · rw [if_pos hg, if_pos hg, resize_cap]
    cases Shard.resize m ((2 * sz m : Nat) : Int) with
    | none => rfl
    | some m1 =>
      show Shard.set { m1 with cap := c } (hsh >>> 16) k v = _
      rw [set_cap]
  · rw [if_neg hg, if_neg hg]
    show Shard.set { m with cap := c } (hsh >>> 16) k v = _
    rw [set_cap]

/-- `removeLoop` keeps `cap` and the array sizes. -/
theorem removeLoop_fields :
    ∀ (fuel : Nat) (m : Shard K V) (i : Nat) {out : Shard K V},
      removeLoop m i fuel = some out →
      out.cap = m.cap ∧ out.buckets.length = m.buckets.length ∧
      out.length = m.length ∧ out.shrinkAt = m.shrinkAt := by
  intro fuel
  induction fuel with
  | zero => intro m i out h; exact absurd h (by rw [removeLoop]; simp)
  | succ fuel ih =>
    intro m i out h
    rw [removeLoop] at h
    by_cases h1 : dibOf (hd m ((i + 1) &&& m.mask)) ≤ 1
    · rw [if_pos h1] at h
      cases h
      refine ⟨rfl, ?_, rfl, rfl⟩
      simp
    · rw [if_neg h1] at h
      obtain ⟨h2, h3, h4, h5⟩ := ih _ _ h
      refine ⟨h2, ?_, h4, h5⟩
      rw [h3]
      simp

theorem remove_cap (c : Int) (m : Shard K V) (i : Nat) (hc : c ≤ 0)
    (hmc : m.cap ≤ 0) (h0 : 0 < sz m) :
    Shard.remove { m with cap := c } i =
      (Shard.remove m i).map fun m' => { m' with cap := c } := by
  show ((match removeLoop
      { ({ m with hdib := m.hdib.set i (withDib (hd m i) 0) } : Shard K V)
        with cap := c } i (sz m) with
    | none => none
    | some m1 =>
      let m2 : Shard K V := { m1 with length := m1.length - 1 }
      if m2.cap < (sz m2 : Int) ∧ m2.length ≤ m2.shrinkAt then
        Shard.resize m2 (m2.length : Nat)
      else some m2) : Option (Shard K V)) =
    ((match removeLoop { m with hdib := m.hdib.set i (withDib (hd m i) 0) }
        i (sz m) with
      | none => none
      | some m1 =>
        let m2 : Shard K V := { m1 with length := m1.length - 1 }
        if m2.cap < (sz m2 : Int) ∧ m2.length ≤ m2.shrinkAt then
          Shard.resize m2 (m2.length : Nat)
        else some m2) : Option (Shard K V)).map fun m' => { m' with cap := c }
  rw [removeLoop_cap]
  cases hloop : removeLoop { m with hdib := m.hdib.set i (withDib (hd m i) 0) }
      i (sz m) with
  | none => rfl
  | some m1 =>
    show (if c < (sz m1 : Int) ∧ m1.length - 1 ≤ m1.shrinkAt then
        Shard.resize { m1 with length := m1.length - 1, cap := c }
          ((m1.length - 1 : Nat) : Nat)
      else some { m1 with length := m1.length - 1, cap := c }) =
      (if m1.cap < (sz m1 : Int) ∧ m1.length - 1 ≤ m1.shrinkAt then
        Shard.resize { m1 with length := m1.length - 1 } ((m1.length - 1 : Nat) : Nat)
      else some { m1 with length := m1.length - 1 }).map fun m' => { m' with cap := c }
    have hiff : (c < (sz m1 : Int) ∧ m1.length - 1 ≤ m1.shrinkAt) ↔
        (m1.cap < (sz m1 : Int) ∧ m1.length - 1 ≤ m1.shrinkAt) := by
      obtain ⟨hcap1, hbl1, -, -⟩ := removeLoop_fields _ _ _ hloop
      have hcap1' : m1.cap = m.cap := by rw [hcap1]
      have hsz1 : sz m1 = sz m := by
        show m1.buckets.length = sz m
        rw [hbl1]
        rfl
      rw [hcap1']
      constructor
      · rintro ⟨-, h2⟩
        exact ⟨by rw [hsz1]; omega, h2⟩
      · rintro ⟨-, h2⟩
        exact ⟨by rw [hsz1]; omega, h2⟩
    by_cases hcond : m1.cap < (sz m1 : Int) ∧ m1.length - 1 ≤ m1.shrinkAt
    · rw [if_pos (hiff.mpr hcond), if_pos hcond]
      have hsw2 : ({ m1 with length := m1.length - 1, cap := c } : Shard K V) =
          { ({ m1 with length := m1.length - 1 } : Shard K V) with cap := c } := rfl
      rw [hsw2, resize_cap]
    · rw [if_neg (fun hcon => hcond (hiff.mp hcon)), if_neg hcond]
      rfl

theorem deleteLoop_cap (c : Int) (hsh : Nat) (k' : K) (hc : c ≤ 0) :
    ∀ (fuel : Nat) (m : Shard K V) (i : Nat), m.cap ≤ 0 → 0 < sz m →
      deleteLoop { m with cap := c } hsh k' i fuel =
        (deleteLoop m hsh k' i fuel).map fun p => ({ p.1 with cap := c }, p.2) := by
  intro fuel
  induction fuel with
  | zero => intro m i _ _; rfl
  | succ fuel ih =>
    intro m i hmc h0
    show (if dibOf (hd m i) = 0 then some ({ m with cap := c }, none)
      else if hashOf (hd m i) = hsh ∧ (bkt m i).1 = k' then
        match Shard.remove { m with cap := c } i with
        | none => none
        | some m' => some (m', some (bkt m i).2)
      else deleteLoop { m with cap := c } hsh k' ((i + 1) &&& m.mask) fuel) =
      (deleteLoop m hsh k' i (fuel + 1)).map fun p => ({ p.1 with cap := c }, p.2)
    rw [deleteLoop]
    by_cases h1 : dibOf (hd m i) = 0
    · rw [if_pos h1, if_pos h1]
      rfl
    · rw [if_neg h1, if_neg h1]
      by_cases h2 : hashOf (hd m i) = hsh ∧ (bkt m i).1 = k'
      · rw [if_pos h2, if_pos h2, remove_cap c m i hc hmc h0]
        cases Shard.remove m i with
        | none => rfl
        | some m' => rfl
      · rw [if_neg h2, if_neg h2]
        exact ih _ _ hmc h0

theorem Get_cap (c : Int) (m : Shard K V) (hsh : Nat) (k : K) :
    Shard.Get { m with cap := c } hsh k = Shard.Get m hsh k := by
  unfold Shard.Get
  show (if sz m = 0 then some none
    else getLoop { m with cap := c } (hsh >>> 16) k (hsh >>> 16 &&& m.mask) (sz m)) = _
  by_cases h0 : sz m = 0
  · rw [if_pos h0, if_pos h0]
  · rw [if_neg h0, if_neg h0, getLoop_cap]

theorem Delete_cap (c : Int) (m : Shard K V) (k : K) (hsh : Nat) (hc : c ≤ 0)
    (hmc : m.cap ≤ 0) (h0 : 0 < sz m) :
    Shard.Delete { m with cap := c } hsh k =
      (Shard.Delete m hsh k).map fun p => ({ p.1 with cap := c }, p.2) := by
  unfold Shard.Delete
  show (if sz m = 0 then some ({ m with cap := c }, none)
    else deleteLoop { m with cap := c } (hsh >>> 16) k (hsh >>> 16 &&& m.mask) (sz m)) = _
  rw [if_neg (by omega), if_neg (by omega), deleteLoop_cap c _ _ hc _ _ _ hmc h0]

theorem GetPos_cap (c : Int) (m : Shard K V) (pos : Nat) :
    Shard.GetPos { m with cap := c } pos = Shard.GetPos m pos := by
  show getPosLoop { m with cap := c } pos 0 (sz m) = getPosLoop m pos 0 (sz m)
  rw [getPosLoop_cap]

theorem Range_cap (c : Int) (m : Shard K V) :
    Shard.Range { m with cap := c } = Shard.Range m := rfl

/-! ### Field preservation along the mutating operations -/

theorem setLoop_fields :
    ∀ (fuel : Nat) (m : Shard K V) (w : Nat) (e : K × V) (i : Nat)
      {p : Shard K V × Option V},
      setLoop m w e i fuel = some p →
      p.1.cap = m.cap ∧ p.1.buckets.length = m.buckets.length := by
  intro fuel
  induction fuel with
  | zero => intro m w e i p h; exact absurd h (by rw [setLoop]; simp)
  | succ fuel ih =>
    intro m w e i p h
    rw [setLoop] at h
    by_cases h1 : dibOf (hd m i) = 0
    · rw [if_pos h1] at h
      cases h
      exact ⟨rfl, by simp⟩
    · rw [if_neg h1] at h
      by_cases h2 : hashOf w = hashOf (hd m i) ∧ e.1 = (bkt m i).1
      · rw [if_pos h2] at h
        cases h
        exact ⟨rfl, by simp⟩
      · rw [if_neg h2] at h
        by_cases h3 : dibOf (hd m i) < dibOf w
        · rw [if_pos h3] at h
          obtain ⟨hc, hl⟩ := ih _ _ _ _ h
          refine ⟨hc, ?_⟩
          rw [hl]
          simp
        · rw [if_neg h3] at h
          exact ih _ _ _ _ h

theorem set_fields {m : Shard K V} {hsh : Nat} {k : K} {v : V}
    {p : Shard K V × Option V} (h : Shard.set m hsh k v = some p) :
    p.1.cap = m.cap ∧ p.1.buckets.length = m.buckets.length :=
  setLoop_fields _ _ _ _ _ h

theorem resizeLoop_fields :
    ∀ (fuel : Nat) (m nmap : Shard K V) (i : Nat) {out : Shard K V},
      resizeLoop m nmap i fuel = some out →
      out.cap = nmap.cap ∧ out.buckets.length = nmap.buckets.length := by
  intro fuel
  induction fuel with
  | zero =>
    intro m nmap i out h
    rw [resizeLoop] at h
    cases h
    exact ⟨rfl, rfl⟩
  | succ fuel ih =>
    intro m nmap i out h
    rw [resizeLoop] at h
    by_cases h1 : dibOf (hd m i) ≠ 0
    · rw [if_pos h1] at h
      rcases hset : Shard.set nmap (hashOf (hd m i)) (bkt m i).1 (bkt m i).2
          with _ | ⟨n', r⟩
      · rw [hset] at h
        cases h
      · rw [hset] at h
        obtain ⟨hc, hl⟩ := ih _ _ _ h
        obtain ⟨hc', hl'⟩ := set_fields hset
        exact ⟨by rw [hc, hc'], by rw [hl, hl']⟩
    · rw [if_neg h1] at h
      exact ih _ _ _ h

theorem resize_fields {m : Shard K V} {c : Int} {m' : Shard K V}
    (h : Shard.resize m c = some m') :
    m'.cap = m.cap ∧ sz m' = szLoop 8 c := by
  unfold Shard.resize at h
  rcases hloop : resizeLoop m (Shard.init c) 0 (sz m) with _ | nmap
  · rw [hloop] at h
    cases h
  · rw [hloop] at h
    cases h
    obtain ⟨-, hl⟩ := resizeLoop_fields _ _ _ _ hloop
    refine ⟨rfl, ?_⟩
    show nmap.buckets.length = szLoop 8 c
    rw [hl]
    show (Shard.init c : Shard K V).buckets.length = szLoop 8 c
    simp [Shard.init]

theorem Set_fields {m : Shard K V} (h0 : 0 < sz m) {hsh : Nat} {k : K} {v : V}
    {p : Shard K V × Option V} (h : Shard.Set m hsh k v = some p) :
    p.1.cap = m.cap ∧ 0 < sz p.1 := by
  rw [Set_eq_of_pos (by omega) hsh k v] at h
  by_cases hg : m.growAt ≤ m.length
  · rw [if_pos hg] at h
    rcases hres : Shard.resize m ((2 * sz m : Nat) : Int) with _ | m1
    · rw [hres] at h
      cases h
    · rw [hres] at h
      obtain ⟨hc1, hs1⟩ := resize_fields hres
      obtain ⟨hc2, hl2⟩ := set_fields h
      have h8 : 8 ≤ szLoop 8 ((2 * sz m : Nat) : Int) := szLoop_ge8 _
      refine ⟨by rw [hc2, hc1], ?_⟩
      show 0 < p.1.buckets.length
      rw [hl2]
      show 0 < sz m1
      omega
  · rw [if_neg hg] at h
    obtain ⟨hc2, hl2⟩ := set_fields h
    refine ⟨hc2, ?_⟩
    show 0 < p.1.buckets.length
    rw [hl2]
    exact h0

theorem remove_fields {m : Shard K V} {i : Nat} {m' : Shard K V} (h0 : 0 < sz m)
    (h : Shard.remove m i = some m') :
    m'.cap = m.cap ∧ 0 < sz m' := by
  simp only [Shard.remove] at h
  rcases hloop : removeLoop { m with hdib := m.hdib.set i (withDib (hd m i) 0) }
      i (sz { m with hdib := m.hdib.set i (withDib (hd m i) 0) }) with _ | m1
  · rw [hloop] at h
    simp at h
  · rw [hloop] at h
    obtain ⟨hc1, hb1, -, -⟩ := removeLoop_fields _ _ _ hloop
    have h' : (if ({ m1 with length := m1.length - 1 } : Shard K V).cap <
          (sz ({ m1 with length := m1.length - 1 } : Shard K V) : Int) ∧
          ({ m1 with length := m1.length - 1 } : Shard K V).length ≤
            ({ m1 with length := m1.length - 1 } : Shard K V).shrinkAt then
        Shard.resize ({ m1 with length := m1.length - 1 } : Shard K V)
          (({ m1 with length := m1.length - 1 } : Shard K V).length : Nat)
      else some ({ m1 with length := m1.length - 1 } : Shard K V)) = some m' := h
    clear h
    split at h'
    · obtain ⟨hc2, hs2⟩ := resize_fields h'
      constructor
      · rw [hc2]
        show m1.cap = m.cap
        rw [hc1]
      · rw [hs2]
        exact Nat.lt_of_lt_of_le (by norm_num) (szLoop_ge8 _)
    · cases h'
      constructor
      · show m1.cap = m.cap
        rw [hc1]
      · show 0 < m1.buckets.length
        rw [hb1]
        exact h0

theorem deleteLoop_fields :
    ∀ (fuel : Nat) (m : Shard K V) (hsh : Nat) (k : K) (i : Nat)
      {p : Shard K V × Option V}, 0 < sz m →
      deleteLoop m hsh k i fuel = some p →
      p.1.cap = m.cap ∧ 0 < sz p.1 := by
  intro fuel
  induction fuel with
  | zero => intro m hsh k i p _ h; exact absurd h (by rw [deleteLoop]; simp)
  | succ fuel ih =>
    intro m hsh k i p h0 h
    rw [deleteLoop] at h
    by_cases h1 : dibOf (hd m i) = 0
    · rw [if_pos h1] at h
      cases h
      exact ⟨rfl, h0⟩
    · rw [if_neg h1] at h
      by_cases h2 : hashOf (hd m i) = hsh ∧ (bkt m i).1 = k
      · rw [if_pos h2] at h
        rcases hrem : Shard.remove m i with _ | m'
        · rw [hrem] at h
          cases h
        · rw [hrem] at h
          cases h
          exact remove_fields h0 hrem
      · rw [if_neg h2] at h
        exact ih _ _ _ _ h0 h

theorem Delete_fields {m : Shard K V} (h0 : 0 < sz m) {hsh : Nat} {k : K}
    {p : Shard K V × Option V} (h : Shard.Delete m hsh k = some p) :
    p.1.cap = m.cap ∧ 0 < sz p.1 := by
  unfold Shard.Delete at h
  rw [if_neg (by omega)] at h
  exact deleteLoop_fields _ _ _ _ _ h0 h

/-! ### `New(cap ≤ 0)` behaves like `New(0)` -/

theorem tdiv_nonpos_of_nonpos {a b : Int} (ha : a ≤ 0) (hb : 0 ≤ b) :
    a.tdiv b ≤ 0 := by
  have h1 : 0 ≤ (-a).tdiv b := Int.tdiv_nonneg (by omega) hb
  have h2 : (-(-a)).tdiv b = -((-a).tdiv b) := Int.neg_tdiv (-a) b
  rw [neg_neg] at h2
  omega

theorem szLoop_nonpos {c : Int} (hc : c ≤ 0) : szLoop 8 c = 8 := by
  obtain ⟨t, hP, hub, hmin⟩ := szLoop_spec c
  cases t with
  | zero =>
    rw [hP]
    norm_num
  | succ t =>
    have h0 := hmin 0 (by omega)
    norm_num at h0
    omega

theorem init_nonpos {c : Int} (hc : c ≤ 0) :
    (Shard.init c : Shard K V) = { (Shard.init 0 : Shard K V) with cap := c } := by
  show ({ cap := (if 0 < c then ((szLoop 8 c : Nat) : Int) else c),
          length := 0,
          hdib := List.replicate (szLoop 8 c) 0,
          buckets := List.replicate (szLoop 8 c) default,
          mask := szLoop 8 c - 1,
          growAt := 17 * szLoop 8 c / 20,
          shrinkAt := 3 * szLoop 8 c / 20 } : Shard K V) =
    ({ cap := c,
       length := 0,
       hdib := List.replicate (szLoop 8 (0 : Int)) 0,
       buckets := List.replicate (szLoop 8 (0 : Int)) default,
       mask := szLoop 8 (0 : Int) - 1,
       growAt := 17 * szLoop 8 (0 : Int) / 20,
       shrinkAt := 3 * szLoop 8 (0 : Int) / 20 } : Shard K V)
  rw [if_neg (by omega), szLoop_nonpos hc, szLoop_nonpos (le_refl (0 : Int))]

/-- Two maps in the `cap ≤ 0` regime that differ only in the stored
capacities. -/
def MapRel (M1 M2 : Map K V) : Prop :=
  0 < M2.nsh ∧ M1.nsh = M2.nsh ∧ M1.cap ≤ 0 ∧ M2.cap ≤ 0 ∧
  ∀ s, s < M2.nsh →
    shardAt M1 s = { shardAt M2 s with cap := (shardAt M1 s).cap } ∧
    (shardAt M1 s).cap ≤ 0 ∧ (shardAt M2 s).cap ≤ 0 ∧ 0 < sz (shardAt M2 s)

theorem MapRel_update {M1 M2 : Map K V} (h : MapRel M1 M2) (hash : Nat)
    {m1' m2' : Shard K V}
    (hm1' : m1' = { m2' with cap := (shardAt M1 (shardIdx M2 hash)).cap })
    (hc2' : m2'.cap = (shardAt M2 (shardIdx M2 hash)).cap)
    (hsz' : 0 < sz m2') :
    MapRel { M1 with shards := M1.shards.set (shardIdx M1 hash) m1' }
      { M2 with shards := M2.shards.set (shardIdx M2 hash) m2' } := by
  obtain ⟨hpos, hnsh, hc1, hc2, hsh⟩ := h
  have hidx : shardIdx M1 hash = shardIdx M2 hash := by
    unfold shardIdx
    rw [hnsh]
  have hs2 : shardIdx M2 hash < M2.nsh := shardIdx_lt hpos _
  have hs1 : shardIdx M2 hash < M1.nsh := by omega
  obtain ⟨hshard, hcs1, hcs2, hsz2⟩ := hsh _ hs2
  refine ⟨by rw [nsh_set]; exact hpos, by rw [nsh_set, nsh_set]; exact hnsh,
    hc1, hc2, ?_⟩
  intro s hs
  rw [nsh_set] at hs
  rw [hidx]
  by_cases hss : s = shardIdx M2 hash
  · subst hss
    rw [shardAt_set_self hs1, shardAt_set_self hs2, hm1']
    refine ⟨rfl, ?_, ?_, hsz'⟩
    · show (shardAt M1 (shardIdx M2 hash)).cap ≤ 0
      exact hcs1
    · rw [hc2']
      exact hcs2
  · rw [shardAt_set_ne (fun hc => hss hc.symm), shardAt_set_ne (fun hc => hss hc.symm)]
    exact hsh s hs

theorem Len_rel {M1 M2 : Map K V} (h : MapRel M1 M2) : Map.Len M1 = Map.Len M2 := by
  obtain ⟨hpos, hnsh, -, -, hsh⟩ := h
  unfold Map.Len
  congr 1
  apply List.ext_getElem
  · simp only [List.length_map]
    exact hnsh
  · intro i h1 h2
    simp only [List.getElem_map]
    have hi2 : i < M2.nsh := by simpa using h2
    have hb1 : i < M1.shards.length := by simpa using h1
    have hb2 : i < M2.shards.length := by simpa using h2
    have hgA : M1.shards[i] = shardAt M1 i := by
      unfold shardAt
      rw [List.getD_eq_getElem?_getD, List.getElem?_eq_getElem hb1]
      rfl
    have hgB : M2.shards[i] = shardAt M2 i := by
      unfold shardAt
      rw [List.getD_eq_getElem?_getD, List.getElem?_eq_getElem hb2]
      rfl
    rw [hgA, hgB, (hsh i hi2).1]
    rfl

theorem Range_rel {M1 M2 : Map K V} (h : MapRel M1 M2) :
    Map.Range M1 = Map.Range M2 := by
  obtain ⟨hpos, hnsh, -, -, hsh⟩ := h
  unfold Map.Range
  congr 1
  apply List.ext_getElem
  · simp only [List.length_map]
    exact hnsh
  · intro i h1 h2
    simp only [List.getElem_map]
    have hi2 : i < M2.nsh := by simpa using h2
    have hb1 : i < M1.shards.length := by simpa using h1
    have hb2 : i < M2.shards.length := by simpa using h2
    have hgA : M1.shards[i] = shardAt M1 i := by
      unfold shardAt
      rw [List.getD_eq_getElem?_getD, List.getElem?_eq_getElem hb1]
      rfl
    have hgB : M2.shards[i] = shardAt M2 i := by
      unfold shardAt
      rw [List.getD_eq_getElem?_getD, List.getElem?_eq_getElem hb2]
      rfl
    rw [hgA, hgB, (hsh i hi2).1]
    exact Range_cap _ _

theorem Mutate_eq_none {hf : K → Nat} {M : Map K V} {k : K} {g : V → Bool → V × Bool}
    (hget : Shard.Get (shardAt M (shardIdx M (hash64 hf k))) (hash64 hf k) k = none) :
    Map.Mutate hf M k g = none := by
  simp only [Map.Mutate]
  rw [hget]

/-- One public operation taken on both sides of the relation: the outputs
coincide and the relation is preserved. -/
theorem runOp_rel {hf : K → Nat} {M1 M2 : Map K V} (h : MapRel M1 M2)
    (op : MapOp K V) :
    (runOp hf M1 op = none ∧ runOp hf M2 op = none) ∨
    (∃ M1' M2' o, runOp hf M1 op = some (M1', o) ∧ runOp hf M2 op = some (M2', o) ∧
      MapRel M1' M2') := by
  obtain ⟨hpos, hnsh, hc1, hc2, hsh⟩ := h
  have hrel : MapRel M1 M2 := ⟨hpos, hnsh, hc1, hc2, hsh⟩
  cases op with
  | set k v =>
    have hidx : shardIdx M1 (hash64 hf k) = shardIdx M2 (hash64 hf k) := by
      unfold shardIdx
      rw [hnsh]
    have hs2 : shardIdx M2 (hash64 hf k) < M2.nsh := shardIdx_lt hpos _
    obtain ⟨hshard, hcs1, hcs2, hsz2⟩ := hsh _ hs2
    have hset1 : Shard.Set (shardAt M1 (shardIdx M1 (hash64 hf k))) (hash64 hf k) k v =
        (Shard.Set (shardAt M2 (shardIdx M2 (hash64 hf k))) (hash64 hf k) k v).map
          fun p => ({ p.1 with cap := (shardAt M1 (shardIdx M2 (hash64 hf k))).cap },
            p.2) := by
      rw [hidx, hshard]
      exact Set_cap _ hsz2 _ _ _
    rcases hres : Shard.Set (shardAt M2 (shardIdx M2 (hash64 hf k))) (hash64 hf k) k v
        with _ | ⟨m2', r⟩
    · left
      constructor
      · simp only [runOp, Map.Set]
        rw [hset1, hres]
        rfl
      · simp only [runOp, Map.Set]
        rw [hres]
        rfl
    · right
      obtain ⟨hcap', hsz'⟩ := Set_fields hsz2 hres
      refine ⟨{ M1 with shards := M1.shards.set (shardIdx M1 (hash64 hf k)) ({ m2' with cap := (shardAt M1 (shardIdx M2 (hash64 hf k))).cap }) }, { M2 with shards := M2.shards.set (shardIdx M2 (hash64 hf k)) m2' }, .prev r, ?_, ?_, ?_⟩
      · simp only [runOp, Map.Set]
        rw [hset1, hres]
        rfl
      · simp only [runOp, Map.Set]
        rw [hres]
        rfl
      · exact MapRel_update hrel (hash64 hf k) rfl hcap' hsz'
  | get k =>
    have hidx : shardIdx M1 (hash64 hf k) = shardIdx M2 (hash64 hf k) := by
      unfold shardIdx
      rw [hnsh]
    have hs2 : shardIdx M2 (hash64 hf k) < M2.nsh := shardIdx_lt hpos _
    obtain ⟨hshard, hcs1, hcs2, hsz2⟩ := hsh _ hs2
    have hget1 : Map.Get hf M1 k = Map.Get hf M2 k := by
      show Shard.Get (shardAt M1 (shardIdx M1 (hash64 hf k))) (hash64 hf k) k =
        Shard.Get (shardAt M2 (shardIdx M2 (hash64 hf k))) (hash64 hf k) k
      rw [hidx, hshard]
      exact Get_cap _ _ _ _
    rcases hres : Map.Get hf M2 k with _ | r
    · left
      constructor
      · simp only [runOp]
        rw [hget1, hres]
        rfl
      · simp only [runOp]
        rw [hres]
        rfl
    · right
      refine ⟨M1, M2, .prev r, ?_, ?_, hrel⟩
      · simp only [runOp]
        rw [hget1, hres]
        rfl
      · simp only [runOp]
        rw [hres]
        rfl
  | del k =>
    have hidx : shardIdx M1 (hash64 hf k) = shardIdx M2 (hash64 hf k) := by
      unfold shardIdx
      rw [hnsh]
    have hs2 : shardIdx M2 (hash64 hf k) < M2.nsh := shardIdx_lt hpos _
    obtain ⟨hshard, hcs1, hcs2, hsz2⟩ := hsh _ hs2
    have hdel1 : Shard.Delete (shardAt M1 (shardIdx M1 (hash64 hf k))) (hash64 hf k) k =
        (Shard.Delete (shardAt M2 (shardIdx M2 (hash64 hf k))) (hash64 hf k) k).map
          fun p => ({ p.1 with cap := (shardAt M1 (shardIdx M2 (hash64 hf k))).cap },
            p.2) := by
      rw [hidx, hshard]
      exact Delete_cap _ _ _ _ hcs1 hcs2 hsz2
    rcases hres : Shard.Delete (shardAt M2 (shardIdx M2 (hash64 hf k))) (hash64 hf k) k
        with _ | ⟨m2', r⟩
    · left
      constructor
      · simp only [runOp, Map.Delete]
        rw [hdel1, hres]
        rfl
      · simp only [runOp, Map.Delete]
        rw [hres]
        rfl
    · right
      obtain ⟨hcap', hsz'⟩ := Delete_fields hsz2 hres
      refine ⟨{ M1 with shards := M1.shards.set (shardIdx M1 (hash64 hf k)) ({ m2' with cap := (shardAt M1 (shardIdx M2 (hash64 hf k))).cap }) }, { M2 with shards := M2.shards.set (shardIdx M2 (hash64 hf k)) m2' }, .prev r, ?_, ?_, ?_⟩
      · simp only [runOp, Map.Delete]
        rw [hdel1, hres]
        rfl
      · simp only [runOp, Map.Delete]
        rw [hres]
        rfl
      · exact MapRel_update hrel (hash64 hf k) rfl hcap' hsz'
  | «mut» k g =>
    have hidx : shardIdx M1 (hash64 hf k) = shardIdx M2 (hash64 hf k) := by
      unfold shardIdx
      rw [hnsh]
    have hs2 : shardIdx M2 (hash64 hf k) < M2.nsh := shardIdx_lt hpos _
    obtain ⟨hshard, hcs1, hcs2, hsz2⟩ := hsh _ hs2
    have hget1 : Shard.Get (shardAt M1 (shardIdx M1 (hash64 hf k))) (hash64 hf k) k =
        Shard.Get (shardAt M2 (shardIdx M2 (hash64 hf k))) (hash64 hf k) k := by
      rw [hidx, hshard]
      exact Get_cap _ _ _ _
    rcases hres : Shard.Get (shardAt M2 (shardIdx M2 (hash64 hf k))) (hash64 hf k) k
        with _ | old
    · left
      constructor
      · simp only [runOp]
        rw [Mutate_eq_none (by rw [hget1, hres])]
        rfl
      · simp only [runOp]
        rw [Mutate_eq_none hres]
        rfl
    · have hm1 := Mutate_eq (g := g)
        (show Shard.Get (shardAt M1 (shardIdx M1 (hash64 hf k))) (hash64 hf k) k =
          some old by rw [hget1, hres])
      have hm2 := Mutate_eq (g := g) hres
      rcases hg2 : (g (old.getD default) old.isSome).2 with _ | _
      · have hdel1 : Shard.Delete (shardAt M1 (shardIdx M1 (hash64 hf k)))
            (hash64 hf k) k =
            (Shard.Delete (shardAt M2 (shardIdx M2 (hash64 hf k))) (hash64 hf k) k).map
              fun p => ({ p.1 with cap := (shardAt M1 (shardIdx M2 (hash64 hf k))).cap },
                p.2) := by
          rw [hidx, hshard]
          exact Delete_cap _ _ _ _ hcs1 hcs2 hsz2
        rcases hdres : Shard.Delete (shardAt M2 (shardIdx M2 (hash64 hf k)))
            (hash64 hf k) k with _ | ⟨m2', r⟩
        · left
          constructor
          · simp only [runOp]
            rw [hm1, hg2, if_neg (by simp), hdel1, hdres]
            rfl
          · simp only [runOp]
            rw [hm2, hg2, if_neg (by simp), hdres]
            rfl
        · right
          obtain ⟨hcap', hsz'⟩ := Delete_fields hsz2 hdres
          refine ⟨{ M1 with shards := M1.shards.set (shardIdx M1 (hash64 hf k)) ({ m2' with cap := (shardAt M1 (shardIdx M2 (hash64 hf k))).cap }) }, { M2 with shards := M2.shards.set (shardIdx M2 (hash64 hf k)) m2' }, .num (if old.isSome then -1 else 0), ?_, ?_, ?_⟩
          · simp only [runOp]
            rw [hm1, hg2, if_neg (by simp), hdel1, hdres]
            rfl
          · simp only [runOp]
            rw [hm2, hg2, if_neg (by simp), hdres]
            rfl
          · exact MapRel_update hrel (hash64 hf k) rfl hcap' hsz'
      · have hset1 : Shard.Set (shardAt M1 (shardIdx M1 (hash64 hf k)))
            (hash64 hf k) k (g (old.getD default) old.isSome).1 =
            (Shard.Set (shardAt M2 (shardIdx M2 (hash64 hf k))) (hash64 hf k) k
              (g (old.getD default) old.isSome).1).map
              fun p => ({ p.1 with cap := (shardAt M1 (shardIdx M2 (hash64 hf k))).cap },
                p.2) := by
          rw [hidx, hshard]
          exact Set_cap _ hsz2 _ _ _
        rcases hsres : Shard.Set (shardAt M2 (shardIdx M2 (hash64 hf k)))
            (hash64 hf k) k (g (old.getD default) old.isSome).1 with _ | ⟨m2', r⟩
        · left
          constructor
          · simp only [runOp]
            rw [hm1, hg2, if_pos rfl, hset1, hsres]
            rfl
          · simp only [runOp]
            rw [hm2, hg2, if_pos rfl, hsres]
            rfl
        · right
          obtain ⟨hcap', hsz'⟩ := Set_fields hsz2 hsres
          refine ⟨{ M1 with shards := M1.shards.set (shardIdx M1 (hash64 hf k)) ({ m2' with cap := (shardAt M1 (shardIdx M2 (hash64 hf k))).cap }) }, { M2 with shards := M2.shards.set (shardIdx M2 (hash64 hf k)) m2' }, .num (if old.isSome then 0 else 1), ?_, ?_, ?_⟩
          · simp only [runOp]
            rw [hm1, hg2, if_pos rfl, hset1, hsres]
            rfl
          · simp only [runOp]
            rw [hm2, hg2, if_pos rfl, hsres]
            rfl
          · exact MapRel_update hrel (hash64 hf k) rfl hcap' hsz'
  | len =>
    right
    refine ⟨M1, M2, .num (Map.Len M1 : Int), rfl, ?_, hrel⟩
    show some (M2, MapOut.num (Map.Len M2 : Int)) =
      some (M2, MapOut.num (Map.Len M1 : Int))
    rw [Len_rel hrel]
  | range =>
    right
    refine ⟨M1, M2, .entries (Map.Range M1), rfl, ?_, hrel⟩
    show some (M2, MapOut.entries (Map.Range M2)) =
      some (M2, MapOut.entries (Map.Range M1))
    rw [Range_rel hrel]
  | clear =>
    right
    refine ⟨Map.Clear M1, Map.Clear M2, .unit, rfl, rfl, ?_⟩
    have hnsh1 : (Map.Clear M1).nsh = M1.nsh := by
      unfold Map.Clear Map.nsh
      simp
    have hnsh2 : (Map.Clear M2).nsh = M2.nsh := by
      unfold Map.Clear Map.nsh
      simp
    have hshc : ∀ (M : Map K V) (s : Nat), s < M.nsh → shardAt (Map.Clear M) s =
        Shard.init (Int.tdiv M.cap (M.nsh : Int)) := by
      intro M s hs
      unfold Map.Clear shardAt
      simp only []
      rw [List.getD_eq_getElem?_getD, List.getElem?_map, List.getElem?_eq_getElem hs]
      rfl
    have ht1 : Int.tdiv M1.cap (M1.nsh : Int) ≤ 0 :=
      tdiv_nonpos_of_nonpos hc1 (Int.natCast_nonneg _)
    have ht2 : Int.tdiv M2.cap (M2.nsh : Int) ≤ 0 :=
      tdiv_nonpos_of_nonpos hc2 (Int.natCast_nonneg _)
    refine ⟨by rw [hnsh2]; exact hpos, by rw [hnsh1, hnsh2]; exact hnsh,
      hc1, hc2, ?_⟩
    intro s hs
    rw [hnsh2] at hs
    have hs1 : s < M1.nsh := by omega
    rw [hshc M1 s hs1, hshc M2 s hs]
    have hi1 := init_nonpos (K := K) (V := V) ht1
    have hi2 := init_nonpos (K := K) (V := V) ht2
    refine ⟨?_, ?_, ?_, ?_⟩
    · rw [hi1, hi2]
    · rw [init_cap, if_neg (by omega)]
      exact ht1
    · rw [init_cap, if_neg (by omega)]
      exact ht2
    · rw [sz_init, szLoop_nonpos ht2]
      omega

/-- Related maps produce identical output streams on every operation
sequence. -/
theorem runOps_rel {hf : K → Nat} :
    ∀ (ops : List (MapOp K V)) (M1 M2 : Map K V), MapRel M1 M2 →
      (runOps hf M1 ops).map (fun p => p.2) =
        (runOps hf M2 ops).map fun p => p.2 := by
  intro ops
  induction ops with
  | nil => intro M1 M2 h; rfl
  | cons op ops ih =>
    intro M1 M2 h
    rcases runOp_rel h op with ⟨h1, h2⟩ | ⟨M1', M2', o, h1, h2, hrel⟩
    · rw [runOps, runOps, h1, h2]
    · rw [runOps, runOps, h1, h2]
      have hih := ih M1' M2' hrel
      show ((match runOps hf M1' ops with
        | none => none
        | some (M'', os) => some (M'', o :: os)) :
          Option (Map K V × List (MapOut K V))).map (fun p => p.2) =
        ((match runOps hf M2' ops with
          | none => none
          | some (M'', os) => some (M'', o :: os)) :
            Option (Map K V × List (MapOut K V))).map fun p => p.2
      cases h1' : runOps hf M1' ops with
      | none =>
        cases h2' : runOps hf M2' ops with
        | none => rfl
        | some p2 =>
          rw [h1', h2'] at hih
          simp at hih
      | some p1 =>
        cases h2' : runOps hf M2' ops with
        | none =>
          rw [h1', h2'] at hih
          simp at hih
        | some p2 =>
          rw [h1', h2'] at hih
          show some (o :: p1.2) = some (o :: p2.2)
          have hout : p1.2 = p2.2 := by simpa using hih
          rw [hout]

theorem nsh_new (n : Nat) (cap : Int) : (Map.new n cap : Map K V).nsh = n := by
  unfold Map.new Map.nsh
  simp

theorem shardAt_new {n : Nat} (cap : Int) {s : Nat} (hs : s < n) :
    shardAt (Map.new n cap : Map K V) s = Shard.init (Int.tdiv cap (n : Int)) := by
  unfold Map.new shardAt
  simp only []
  rw [List.getD_eq_getElem?_getD, List.getElem?_map, List.getElem?_range hs]
  rfl

/-- The fresh maps for `cap ≤ 0` and for `0` are related. -/
theorem MapRel_new {n : Nat} (hn : 0 < n) {cap : Int} (hcap : cap ≤ 0) :
    MapRel (Map.new n cap : Map K V) (Map.new n 0) := by
  have ht1 : Int.tdiv cap (n : Int) ≤ 0 :=
    tdiv_nonpos_of_nonpos hcap (Int.natCast_nonneg _)
  have ht2 : Int.tdiv (0 : Int) (n : Int) ≤ 0 := by
    rw [Int.zero_tdiv]
  refine ⟨by rw [nsh_new]; exact hn, by rw [nsh_new, nsh_new], hcap, le_refl _, ?_⟩
  intro s hs
  rw [nsh_new] at hs
  rw [shardAt_new cap hs, shardAt_new 0 hs]
  have hi1 := init_nonpos (K := K) (V := V) ht1
  have hi2 := init_nonpos (K := K) (V := V) ht2
  refine ⟨?_, ?_, ?_, ?_⟩
  · rw [hi1, hi2]
  · rw [init_cap, if_neg (by omega)]
    exact ht1
  · rw [init_cap, if_neg (by omega)]
    exact ht2
  · rw [sz_init, szLoop_nonpos ht2]
    omega

/-- C10: for every `cap ≤ 0` (including negative values), `Map.new n cap`
succeeds and is observably identical to `Map.new n 0`: every shard starts with
the minimum 8 slots, and every sequence of Set, Get, Delete, Mutate, Len,
Range and Clear calls produces exactly the same outputs as on the map built
with capacity 0. -/
theorem C10_new_nonpos_cap (hf : K → Nat) {n : Nat} (hn : 0 < n) {cap : Int}
    (hcap : cap ≤ 0) (ops : List (MapOp K V)) :
    (∀ s, s < n → sz (shardAt (Map.new n cap : Map K V) s) = 8) ∧
    (runOps hf (Map.new n cap : Map K V) ops).map (fun p => p.2) =
      (runOps hf (Map.new n 0 : Map K V) ops).map fun p => p.2 := by
  constructor
  · intro s hs
    rw [shardAt_new cap hs, sz_init,
      szLoop_nonpos (tdiv_nonpos_of_nonpos hcap (Int.natCast_nonneg _))]
  · exact runOps_rel ops _ _ (MapRel_new hn hcap)

theorem C10_new_nonpos_cap_witness :
    0 < 2 ∧ (-5 : Int) ≤ 0 ∧
    ((∀ s, s < 2 → sz (shardAt (Map.new 2 (-5) : Map Nat Nat) s) = 8) ∧
     (runOps (fun k => k) (Map.new 2 (-5) : Map Nat Nat)
         [MapOp.set 1 10, MapOp.len]).map (fun p => p.2) =
       (runOps (fun k => k) (Map.new 2 0 : Map Nat Nat)
         [MapOp.set 1 10, MapOp.len]).map fun p => p.2) :=
  ⟨by decide, by decide,
    C10_new_nonpos_cap (fun k => k) (by decide) (by decide)
      [MapOp.set 1 10, MapOp.len]⟩

theorem idealStep_untouched {k : K} {op : MapOp K V} (h : untouched k op)
    (f : K → Option V) : idealStep f op k = f k := by
  cases op with
  | set k' v =>
    exact if_neg fun hc => h hc.symm
  | get k' => rfl
  | del k' =>
    exact if_neg fun hc => h hc.symm
  | «mut» k' g =>
    show ((if (g ((f k').getD default) (f k').isSome).2 then
        (fun x => if x = k' then
          some (g ((f k').getD default) (f k').isSome).1 else f x)
      else fun x => if x = k' then none else f x) : K → Option V) k = f k
    split
    · exact if_neg fun hc => h hc.symm
    · exact if_neg fun hc => h hc.symm
  | len => rfl
  | range => rfl
  | clear => exact h.elim

theorem idealFold_untouched {k : K} :
    ∀ (ops : List (MapOp K V)) (f : K → Option V),
      (∀ op ∈ ops, untouched k op) → ops.foldl idealStep f k = f k := by
  intro ops
  induction ops with
  | nil => intro f h; rfl
  | cons op ops ih =>
    intro f h
    rw [List.foldl_cons, ih _ fun o ho => h o (List.mem_cons_of_mem _ ho)]
    exact idealStep_untouched (h op (List.mem_cons_self _ _)) f

/-- C1: every single-threaded sequence of public operations on a map built by
`New` succeeds, and the final content equals that of an ideal associative map
applied in program order; in particular `get(k)` after `set(k, v)` with no
later operation touching `k` returns that `v`. -/
theorem C1_sequence_matches_ideal_map (hf : K → Nat) {n : Nat} (hn : 0 < n)
    (cap : Int) (ops : List (MapOp K V)) (hops : ops.length < 65536) :
    ∃ M' outs, runOps hf (Map.new n cap) ops = some (M', outs) ∧
      (∀ k, Map.Get hf M' k = some (idealRun ops k)) ∧
      ∀ (pre mid : List (MapOp K V)) (k : K) (v : V),
        ops = pre ++ MapOp.set k v :: mid →
        (∀ op ∈ mid, untouched k op) →
        Map.Get hf M' k = some (some v) := by
  obtain ⟨M', outs, hrun, hM'⟩ :=
    runOps_ideal ops (Map.new n cap) (fun _ => none) 0
      (MapInv_new hf hn cap) (by omega)
  have hget : ∀ k, Map.Get hf M' k = some (idealRun ops k) := by
    intro k
    have hs : shardIdx M' (hash64 hf k) < M'.nsh := shardIdx_lt hM'.1 _
    have hInv := hM'.2.1 _ hs
    show Shard.Get (shardAt M' (shardIdx M' (hash64 hf k))) (hash64 hf k) k = _
    rw [Get_spec hInv.inv0 (Inv_count_lt hInv) k]
    have hc := hM'.2.2.2.1 k
    rw [← hc]
    rfl
  refine ⟨M', outs, hrun, hget, ?_⟩
  intro pre mid k v hops_eq hmid
  rw [hget k]
  congr 1
  subst hops_eq
  show (pre ++ MapOp.set k v :: mid).foldl idealStep (fun _ => none) k = some v
  rw [List.foldl_append, List.foldl_cons, idealFold_untouched mid _ hmid]
  exact if_pos rfl

theorem C1_sequence_matches_ideal_map_witness :
    0 < 2 ∧ ([MapOp.set 1 10] : List (MapOp Nat Nat)).length < 65536 ∧
    (∃ M' outs,
        runOps (fun k => k) (Map.new 2 0)
          [MapOp.set (1 : Nat) (10 : Nat)] = some (M', outs) ∧
        (∀ k, Map.Get (fun k => k) M' k =
          some (idealRun [MapOp.set 1 10] k)) ∧
        ∀ (pre mid : List (MapOp Nat Nat)) (k v : Nat),
          [MapOp.set 1 10] = pre ++ MapOp.set k v :: mid →
          (∀ op ∈ mid, untouched k op) →
          Map.Get (fun k => k) M' k = some (some v)) :=
  ⟨by decide, by decide,
    C1_sequence_matches_ideal_map (fun k => k) (by decide) 0
      [MapOp.set 1 10] (by decide)⟩

/-- C3: after any single-threaded sequence of public operations on a map
built by `New`, every shard satisfies the Robin Hood table invariants: every
occupied slot's stored dib equals its displacement from its home index
(plus one, in the code's dib-is-one-based convention), probe chains are
contiguous (an occupied slot with dib ≥ 2 is preceded by an occupied slot
whose dib is at least one less), the `length` field counts the slots with
dib ≠ 0, and every search terminates with the correct answer (in particular
at the first empty slot). -/
theorem C3_robin_hood_invariants (hf : K → Nat) {n : Nat} (hn : 0 < n)
    (cap : Int) (ops : List (MapOp K V)) (hops : ops.length < 65536) :
    ∃ M' outs, runOps hf (Map.new n cap) ops = some (M', outs) ∧
      ∀ s, s < M'.nsh →
        (∀ i, i < sz (shardAt M' s) → occ (shardAt M' s) i →
          dibOf (hd (shardAt M' s) i) = disp (shardAt M' s) i + 1) ∧
        (∀ i, i < sz (shardAt M' s) → occ (shardAt M' s) i →
          2 ≤ dibOf (hd (shardAt M' s) i) →
          occ (shardAt M' s) (prev (sz (shardAt M' s)) i) ∧
          dibOf (hd (shardAt M' s) i) ≤
            dibOf (hd (shardAt M' s) (prev (sz (shardAt M' s)) i)) + 1) ∧
        (shardAt M' s).length = countOcc (shardAt M' s) ∧
        ∀ k, Shard.Get (shardAt M' s) (hash64 hf k) k =
          some (contents (shardAt M' s) k) := by
  obtain ⟨M', outs, hrun, hM'⟩ :=
    runOps_ideal ops (Map.new n cap) (fun _ => none) 0
      (MapInv_new hf hn cap) (by omega)
  refine ⟨M', outs, hrun, ?_⟩
  intro s hs
  have hInv := hM'.2.1 s hs
  exact ⟨hInv.inv0.dib_eq, hInv.inv0.run_ok, hInv.inv0.len_eq,
    fun k => Get_spec hInv.inv0 (Inv_count_lt hInv) k⟩

theorem C3_robin_hood_invariants_witness :
    0 < 1 ∧ ([MapOp.set 1 10] : List (MapOp Nat Nat)).length < 65536 ∧
    (∃ M' outs,
        runOps (fun k => k) (Map.new 1 0)
          [MapOp.set (1 : Nat) (10 : Nat)] = some (M', outs) ∧
        ∀ s, s < M'.nsh →
          (∀ i, i < sz (shardAt M' s) → occ (shardAt M' s) i →
            dibOf (hd (shardAt M' s) i) = disp (shardAt M' s) i + 1) ∧
          (∀ i, i < sz (shardAt M' s) → occ (shardAt M' s) i →
            2 ≤ dibOf (hd (shardAt M' s) i) →
            occ (shardAt M' s) (prev (sz (shardAt M' s)) i) ∧
            dibOf (hd (shardAt M' s) i) ≤
              dibOf (hd (shardAt M' s) (prev (sz (shardAt M' s)) i)) + 1) ∧
          (shardAt M' s).length = countOcc (shardAt M' s) ∧
          ∀ k, Shard.Get (shardAt M' s) (hash64 (fun k => k) k) k =
            some (contents (shardAt M' s) k)) :=
  ⟨by decide, by decide,
    C3_robin_hood_invariants (fun k => k) (by decide) 0
      [MapOp.set 1 10] (by decide)⟩

/-- Under the map invariant, `Get` returns exactly the ideal content. -/
theorem MapInv_get {hf : K → Nat} {M : Map K V} {f : K → Option V} {b : Nat}
    (hM : MapInv hf M f b) (k : K) : Map.Get hf M k = some (f k) := by
  have hs : shardIdx M (hash64 hf k) < M.nsh := shardIdx_lt hM.1 _
  have hInv := hM.2.1 _ hs
  show Shard.Get (shardAt M (shardIdx M (hash64 hf k))) (hash64 hf k) k = _
  rw [Get_spec hInv.inv0 (Inv_count_lt hInv) k, ← hM.2.2.2.1 k]

/-- C4: `Mutate(k, g)` looks up the current value under the shard lock, calls
the mutator once with (old value or zero value, existed), then inserts or
overwrites when keep is true — returning +1 when `k` was absent, 0 when
present — and deletes when keep is false (a no-op when absent) — returning
−1 when `k` was present, 0 when absent; the content at `k` becomes the new
value or is removed, and no other key changes. -/
theorem C4_mutate_semantics {hf : K → Nat} {M : Map K V} {f : K → Option V}
    {b : Nat} (hM : MapInv hf M f b) (hb : b + 1 < 65536) (k : K)
    (g : V → Bool → V × Bool) :
    ∃ M' d, Map.Mutate hf M k g = some (M', d) ∧
      d = (if (g ((f k).getD default) (f k).isSome).2
           then (if (f k).isSome then 0 else 1)
           else (if (f k).isSome then -1 else 0)) ∧
      ∀ k', Map.Get hf M' k' = some (if k' = k
        then (if (g ((f k).getD default) (f k).isSome).2
              then some (g ((f k).getD default) (f k).isSome).1 else none)
        else f k') := by
  obtain ⟨hn, hinv, hlen, hcont, hroute⟩ := hM
  have hs : shardIdx M (hash64 hf k) < M.nsh := shardIdx_lt hn _
  have hshInv := hinv _ hs
  have hshLen := hlen _ hs
  have hget := Get_spec hshInv.inv0 (Inv_count_lt hshInv) k
  have hfk : f k = contents (shardAt M (shardIdx M (hash64 hf k))) k := hcont k
  rcases hg2 : (g ((f k).getD default) (f k).isSome).2 with _ | _
  · obtain ⟨m', r, hdel, hr, hInv', hcap', hlen', hcont', hszcase, habs⟩ :=
      Delete_spec hshInv (by omega) k
    have hM' : MapInv hf
        { M with shards := M.shards.set (shardIdx M (hash64 hf k)) m' }
        (fun k' => if k' = k then none else f k') (b + 1) := by
      apply MapInv_update ⟨hn, hinv, hlen, hcont, hroute⟩ (b + 1) hInv' ?_
        (by omega) hcont'
      rw [hlen']
      split <;> omega
    refine ⟨{ M with shards := M.shards.set (shardIdx M (hash64 hf k)) m' },
      (if (f k).isSome then -1 else 0), ?_, ?_, ?_⟩
    · rw [Mutate_eq hget, ← hfk, hg2, if_neg (by simp), hdel]
    · rw [if_neg (by simp : ¬ (false = true))]
    · intro k'
      rw [MapInv_get hM' k']
      show some (if k' = k then none else f k') = _
      by_cases hkk : k' = k
      · rw [if_pos hkk, if_pos hkk, if_neg (by simp : ¬ (false = true))]
      · rw [if_neg hkk, if_neg hkk]
  · obtain ⟨m', r, hset, hr, hInv', hcap', hlen', hcont', hsz'⟩ :=
      Set_spec hshInv (by omega) k (g ((f k).getD default) (f k).isSome).1
    have hM' : MapInv hf
        { M with shards := M.shards.set (shardIdx M (hash64 hf k)) m' }
        (fun k' => if k' = k then some (g ((f k).getD default) (f k).isSome).1
          else f k') (b + 1) := by
      apply MapInv_update ⟨hn, hinv, hlen, hcont, hroute⟩ (b + 1) hInv' ?_
        (by omega) hcont'
      rw [hlen']
      split <;> omega
    refine ⟨{ M with shards := M.shards.set (shardIdx M (hash64 hf k)) m' },
      (if (f k).isSome then 0 else 1), ?_, ?_, ?_⟩
    · rw [Mutate_eq hget, ← hfk, hg2, if_pos rfl, hset]
    · rw [if_pos (rfl : true = true)]
    · intro k'
      rw [MapInv_get hM' k']
      show some (if k' = k then some (g ((f k).getD default) (f k).isSome).1
        else f k') = _
      by_cases hkk : k' = k
      · rw [if_pos hkk, if_pos hkk, if_pos (rfl : true = true)]
      · rw [if_neg hkk, if_neg hkk]

theorem C4_mutate_semantics_witness :
    MapInv (fun k : Nat => k) (Map.new 2 0 : Map Nat Nat) (fun _ => none) 0 ∧
    0 + 1 < 65536 ∧
    ∃ M' d, Map.Mutate (fun k : Nat => k) (Map.new 2 0 : Map Nat Nat) 1
        (fun v _ => (v + 7, true)) = some (M', d) ∧ d = 1 := by
  refine ⟨MapInv_new (fun k : Nat => k) (n := 2) (by decide) 0, by decide, ?_⟩
  obtain ⟨M', d, hmut, hd, -⟩ :=
    C4_mutate_semantics (MapInv_new (fun k : Nat => k) (n := 2) (by decide) 0)
      (by decide) 1 (fun v _ => (v + 7, true))
  exact ⟨M', d, hmut, hd.trans (by decide)⟩

/-- A key present in an invariant table is found by `Get`, regardless of
load. -/
theorem Get_present {hf : K → Nat} {m : Shard K V} (hInv : Inv0 hf m) {k : K}
    {v : V} (hv : contents m k = some v) :
    Shard.Get m (hash64 hf k) k = some (some v) := by
  have hN : 0 < sz m := by have := hInv.size_ge; omega
  obtain ⟨j, hj, hocc, hkey⟩ : hasKey m k :=
    contents_isSome_iff.mp (by rw [hv]; rfl)
  have hval : valAt m j = v := by
    have h2 := contents_eq_some_of hInv.uniq hj hocc hkey
    rw [hv] at h2
    exact (Option.some_injective _ h2).symm
  unfold Shard.Get
  rw [if_neg (by omega)]
  have hsh : hash64 hf k >>> 16 = hash64 hf k / 65536 := by
    rw [Nat.shiftRight_eq_div_pow]
  rw [hsh, and_mask_eq hInv.size_pow hInv.mask_eq]
  have hhash : hashOf (hd m j) = hash64 hf k / 65536 := by
    rw [hInv.hash_eq j hj hocc, hkey]
  have hstart : hash64 hf k / 65536 % sz m = idx (sz m) (home m j) 0 := by
    rw [idx_zero (home_lt hInv j)]
    unfold home
    rw [hhash]
  rw [hstart, ← hhash]
  rw [getLoop_found hInv hj hocc hkey (sz m) 0 (by omega)
    (by have := disp_lt hInv hj; omega)]
  rw [hval]

/-- C5: for every shard state satisfying the table invariants, `resize` (the
routine used by both grow and shrink) preserves the key-to-value mapping
exactly: the content at every key is unchanged — no key appears or
disappears — and `Get` of any key present before the resize returns the same
value afterwards. -/
theorem C5_resize_preserves_mapping {hf : K → Nat} {m : Shard K V}
    (hInv : Inv0 hf m) (c : Int) (hle : countOcc m ≤ szLoop 8 c)
    (hbound : countOcc m < 65536) :
    ∃ m', Shard.resize m c = some m' ∧
      (∀ k, contents m' k = contents m k) ∧
      ∀ k v, contents m k = some v →
        Shard.Get m' (hash64 hf k) k = some (some v) ∧
        Shard.Get m (hash64 hf k) k = some (some v) := by
  obtain ⟨m', hres, hInv', hsz', hcap', hlen', hcnt', hmask', hgrow',
    hshrink', hcont'⟩ := resize_spec hInv c hle hbound
  refine ⟨m', hres, hcont', ?_⟩
  intro k v hv
  exact ⟨Get_present hInv' (by rw [hcont' k]; exact hv), Get_present hInv hv⟩

/-- Fingerprint function for concrete witnesses: key `k` gets hash-high `k`
and home slot `k % sz`. -/
def hfW : Nat → Nat := fun k => k * 65536

/-- A concrete 8-slot shard holding keys 0–5 at their home slots. -/
def mW : Shard Nat Nat :=
  ⟨[1, 65537, 131073, 196609, 262145, 327681, 0, 0],
   [(0, 100), (1, 101), (2, 102), (3, 103), (4, 104), (5, 105), (0, 0), (0, 0)],
   0, 6, 7, 6, 1⟩

theorem InvW : Inv hfW mW :=
  ⟨⟨by decide, ⟨3, by decide⟩, by decide, by decide, by decide, by decide,
    by decide, by decide, by decide, by decide, by decide, by decide⟩,
   by decide, by decide⟩

theorem C5_resize_preserves_mapping_witness :
    countOcc mW ≤ szLoop 8 16 ∧ countOcc mW < 65536 ∧
    ∃ m', Shard.resize mW 16 = some m' ∧
      (∀ k, contents m' k = contents mW k) ∧
      ∀ k v, contents mW k = some v →
        Shard.Get m' (hash64 hfW k) k = some (some v) ∧
        Shard.Get mW (hash64 hfW k) k = some (some v) :=
  ⟨by decide, by decide,
    C5_resize_preserves_mapping InvW.inv0 16 (by decide) (by decide)⟩

theorem sum_map_set_len :
    ∀ (l : List (Shard K V)) (s : Nat) (m' : Shard K V), s < l.length →
      ((l.set s m').map Shard.Len).sum + Shard.Len (l.getD s default) =
        (l.map Shard.Len).sum + Shard.Len m' := by
  intro l
  induction l with
  | nil =>
    intro s m' hs
    simp at hs
  | cons a l ih =>
    intro s m' hs
    cases s with
    | zero =>
      show Shard.Len m' + (l.map Shard.Len).sum + Shard.Len a =
        Shard.Len a + (l.map Shard.Len).sum + Shard.Len m'
      omega
    | succ s =>
      have hs' : s < l.length := by
        rw [List.length_cons] at hs
        omega
      have hih := ih s m' hs'
      show Shard.Len a + ((l.set s m').map Shard.Len).sum +
          Shard.Len (l.getD s default) =
        Shard.Len a + (l.map Shard.Len).sum + Shard.Len m'
      omega

/-- `Map.Set` under the map invariant: returns the previous content, updates
the ideal content at `k`, and grows `Len` exactly when `k` was absent. -/
theorem Map_Set_spec {hf : K → Nat} {M : Map K V} {f : K → Option V} {b : Nat}
    (hM : MapInv hf M f b) (hb : b + 1 < 65536) (k : K) (v : V) :
    ∃ M', Map.Set hf M k v = some (M', f k) ∧
      MapInv hf M' (fun k' => if k' = k then some v else f k') (b + 1) ∧
      Map.Len M' = Map.Len M + (if (f k).isSome then 0 else 1) := by
  obtain ⟨hn, hinv, hlen, hcont, hroute⟩ := hM
  have hs : shardIdx M (hash64 hf k) < M.nsh := shardIdx_lt hn _
  have hshInv := hinv _ hs
  have hshLen := hlen _ hs
  obtain ⟨m', r, hset, hr, hInv', hcap', hlen', hcont', hsz'⟩ :=
    Set_spec hshInv (by omega) k v
  have hfk : f k = contents (shardAt M (shardIdx M (hash64 hf k))) k := hcont k
  refine ⟨{ M with shards := M.shards.set (shardIdx M (hash64 hf k)) m' },
    ?_, ?_, ?_⟩
  · simp only [Map.Set]
    rw [hset, hr, hfk]
  · apply MapInv_update ⟨hn, hinv, hlen, hcont, hroute⟩ (b + 1) hInv' ?_
      (by omega) hcont'
    rw [hlen']
    split <;> omega
  · rw [hfk]
    have hsum := sum_map_set_len M.shards (shardIdx M (hash64 hf k)) m' hs
    rcases hsome : (contents (shardAt M (shardIdx M (hash64 hf k))) k).isSome
      with _ | _
    · rw [hsome, if_neg (by simp)] at hlen'
      rw [if_neg (by simp : ¬ (false = true))]
      show ((M.shards.set (shardIdx M (hash64 hf k)) m').map Shard.Len).sum =
        (M.shards.map Shard.Len).sum + 1
      have h1 : Shard.Len m' =
          (shardAt M (shardIdx M (hash64 hf k))).length + 1 := hlen'
      have h2 : Shard.Len (M.shards.getD (shardIdx M (hash64 hf k)) default) =
          (shardAt M (shardIdx M (hash64 hf k))).length := rfl
      omega
    · rw [hsome, if_pos rfl] at hlen'
      rw [if_pos (rfl : true = true)]
      show ((M.shards.set (shardIdx M (hash64 hf k)) m').map Shard.Len).sum =
        (M.shards.map Shard.Len).sum + 0
      have h1 : Shard.Len m' =
          (shardAt M (shardIdx M (hash64 hf k))).length := hlen'
      have h2 : Shard.Len (M.shards.getD (shardIdx M (hash64 hf k)) default) =
          (shardAt M (shardIdx M (hash64 hf k))).length := rfl
      omega

/-- `Map.Delete` under the map invariant: returns the previous content,
clears the ideal content at `k`, and shrinks `Len` exactly when `k` was
present. -/
theorem Map_Delete_spec {hf : K → Nat} {M : Map K V} {f : K → Option V}
    {b : Nat} (hM : MapInv hf M f b) (hb : b + 1 < 65536) (k : K) :
    ∃ M', Map.Delete hf M k = some (M', f k) ∧
      MapInv hf M' (fun k' => if k' = k then none else f k') (b + 1) ∧
      Map.Len M' + (if (f k).isSome then 1 else 0) = Map.Len M := by
  obtain ⟨hn, hinv, hlen, hcont, hroute⟩ := hM
  have hs : shardIdx M (hash64 hf k) < M.nsh := shardIdx_lt hn _
  have hshInv := hinv _ hs
  have hshLen := hlen _ hs
  obtain ⟨m', r, hdel, hr, hInv', hcap', hlen', hcont', hszcase, habs⟩ :=
    Delete_spec hshInv (by omega) k
  have hfk : f k = contents (shardAt M (shardIdx M (hash64 hf k))) k := hcont k
  have hpos : (contents (shardAt M (shardIdx M (hash64 hf k))) k).isSome =
      true → 1 ≤ (shardAt M (shardIdx M (hash64 hf k))).length := by
    intro hsome
    obtain ⟨j, hj, hocc, -⟩ := contents_isSome_iff.mp hsome
    rw [hshInv.inv0.len_eq]
    have hpos' : 0 < countOcc (shardAt M (shardIdx M (hash64 hf k))) :=
      Finset.card_pos.mpr
        ⟨j, Finset.mem_filter.mpr ⟨Finset.mem_range.mpr hj, hocc⟩⟩
    omega
  refine ⟨{ M with shards := M.shards.set (shardIdx M (hash64 hf k)) m' },
    ?_, ?_, ?_⟩
  · simp only [Map.Delete]
    rw [hdel, hr, hfk]
  · apply MapInv_update ⟨hn, hinv, hlen, hcont, hroute⟩ (b + 1) hInv' ?_
      (by omega) hcont'
    rw [hlen']
    split <;> omega
  · rw [hfk]
    have hsum := sum_map_set_len M.shards (shardIdx M (hash64 hf k)) m' hs
    rcases hsome : (contents (shardAt M (shardIdx M (hash64 hf k))) k).isSome
      with _ | _
    · rw [hsome, if_neg (by simp)] at hlen'
      rw [if_neg (by simp : ¬ (false = true))]
      show ((M.shards.set (shardIdx M (hash64 hf k)) m').map Shard.Len).sum +
          0 = (M.shards.map Shard.Len).sum
      have h1 : Shard.Len m' =
          (shardAt M (shardIdx M (hash64 hf k))).length := hlen'
      have h2 : Shard.Len (M.shards.getD (shardIdx M (hash64 hf k)) default) =
          (shardAt M (shardIdx M (hash64 hf k))).length := rfl
      omega
    · rw [hsome, if_pos rfl] at hlen'
      have hge := hpos hsome
      rw [if_pos (rfl : true = true)]
      show ((M.shards.set (shardIdx M (hash64 hf k)) m').map Shard.Len).sum +
          1 = (M.shards.map Shard.Len).sum
      have h1 : Shard.Len m' =
          (shardAt M (shardIdx M (hash64 hf k))).length - 1 := hlen'
      have h2 : Shard.Len (M.shards.getD (shardIdx M (hash64 hf k)) default) =
          (shardAt M (shardIdx M (hash64 hf k))).length := rfl
      omega

/-- C7: on any invariant map state, `set(k, v)` twice in a row leaves `Len`
unchanged relative to after the first call and the second call returns the
previous value `v` (found); `delete(k)` twice in a row leaves `Len` unchanged
relative to after the first call and the second call returns nothing (not
found). -/
theorem C7_set_twice_delete_twice {hf : K → Nat} {M : Map K V}
    {f : K → Option V} {b : Nat} (hM : MapInv hf M f b) (hb : b + 2 < 65536)
    (k : K) (v : V) :
    (∃ M1 M2 r1, Map.Set hf M k v = some (M1, r1) ∧
      Map.Set hf M1 k v = some (M2, some v) ∧ Map.Len M2 = Map.Len M1) ∧
    ∃ M1 M2 r1, Map.Delete hf M k = some (M1, r1) ∧
      Map.Delete hf M1 k = some (M2, none) ∧ Map.Len M2 = Map.Len M1 := by
  constructor
  · obtain ⟨M1, h1, hM1, hL1⟩ := Map_Set_spec hM (by omega) k v
    obtain ⟨M2, h2, hM2, hL2⟩ := Map_Set_spec hM1 (by omega) k v
    refine ⟨M1, M2, f k, h1, ?_, ?_⟩
    · simpa using h2
    · rw [hL2]
      simp
  · obtain ⟨M1, h1, hM1, hL1⟩ := Map_Delete_spec hM (by omega) k
    obtain ⟨M2, h2, hM2, hL2⟩ := Map_Delete_spec hM1 (by omega) k
    refine ⟨M1, M2, f k, h1, ?_, ?_⟩
    · simpa using h2
    · simpa using hL2

theorem C7_set_twice_delete_twice_witness :
    MapInv (fun k : Nat => k) (Map.new 2 0 : Map Nat Nat) (fun _ => none) 0 ∧
    0 + 2 < 65536 ∧
    ((∃ M1 M2 r1,
        Map.Set (fun k : Nat => k) (Map.new 2 0 : Map Nat Nat) 1 10 =
          some (M1, r1) ∧
        Map.Set (fun k : Nat => k) M1 1 10 = some (M2, some 10) ∧
        Map.Len M2 = Map.Len M1) ∧
      ∃ M1 M2 r1,
        Map.Delete (fun k : Nat => k) (Map.new 2 0 : Map Nat Nat) 1 =
          some (M1, r1) ∧
        Map.Delete (fun k : Nat => k) M1 1 = some (M2, none) ∧
        Map.Len M2 = Map.Len M1) :=
  ⟨MapInv_new (fun k : Nat => k) (n := 2) (by decide) 0, by decide,
    C7_set_twice_delete_twice
      (MapInv_new (fun k : Nat => k) (n := 2) (by decide) 0) (by decide) 1 10⟩

/-- C8: when the insert loop of `set` reaches an occupied slot whose hash
field equals the probing word's and whose key equals the probing key — in a
table satisfying the Robin Hood invariants, the probing word's dib being its
displacement-so-far plus one — the slot's stored dib equals the probing
word's dib, the two packed hash/dib words coincide, and the overwrite step
rewrites the slot's meta word with an identical word, leaving its dib
unchanged. -/
theorem C8_overwrite_preserves_dib {hf : K → Nat} {m : Shard K V}
    (hInv : Inv0 hf m) {j : Nat} (hj : j < sz m) (hocc : occ m j)
    {w : Nat} (hhash : hashOf w = hashOf (hd m j))
    (hdib : dibOf w = dist (sz m) (hashOf w % sz m) j + 1)
    {k : K} (hkey : keyAt m j = k) (v : V) (fuel : Nat) :
    dibOf (hd m j) = dibOf w ∧ w = hd m j ∧
    setLoop m w (k, v) j (fuel + 1) =
      some ({ m with buckets := m.buckets.set j ((bkt m j).1, v) },
        some (valAt m j)) := by
  have hdib_eq : dibOf (hd m j) = dibOf w := by
    rw [hInv.dib_eq j hj hocc, hdib]
    unfold disp home
    rw [hhash]
  have hw : w = hd m j := by
    have h1 := word_split w
    have h2 := word_split (hd m j)
    rw [hhash] at h1
    omega
  refine ⟨hdib_eq, hw, ?_⟩
  simp only [setLoop]
  rw [if_neg hocc, if_pos ⟨hhash, hkey.symm⟩]
  have hsetid : m.hdib.set j (hd m j) = m.hdib :=
    list_set_getD_self m.hdib j 0 (by rw [hInv.hdib_len]; exact hj)
  rw [hw, hsetid]
  rfl

theorem C8_overwrite_preserves_dib_witness :
    (3 < sz mW ∧ occ mW 3 ∧ hashOf 196609 = hashOf (hd mW 3) ∧
      dibOf 196609 = dist (sz mW) (hashOf 196609 % sz mW) 3 + 1 ∧
      keyAt mW 3 = 3) ∧
    dibOf (hd mW 3) = dibOf 196609 ∧ 196609 = hd mW 3 ∧
    setLoop mW 196609 (3, 99) 3 (0 + 1) =
      some ({ mW with buckets := mW.buckets.set 3 ((bkt mW 3).1, 99) },
        some (valAt mW 3)) :=
  ⟨⟨by decide, by decide, by decide, by decide, by decide⟩,
    C8_overwrite_preserves_dib (j := 3) (w := 196609) (k := 3) InvW.inv0
      (by decide) (by decide) (by decide) (by decide) (by decide) 99 0⟩

/-- C9: for a shard whose `length` has reached `growAt`, any `Set` call first
doubles the bucket array — in particular a `Set` whose key is already present
(a pure overwrite that leaves `length` unchanged) still triggers the
doubling, even though no insertion occurs. -/
theorem C9_overwrite_at_threshold_doubles {hf : K → Nat} {m : Shard K V}
    (hInv : Inv hf m) (hbound : m.length + 1 < 65536)
    (hthr : m.growAt ≤ m.length) (k : K) (v : V)
    (hpresent : (contents m k).isSome) :
    ∃ m' r, Shard.Set m (hash64 hf k) k v = some (m', r) ∧
      sz m' = 2 * sz m ∧ m'.length = m.length ∧ r = contents m k := by
  obtain ⟨m', r, hset, hr, hInv', hcap', hlen', hcont', hsz'⟩ :=
    Set_spec hInv hbound k v
  refine ⟨m', r, hset, ?_, ?_, hr⟩
  · rw [hsz', if_pos hthr]
  · rw [hlen', if_pos hpresent]

theorem C9_overwrite_at_threshold_doubles_witness :
    mW.length + 1 < 65536 ∧ mW.growAt ≤ mW.length ∧
    (contents mW 3).isSome ∧
    ∃ m' r, Shard.Set mW (hash64 hfW 3) 3 99 = some (m', r) ∧
      sz m' = 2 * sz mW ∧ m'.length = mW.length ∧ r = contents mW 3 :=
  ⟨by decide, by decide, by decide,
    C9_overwrite_at_threshold_doubles InvW (by decide) (by decide) 3 99
      (by decide)⟩

/-- Drive a chain of `Set` calls on one shard (for concrete runs). -/
def runSets (hf : Nat → Nat) :
    Option (Shard Nat Nat) → List (Nat × Nat) → Option (Shard Nat Nat)
  | none, _ => none
  | some m, [] => some m
  | some m, (k, v) :: rest =>
    runSets hf (match Shard.Set m (hash64 hf k) k v with
      | none => none
      | some (m', _) => some m') rest

/-- Drive a chain of `Delete` calls on one shard (for concrete runs). -/
def runDels (hf : Nat → Nat) :
    Option (Shard Nat Nat) → List Nat → Option (Shard Nat Nat)
  | none, _ => none
  | some m, [] => some m
  | some m, k :: rest =>
    runDels hf (match Shard.Delete m (hash64 hf k) k with
      | none => none
      | some (m', _) => some m') rest

/-- C2 counterexample: `init(9)` rounds the capacity floor up to 16 and
allocates 16 slots; inserting keys 0–13 grows the table to 32 slots; deleting
keys 0–9 then shrinks it to 8 slots — strictly below 16, the smallest power
of two large enough to hold the stored capacity floor `cap = 16`.  The
shrink test `len(m.buckets) > m.cap` only stops shrinks once `S ≤ cap`; it
does not clamp the new size, so a single shrink jumps below the floor. -/
theorem C2_shrink_floor_counterexample :
    (runDels hfW (runSets hfW (some (Shard.init 9))
        ((List.range 14).map fun k => (k, k))) (List.range 10)).map
      (fun m' => (m'.cap, sz m')) = some (16, 8) ∧ (8 : Int) < 16 := by
  constructor
  · decide
  · decide

/-- A 32-slot shard with capacity floor 16, holding keys 0–4 at their home
slots: the state of the counterexample chain just before its final delete. -/
def mC2 : Shard Nat Nat :=
  ⟨[1, 65537, 131073, 196609, 262145] ++ List.replicate 27 0,
   [(0, 100), (1, 101), (2, 102), (3, 103), (4, 104)] ++
     List.replicate 27 (0, 0),
   16, 5, 31, 27, 4⟩

theorem InvC2 : Inv hfW mC2 :=
  ⟨⟨by decide, ⟨5, by decide⟩, by decide, by decide, by decide, by decide,
    by decide, by decide, by decide, by decide, by decide, by decide⟩,
   by decide, by decide⟩

/-- C2 (amended): on an invariant shard, a delete of a present key that
leaves `cap < S` (the code compares the raw slot count against the stored
capacity) and new length ≤ shrinkAt triggers a resize down to fit the new
length, rounded up to a power of two that is at least 8.  Eight slots —
not the smallest power of two holding `cap` — is the only floor the code
maintains: the slot count can drop below `cap`'s power-of-two ceiling in a
single shrink (see the counterexample), while the stored `cap` itself is
preserved. -/
theorem C2_shrink_resizes_to_fit_length {hf : K → Nat} {m : Shard K V}
    (hInv : Inv hf m) (hbound : m.length < 65536) (k : K)
    (hpresent : (contents m k).isSome)
    (hcap : m.cap < (sz m : Int)) (hshrink : m.length - 1 ≤ m.shrinkAt) :
    ∃ m' r, Shard.Delete m (hash64 hf k) k = some (m', r) ∧
      sz m' = szLoop 8 ((m.length - 1 : Nat) : Int) ∧
      8 ≤ sz m' ∧ (∃ t, sz m' = 2 ^ t) ∧ m'.cap = m.cap := by
  obtain ⟨m', r, hdel, hr, hInv', hcap', hlen', hcont', hszcase, habs⟩ :=
    Delete_spec hInv hbound k
  have hsz' := (hszcase hpresent).1 ⟨hcap, hshrink⟩
  refine ⟨m', r, hdel, hsz', ?_, ?_, hcap'⟩
  · rw [hsz']
    exact szLoop_ge8 _
  · rw [hsz']
    exact szLoop_pow2 _

theorem C2_shrink_resizes_to_fit_length_witness :
    ((contents mC2 4).isSome ∧ mC2.cap < (sz mC2 : Int) ∧
      mC2.length - 1 ≤ mC2.shrinkAt ∧ mC2.length < 65536) ∧
    ∃ m' r, Shard.Delete mC2 (hash64 hfW 4) 4 = some (m', r) ∧
      sz m' = szLoop 8 ((mC2.length - 1 : Nat) : Int) ∧
      8 ≤ sz m' ∧ (∃ t, sz m' = 2 ^ t) ∧ m'.cap = mC2.cap :=
  ⟨⟨by decide, by decide, by decide, by decide⟩,
    C2_shrink_resizes_to_fit_length InvC2 (by decide) 4 (by decide)
      (by decide) (by decide)⟩

/-! ### The interleaved-entry shard layout

The second shard implementation in the source stores the packed `hdib` word
inside each entry struct (`entry{hdib, key, value}`) instead of a parallel
word array.  Its `newshard` does not round the stored `cap` up to the
allocation size, and its overwrite branch writes only the value. -/

structure Shard1 (K V : Type) where
  buckets : List (Nat × K × V)
  cap : Int
  length : Nat
  mask : Nat
  growAt : Nat
  shrinkAt : Nat
deriving DecidableEq

instance {K V : Type} [Inhabited K] [Inhabited V] : Inhabited (Shard1 K V) :=
  ⟨⟨[], 0, 0, 0, 0, 0⟩⟩

/-- `len(m.buckets)` (interleaved layout). -/
def sz1 (m : Shard1 K V) : Nat := m.buckets.length

/-- `m.buckets[i]` (interleaved layout; the zero entry is `(0, zero, zero)`). -/
def ent1 (m : Shard1 K V) (i : Nat) : Nat × K × V := m.buckets.getD i default

/-- `m.buckets[i].hdib`. -/
def hd1 (m : Shard1 K V) (i : Nat) : Nat := (ent1 m i).1

/-- `m.buckets[i].key`. -/
def key1 (m : Shard1 K V) (i : Nat) : K := (ent1 m i).2.1

/-- `m.buckets[i].value`. -/
def val1 (m : Shard1 K V) (i : Nat) : V := (ent1 m i).2.2

/-- `newshard(cap)`: unlike the parallel-array `init`, the stored `cap` is
not rounded up to the allocation size. -/
def Shard1.init (cap : Int) : Shard1 K V :=
  let sz0 := szLoop 8 cap
  { cap := cap,
    length := 0,
    buckets := List.replicate sz0 default,
    mask := sz0 - 1,
    growAt := 17 * sz0 / 20,
    shrinkAt := 3 * sz0 / 20 }

/-- The probe loop of the interleaved `set`: the overwrite branch keeps the
slot's `hdib` and key and writes only the value. -/
def setLoop1 (m : Shard1 K V) (w : Nat) (e : K × V) (i : Nat) :
    Nat → Option (Shard1 K V × Option V)
  | 0 => none
  | fuel + 1 =>
    if dibOf (hd1 m i) = 0 then
      some ({ m with
                buckets := m.buckets.set i (w, e.1, e.2),
                length := m.length + 1 }, none)
    else if hashOf w = hashOf (hd1 m i) ∧ e.1 = key1 m i then
      some ({ m with buckets := m.buckets.set i (hd1 m i, key1 m i, e.2) },
        some (val1 m i))
    else if dibOf (hd1 m i) < dibOf w then
      setLoop1 { m with buckets := m.buckets.set i (w, e.1, e.2) }
        (withDib (hd1 m i) (dibOf (hd1 m i) + 1)) (key1 m i, val1 m i)
        ((i + 1) &&& m.mask) fuel
    else
      setLoop1 m (withDib w (dibOf w + 1)) e ((i + 1) &&& m.mask) fuel

/-- The interleaved `shard.set` (lower-case insert). -/
def Shard1.set (m : Shard1 K V) (hash : Nat) (key : K) (value : V) :
    Option (Shard1 K V × Option V) :=
  let w := mkHdib hash
  setLoop1 m w (key, value) ((w >>> 16) &&& m.mask) (sz1 m)

/-- The reinsertion loop of the interleaved `shard.resize`. -/
def resizeLoop1 (m : Shard1 K V) (nmap : Shard1 K V) (i : Nat) :
    Nat → Option (Shard1 K V)
  | 0 => some nmap
  | fuel + 1 =>
    if dibOf (hd1 m i) ≠ 0 then
      match Shard1.set nmap (hashOf (hd1 m i)) (key1 m i) (val1 m i) with
      | none => none
      | some (n', _) => resizeLoop1 m n' (i + 1) fuel
    else resizeLoop1 m nmap (i + 1) fuel

/-- The interleaved `shard.resize`. -/
def Shard1.resize (m : Shard1 K V) (newCap : Int) : Option (Shard1 K V) :=
  match resizeLoop1 m (Shard1.init newCap) 0 (sz1 m) with
  | none => none
  | some nmap => some { nmap with cap := m.cap }

/-- The interleaved `shard.Set`. -/
def Shard1.Set (m : Shard1 K V) (xxh : Nat) (key : K) (value : V) :
    Option (Shard1 K V × Option V) :=
  let m0 := if sz1 m = 0 then Shard1.init 0 else m
  match (if m0.growAt ≤ m0.length then Shard1.resize m0 (2 * sz1 m0 : Nat)
      else some m0) with
  | none => none
  | some m1 => Shard1.set m1 (xxh >>> 16) key value

/-- The probe loop of the interleaved `shard.Get`. -/
def getLoop1 (m : Shard1 K V) (hash : Nat) (key : K) (i : Nat) :
    Nat → Option (Option V)
  | 0 => none
  | fuel + 1 =>
    if dibOf (hd1 m i) = 0 then some none
    else if hashOf (hd1 m i) = hash ∧ key1 m i = key then
      some (some (val1 m i))
    else getLoop1 m hash key ((i + 1) &&& m.mask) fuel

/-- The interleaved `shard.Get`. -/
def Shard1.Get (m : Shard1 K V) (xxh : Nat) (key : K) : Option (Option V) :=
  if sz1 m = 0 then some none
  else getLoop1 m (xxh >>> 16) key ((xxh >>> 16) &&& m.mask) (sz1 m)

/-- The interleaved `shard.Len`. -/
def Shard1.Len (m : Shard1 K V) : Nat := m.length

/-- The backward-shift loop of the interleaved `shard.remove`. -/
def removeLoop1 (m : Shard1 K V) (i : Nat) : Nat → Option (Shard1 K V)
  | 0 => none
  | fuel + 1 =>
    let j := (i + 1) &&& m.mask
    if dibOf (hd1 m j) ≤ 1 then
      some { m with buckets := m.buckets.set i default }
    else
      removeLoop1
        { m with
            buckets := m.buckets.set i
              (withDib (hd1 m j) (dibOf (hd1 m j) - 1), key1 m j, val1 m j) }
        j fuel

/-- The interleaved `shard.remove`. -/
def Shard1.remove (m : Shard1 K V) (i : Nat) : Option (Shard1 K V) :=
  let m0 : Shard1 K V :=
    { m with
        buckets := m.buckets.set i (withDib (hd1 m i) 0, key1 m i, val1 m i) }
  match removeLoop1 m0 i (sz1 m0) with
  | none => none
  | some m1 =>
    let m2 : Shard1 K V := { m1 with length := m1.length - 1 }
    if m2.cap < (sz1 m2 : Int) ∧ m2.length ≤ m2.shrinkAt then
      Shard1.resize m2 (m2.length : Nat)
    else some m2

/-- The probe loop of the interleaved `shard.Delete`. -/
def deleteLoop1 (m : Shard1 K V) (hash : Nat) (key : K) (i : Nat) :
    Nat → Option (Shard1 K V × Option V)
  | 0 => none
  | fuel + 1 =>
    if dibOf (hd1 m i) = 0 then some (m, none)
    else if hashOf (hd1 m i) = hash ∧ key1 m i = key then
      match Shard1.remove m i with
      | none => none
      | some m' => some (m', some (val1 m i))
    else deleteLoop1 m hash key ((i + 1) &&& m.mask) fuel

/-- The interleaved `shard.Delete`. -/
def Shard1.Delete (m : Shard1 K V) (xxh : Nat) (key : K) :
    Option (Shard1 K V × Option V) :=
  if sz1 m = 0 then some (m, none)
  else deleteLoop1 m (xxh >>> 16) key ((xxh >>> 16) &&& m.mask) (sz1 m)

/-- The interleaved `shard.Range`. -/
def Shard1.Range (m : Shard1 K V) : List (K × V) :=
  (List.range (sz1 m)).filterMap fun i =>
    if dibOf (hd1 m i) ≠ 0 then some (key1 m i, val1 m i) else none

/-- The scan loop of the interleaved `shard.GetPos`. -/
def getPosLoop1 (m : Shard1 K V) (pos : Nat) (i : Nat) : Nat → Option (K × V)
  | 0 => none
  | fuel + 1 =>
    let index := (pos + i) &&& m.mask
    if dibOf (hd1 m index) ≠ 0 then some (key1 m index, val1 m index)
    else getPosLoop1 m pos (i + 1) fuel

/-- The interleaved `shard.GetPos`. -/
def Shard1.GetPos (m : Shard1 K V) (pos : Nat) : Option (K × V) :=
  getPosLoop1 m pos 0 (sz1 m)

/-- Interleave a parallel-array shard into the entry layout. -/
def conv (m : Shard K V) : Shard1 K V :=
  ⟨(m.hdib.zip m.buckets).map fun p => (p.1, p.2.1, p.2.2),
   m.cap, m.length, m.mask, m.growAt, m.shrinkAt⟩

/-- Drive a chain of interleaved `Set` calls (for concrete runs). -/
def runSets1 (hf : Nat → Nat) :
    Option (Shard1 Nat Nat) → List (Nat × Nat) → Option (Shard1 Nat Nat)
  | none, _ => none
  | some m, [] => some m
  | some m, (k, v) :: rest =>
    runSets1 hf (match Shard1.Set m (hash64 hf k) k v with
      | none => none
      | some (m', _) => some m') rest

/-- Drive a chain of interleaved `Delete` calls (for concrete runs). -/
def runDels1 (hf : Nat → Nat) :
    Option (Shard1 Nat Nat) → List Nat → Option (Shard1 Nat Nat)
  | none, _ => none
  | some m, [] => some m
  | some m, k :: rest =>
    runDels1 hf (match Shard1.Delete m (hash64 hf k) k with
      | none => none
      | some (m', _) => some m') rest

/-- C6 counterexample: from the same requested capacity 9 and the same call
sequence with the same fingerprints — insert keys 8, 1, 2, then delete 2 —
the parallel-array shard keeps 16 slots (its `init` rounded `cap` up to 16,
so the shrink test `16 > 16` fails), while the interleaved shard kept the raw
`cap = 9`, shrinks to 8 slots, and `GetPos(0)` returns a different entry:
`(1, 101)` on the former, `(8, 108)` on the latter. -/
theorem C6_layouts_diverge_counterexample :
    (runDels hfW (runSets hfW (some (Shard.init 9))
        [(8, 108), (1, 101), (2, 102)]) [2]).map
      (fun m => (Shard.GetPos m 0, Shard.Len m, sz m)) =
      some (some (1, 101), 2, 16) ∧
    (runDels1 hfW (runSets1 hfW (some (Shard1.init 9))
        [(8, 108), (1, 101), (2, 102)]) [2]).map
      (fun m => (Shard1.GetPos m 0, Shard1.Len m, sz1 m)) =
      some (some (8, 108), 2, 8) := by
  constructor
  · decide
  · decide

theorem set_getD_total {α : Type} (l : List α) (i : Nat) (d : α) :
    l.set i (l.getD i d) = l := by
  rcases Nat.lt_or_ge i l.length with h | h
  · exact list_set_getD_self l i d h
  · rw [List.set_eq_of_length_le h]

theorem conv_getD :
    ∀ (l1 : List Nat) (l2 : List (K × V)) (i : Nat), l1.length = l2.length →
      ((l1.zip l2).map fun p => (p.1, p.2.1, p.2.2)).getD i default =
        (l1.getD i 0, (l2.getD i default).1, (l2.getD i default).2) := by
  intro l1
  induction l1 with
  | nil =>
    intro l2 i hlen
    cases l2 with
    | nil => rfl
    | cons b l2 => simp at hlen
  | cons a l1 ih =>
    intro l2 i hlen
    cases l2 with
    | nil => simp at hlen
    | cons b l2 =>
      cases i with
      | zero => rfl
      | succ i =>
        have hlen' : l1.length = l2.length := by simpa using hlen
        exact ih l2 i hlen'

theorem conv_zip_set :
    ∀ (l1 : List Nat) (l2 : List (K × V)) (i : Nat) (w : Nat) (e : K × V),
      (((l1.set i w).zip (l2.set i e)).map fun p => (p.1, p.2.1, p.2.2)) =
        ((l1.zip l2).map fun p => (p.1, p.2.1, p.2.2)).set i (w, e.1, e.2) := by
  intro l1
  induction l1 with
  | nil =>
    intro l2 i w e
    rfl
  | cons a l1 ih =>
    intro l2 i w e
    cases l2 with
    | nil =>
      cases i with
      | zero => rfl
      | succ i => rfl
    | cons b l2 =>
      cases i with
      | zero => rfl
      | succ i =>
        show (a, b.1, b.2) ::
            (((l1.set i w).zip (l2.set i e)).map fun p => (p.1, p.2.1, p.2.2)) =
          (a, b.1, b.2) ::
            (((l1.zip l2).map fun p => (p.1, p.2.1, p.2.2)).set i (w, e.1, e.2))
        rw [ih l2 i w e]

theorem ent1_conv {m : Shard K V} (hlen : m.hdib.length = m.buckets.length)
    (i : Nat) : ent1 (conv m) i = (hd m i, (bkt m i).1, (bkt m i).2) :=
  conv_getD m.hdib m.buckets i hlen

theorem hd1_conv {m : Shard K V} (hlen : m.hdib.length = m.buckets.length)
    (i : Nat) : hd1 (conv m) i = hd m i := by
  unfold hd1
  rw [ent1_conv hlen]

theorem key1_conv {m : Shard K V} (hlen : m.hdib.length = m.buckets.length)
    (i : Nat) : key1 (conv m) i = (bkt m i).1 := by
  unfold key1
  rw [ent1_conv hlen]

theorem val1_conv {m : Shard K V} (hlen : m.hdib.length = m.buckets.length)
    (i : Nat) : val1 (conv m) i = (bkt m i).2 := by
  unfold val1
  rw [ent1_conv hlen]

theorem sz1_conv {m : Shard K V} (hlen : m.hdib.length = m.buckets.length) :
    sz1 (conv m) = sz m := by
  show ((m.hdib.zip m.buckets).map fun p => (p.1, p.2.1, p.2.2)).length = sz m
  rw [List.length_map, List.length_zip, hlen]
  exact Nat.min_self _

theorem filterMap_congr_on {α β : Type} :
    ∀ (l : List α) (f g : α → Option β), (∀ a, a ∈ l → f a = g a) →
      l.filterMap f = l.filterMap g := by
  intro l
  induction l with
  | nil => intro f g h; rfl
  | cons a l ih =>
    intro f g h
    rw [List.filterMap_cons, List.filterMap_cons, h a (List.mem_cons_self _ _),
      ih f g fun x hx => h x (List.mem_cons_of_mem _ hx)]

theorem getLoop1_conv {m : Shard K V}
    (hlen : m.hdib.length = m.buckets.length) (hash : Nat) (key : K) :
    ∀ (fuel : Nat) (i : Nat),
      getLoop1 (conv m) hash key i fuel = getLoop m hash key i fuel := by
  intro fuel
  induction fuel with
  | zero => intro i; rfl
  | succ fuel ih =>
    intro i
    show (if dibOf (hd1 (conv m) i) = 0 then some none
      else if hashOf (hd1 (conv m) i) = hash ∧ key1 (conv m) i = key then
        some (some (val1 (conv m) i))
      else getLoop1 (conv m) hash key ((i + 1) &&& (conv m).mask) fuel) = _
    rw [hd1_conv hlen, key1_conv hlen, val1_conv hlen]
    show (if dibOf (hd m i) = 0 then some none
      else if hashOf (hd m i) = hash ∧ (bkt m i).1 = key then
        some (some (bkt m i).2)
      else getLoop1 (conv m) hash key ((i + 1) &&& m.mask) fuel) = _
    rw [ih ((i + 1) &&& m.mask)]
    rfl

theorem Get_conv {m : Shard K V}
    (hlen : m.hdib.length = m.buckets.length) (xxh : Nat) (key : K) :
    Shard1.Get (conv m) xxh key = Shard.Get m xxh key := by
  unfold Shard1.Get Shard.Get
  rw [sz1_conv hlen]
  split
  · rfl
  · show getLoop1 (conv m) (xxh >>> 16) key ((xxh >>> 16) &&& m.mask)
        (sz m) = _
    rw [getLoop1_conv hlen]

theorem Len_conv (m : Shard K V) : Shard1.Len (conv m) = Shard.Len m := rfl

theorem Range_conv {m : Shard K V}
    (hlen : m.hdib.length = m.buckets.length) :
    Shard1.Range (conv m) = Shard.Range m := by
  unfold Shard1.Range Shard.Range
  rw [sz1_conv hlen]
  apply filterMap_congr_on
  intro i hi
  rw [hd1_conv hlen, key1_conv hlen, val1_conv hlen]

theorem getPosLoop1_conv {m : Shard K V}
    (hlen : m.hdib.length = m.buckets.length) (pos : Nat) :
    ∀ (fuel : Nat) (i : Nat),
      getPosLoop1 (conv m) pos i fuel = getPosLoop m pos i fuel := by
  intro fuel
  induction fuel with
  | zero => intro i; rfl
  | succ fuel ih =>
    intro i
    show (if dibOf (hd1 (conv m) ((pos + i) &&& (conv m).mask)) ≠ 0 then
        some (key1 (conv m) ((pos + i) &&& (conv m).mask),
          val1 (conv m) ((pos + i) &&& (conv m).mask))
      else getPosLoop1 (conv m) pos (i + 1) fuel) = _
    rw [hd1_conv hlen, key1_conv hlen, val1_conv hlen]
    show (if dibOf (hd m ((pos + i) &&& m.mask)) ≠ 0 then
        some ((bkt m ((pos + i) &&& m.mask)).1,
          (bkt m ((pos + i) &&& m.mask)).2)
      else getPosLoop1 (conv m) pos (i + 1) fuel) = _
    rw [ih (i + 1)]
    rfl

theorem GetPos_conv {m : Shard K V}
    (hlen : m.hdib.length = m.buckets.length) (pos : Nat) :
    Shard1.GetPos (conv m) pos = Shard.GetPos m pos := by
  unfold Shard1.GetPos Shard.GetPos
  rw [sz1_conv hlen, getPosLoop1_conv hlen]

theorem conv_buckets (m : Shard K V) :
    (conv m).buckets = (m.hdib.zip m.buckets).map fun p => (p.1, p.2.1, p.2.2) :=
  rfl

theorem conv_mask (m : Shard K V) : (conv m).mask = m.mask := rfl

theorem conv_length (m : Shard K V) : (conv m).length = m.length := rfl

theorem conv_cap (m : Shard K V) : (conv m).cap = m.cap := rfl

theorem conv_growAt (m : Shard K V) : (conv m).growAt = m.growAt := rfl

theorem conv_shrinkAt (m : Shard K V) : (conv m).shrinkAt = m.shrinkAt := rfl

/-- `conv` commutes with the paired slot write of the parallel-array layout. -/
theorem conv_write (m : Shard K V) (i : Nat) (w : Nat) (e : K × V) (l : Nat) :
    conv { m with hdib := m.hdib.set i w, buckets := m.buckets.set i e, length := l } =
      ⟨((m.hdib.zip m.buckets).map fun p => (p.1, p.2.1, p.2.2)).set i
          (w, e.1, e.2),
        m.cap, l, m.mask, m.growAt, m.shrinkAt⟩ := by
  show (⟨((m.hdib.set i w).zip (m.buckets.set i e)).map
      fun p => (p.1, p.2.1, p.2.2),
    m.cap, l, m.mask, m.growAt, m.shrinkAt⟩ : Shard1 K V) = _
  rw [conv_zip_set]

/-- Pairwise distinctness of the keys of occupied slots (`Inv0.uniq` as a
standalone predicate). -/
def keyDistinct (m : Shard K V) : Prop :=
  ∀ j1, j1 < sz m → ∀ j2, j2 < sz m → occ m j1 → occ m j2 →
    keyAt m j1 = keyAt m j2 → j1 = j2

/-- The two insert loops run in lockstep while the carried key is absent from
the table: the overwrite branch — the only step where the layouts write
different words — never fires.  Alongside the lockstep, the loop adds exactly
the carried key and keeps the occupied keys pairwise distinct. -/
theorem setLoop1_pair_absent :
    ∀ (fuel : Nat) (m : Shard K V) (w : Nat) (e : K × V) (i : Nat),
      m.hdib.length = m.buckets.length →
      (∃ t, sz m = 2 ^ t) → m.mask = sz m - 1 → i < sz m →
      1 ≤ dibOf w → dibOf w + fuel ≤ 65535 →
      (∀ j, j < sz m → occ m j → keyAt m j ≠ e.1) →
      keyDistinct m →
      (setLoop1 (conv m) w e i fuel =
        (setLoop m w e i fuel).map fun p => (conv p.1, p.2)) ∧
      ∀ m' r, setLoop m w e i fuel = some (m', r) →
        m'.hdib.length = m'.buckets.length ∧ sz m' = sz m ∧
        keyDistinct m' ∧
        ∀ q, hasKey m' q ↔ q = e.1 ∨ hasKey m q := by
  intro fuel
  induction fuel with
  | zero =>
    intro m w e i hlen hpow hmask hi hw0 hcb hA hdist
    refine ⟨rfl, ?_⟩
    intro m' r h
    exact Option.noConfusion h
  | succ fuel ih =>
    intro m w e i hlen hpow hmask hi hw0 hcb hA hdist
    have hszpos : 0 < sz m := by omega
    have hib : i < m.buckets.length := hi
    have hih : i < m.hdib.length := by rw [hlen]; exact hi
    have hi2 : (i + 1) &&& m.mask < sz m := by
      rw [and_mask_eq hpow hmask]
      exact Nat.mod_lt _ hszpos
    have hwlt : dibOf w < 65536 := dibOf_lt w
    by_cases h1 : dibOf (hd m i) = 0
    · -- empty slot: both layouts place the carried entry and stop
      have hkeyT : ∀ x, x ≠ i → hd ({ m with hdib := m.hdib.set i w, buckets := m.buckets.set i e, length := m.length + 1 } : Shard K V) x = hd m x ∧ bkt ({ m with hdib := m.hdib.set i w, buckets := m.buckets.set i e, length := m.length + 1 } : Shard K V) x = bkt m x := by
        intro x hx
        exact ⟨getD_set_ne (Ne.symm hx), getD_set_ne (Ne.symm hx)⟩
      have hdTi : hd ({ m with hdib := m.hdib.set i w, buckets := m.buckets.set i e, length := m.length + 1 } : Shard K V) i = w := getD_set_self hih
      have hbTi : bkt ({ m with hdib := m.hdib.set i w, buckets := m.buckets.set i e, length := m.length + 1 } : Shard K V) i = e := getD_set_self hib
      have hszT : sz ({ m with hdib := m.hdib.set i w, buckets := m.buckets.set i e, length := m.length + 1 } : Shard K V) = sz m := by
        show (m.buckets.set i e).length = m.buckets.length
        rw [List.length_set]
      constructor
      · simp only [setLoop1, setLoop, hd1_conv hlen, key1_conv hlen,
          val1_conv hlen, conv_mask, conv_length, conv_cap, conv_growAt,
          conv_shrinkAt, conv_buckets]
        rw [if_pos h1, if_pos h1, Option.map_some',
          conv_write m i w e (m.length + 1)]
      · intro m' r h
        simp only [setLoop] at h
        rw [if_pos h1] at h
        cases h
        refine ⟨?_, hszT, ?_, ?_⟩
        · show (m.hdib.set i w).length = (m.buckets.set i e).length
          rw [List.length_set, List.length_set]
          exact hlen
        · intro j1 hj1 j2 hj2 ho1 ho2 hk
          rw [hszT] at hj1 hj2
          by_cases he1 : j1 = i
          · by_cases he2 : j2 = i
            · rw [he1, he2]
            · subst he1
              unfold occ at ho2
              rw [(hkeyT j2 he2).1] at ho2
              unfold keyAt at hk
              rw [hbTi, (hkeyT j2 he2).2] at hk
              exact absurd hk.symm (hA j2 hj2 ho2)
          · by_cases he2 : j2 = i
            · subst he2
              unfold occ at ho1
              rw [(hkeyT j1 he1).1] at ho1
              unfold keyAt at hk
              rw [hbTi, (hkeyT j1 he1).2] at hk
              exact absurd hk (hA j1 hj1 ho1)
            · unfold occ at ho1 ho2
              rw [(hkeyT j1 he1).1] at ho1
              rw [(hkeyT j2 he2).1] at ho2
              unfold keyAt at hk
              rw [(hkeyT j1 he1).2, (hkeyT j2 he2).2] at hk
              exact hdist j1 hj1 j2 hj2 ho1 ho2 hk
        · intro q
          constructor
          · rintro ⟨j, hj, ho, hk⟩
            rw [hszT] at hj
            by_cases hji : j = i
            · subst hji
              left
              unfold keyAt at hk
              rw [hbTi] at hk
              exact hk.symm
            · right
              unfold occ at ho
              rw [(hkeyT j hji).1] at ho
              unfold keyAt at hk
              rw [(hkeyT j hji).2] at hk
              exact ⟨j, hj, ho, hk⟩
          · rintro (rfl | ⟨j, hj, ho, hk⟩)
            · refine ⟨i, by rw [hszT]; exact hi, ?_, ?_⟩
              · unfold occ
                rw [hdTi]
                omega
              · unfold keyAt
                rw [hbTi]
            · have hji : j ≠ i := by
                rintro rfl
                exact ho h1
              refine ⟨j, by rw [hszT]; exact hj, ?_, ?_⟩
              · unfold occ
                rw [(hkeyT j hji).1]
                exact ho
              · unfold keyAt
                rw [(hkeyT j hji).2]
                exact hk
    · by_cases h2 : hashOf w = hashOf (hd m i) ∧ e.1 = (bkt m i).1
      · exact absurd h2.2.symm (hA i hi h1)
      · by_cases h3 : dibOf (hd m i) < dibOf w
        · -- swap: the richer carried entry displaces the resident
          have hocc_i : occ m i := h1
          have hszS : sz ({ m with hdib := m.hdib.set i w, buckets := m.buckets.set i e } : Shard K V) = sz m := by
            show (m.buckets.set i e).length = m.buckets.length
            rw [List.length_set]
          have hkeyS : ∀ x, x ≠ i → hd ({ m with hdib := m.hdib.set i w, buckets := m.buckets.set i e } : Shard K V) x = hd m x ∧ bkt ({ m with hdib := m.hdib.set i w, buckets := m.buckets.set i e } : Shard K V) x = bkt m x := by
            intro x hx
            exact ⟨getD_set_ne (Ne.symm hx), getD_set_ne (Ne.symm hx)⟩
          have hdSi : hd ({ m with hdib := m.hdib.set i w, buckets := m.buckets.set i e } : Shard K V) i = w := getD_set_self hih
          have hbSi : bkt ({ m with hdib := m.hdib.set i w, buckets := m.buckets.set i e } : Shard K V) i = e := getD_set_self hib
          have hlenS : ({ m with hdib := m.hdib.set i w, buckets := m.buckets.set i e } : Shard K V).hdib.length = ({ m with hdib := m.hdib.set i w, buckets := m.buckets.set i e } : Shard K V).buckets.length := by
            show (m.hdib.set i w).length = (m.buckets.set i e).length
            rw [List.length_set, List.length_set]
            exact hlen
          have hpowS : ∃ t, sz ({ m with hdib := m.hdib.set i w, buckets := m.buckets.set i e } : Shard K V) = 2 ^ t := by
            rw [hszS]
            exact hpow
          have hmaskS : ({ m with hdib := m.hdib.set i w, buckets := m.buckets.set i e } : Shard K V).mask = sz ({ m with hdib := m.hdib.set i w, buckets := m.buckets.set i e } : Shard K V) - 1 := by
            rw [hszS]
            exact hmask
          have hiS : (i + 1) &&& m.mask < sz ({ m with hdib := m.hdib.set i w, buckets := m.buckets.set i e } : Shard K V) := by
            rw [hszS]
            exact hi2
          have hd3 : dibOf (withDib (hd m i) (dibOf (hd m i) + 1)) = dibOf (hd m i) + 1 := by
            rw [dibOf_withDib]
            have := dibOf_lt (hd m i)
            omega
          have hw0S : 1 ≤ dibOf (withDib (hd m i) (dibOf (hd m i) + 1)) := by
            omega
          have hcbS : dibOf (withDib (hd m i) (dibOf (hd m i) + 1)) + fuel ≤ 65535 := by
            omega
          have hAS : ∀ j, j < sz ({ m with hdib := m.hdib.set i w, buckets := m.buckets.set i e } : Shard K V) → occ ({ m with hdib := m.hdib.set i w, buckets := m.buckets.set i e } : Shard K V) j → keyAt ({ m with hdib := m.hdib.set i w, buckets := m.buckets.set i e } : Shard K V) j ≠ (bkt m i).1 := by
            intro j hj ho hk
            rw [hszS] at hj
            by_cases hji : j = i
            · unfold keyAt at hk
              rw [hji, hbSi] at hk
              exact absurd hk.symm (hA i hi hocc_i)
            · unfold occ at ho
              rw [(hkeyS j hji).1] at ho
              unfold keyAt at hk
              rw [(hkeyS j hji).2] at hk
              exact absurd (hdist j hj i hi ho hocc_i hk) hji
          have hdistS : keyDistinct ({ m with hdib := m.hdib.set i w, buckets := m.buckets.set i e } : Shard K V) := by
            intro j1 hj1 j2 hj2 ho1 ho2 hk
            rw [hszS] at hj1 hj2
            by_cases he1 : j1 = i
            · by_cases he2 : j2 = i
              · rw [he1, he2]
              · subst he1
                unfold occ at ho2
                rw [(hkeyS j2 he2).1] at ho2
                unfold keyAt at hk
                rw [hbSi, (hkeyS j2 he2).2] at hk
                exact absurd hk.symm (hA j2 hj2 ho2)
            · by_cases he2 : j2 = i
              · subst he2
                unfold occ at ho1
                rw [(hkeyS j1 he1).1] at ho1
                unfold keyAt at hk
                rw [hbSi, (hkeyS j1 he1).2] at hk
                exact absurd hk (hA j1 hj1 ho1)
              · unfold occ at ho1 ho2
                rw [(hkeyS j1 he1).1] at ho1
                rw [(hkeyS j2 he2).1] at ho2
                unfold keyAt at hk
                rw [(hkeyS j1 he1).2, (hkeyS j2 he2).2] at hk
                exact hdist j1 hj1 j2 hj2 ho1 ho2 hk
          have hMS := ih { m with hdib := m.hdib.set i w, buckets := m.buckets.set i e } (withDib (hd m i) (dibOf (hd m i) + 1)) (bkt m i) ((i + 1) &&& m.mask) hlenS hpowS hmaskS hiS hw0S hcbS hAS hdistS
          have hkeysS : ∀ q, hasKey ({ m with hdib := m.hdib.set i w, buckets := m.buckets.set i e } : Shard K V) q ↔ q = e.1 ∨ (q ≠ keyAt m i ∧ hasKey m q) := by
            intro q
            constructor
            · rintro ⟨j, hj, ho, hk⟩
              rw [hszS] at hj
              by_cases hji : j = i
              · subst hji
                left
                unfold keyAt at hk
                rw [hbSi] at hk
                exact hk.symm
              · right
                unfold occ at ho
                rw [(hkeyS j hji).1] at ho
                unfold keyAt at hk
                rw [(hkeyS j hji).2] at hk
                refine ⟨?_, j, hj, ho, hk⟩
                intro hq
                exact hji (hdist j hj i hi ho hocc_i (hk.trans hq))
            · rintro (rfl | ⟨hq, j, hj, ho, hk⟩)
              · refine ⟨i, by rw [hszS]; exact hi, ?_, ?_⟩
                · unfold occ
                  rw [hdSi]
                  omega
                · unfold keyAt
                  rw [hbSi]
              · have hji : j ≠ i := by
                  rintro rfl
                  exact hq hk.symm
                refine ⟨j, by rw [hszS]; exact hj, ?_, ?_⟩
                · unfold occ
                  rw [(hkeyS j hji).1]
                  exact ho
                · unfold keyAt
                  rw [(hkeyS j hji).2]
                  exact hk
          have hc : conv { m with hdib := m.hdib.set i w, buckets := m.buckets.set i e } = ⟨((m.hdib.zip m.buckets).map fun p => (p.1, p.2.1, p.2.2)).set i (w, e.1, e.2), m.cap, m.length, m.mask, m.growAt, m.shrinkAt⟩ :=
            conv_write m i w e m.length
          constructor
          · simp only [setLoop1, setLoop, hd1_conv hlen, key1_conv hlen,
              val1_conv hlen, conv_mask, conv_length, conv_cap, conv_growAt,
              conv_shrinkAt, conv_buckets]
            rw [if_neg h1, if_neg h1, if_neg h2, if_neg h2, if_pos h3,
              if_pos h3, ← hc]
            exact hMS.1
          · intro m' r h
            simp only [setLoop] at h
            rw [if_neg h1, if_neg h2, if_pos h3] at h
            obtain ⟨hlen', hsz', hdist', hkeys'⟩ := hMS.2 m' r h
            refine ⟨hlen', by rw [hsz', hszS], hdist', ?_⟩
            intro q
            rw [hkeys' q, hkeysS q]
            constructor
            · rintro (hq | (rfl | ⟨hq, hKq⟩))
              · right
                rw [hq]
                exact ⟨i, hi, hocc_i, rfl⟩
              · left
                rfl
              · right
                exact hKq
            · rintro (rfl | ⟨j, hj, ho, hk⟩)
              · right
                left
                rfl
              · by_cases hji : j = i
                · subst hji
                  left
                  exact hk.symm
                · right
                  right
                  refine ⟨?_, j, hj, ho, hk⟩
                  intro hq
                  exact hji (hdist j hj i hi ho hocc_i (hk.trans hq))
        · -- poorer carried entry: advance with incremented dib
          have hd4 : dibOf (withDib w (dibOf w + 1)) = dibOf w + 1 := by
            rw [dibOf_withDib]
            omega
          have hw04 : 1 ≤ dibOf (withDib w (dibOf w + 1)) := by omega
          have hcb4 : dibOf (withDib w (dibOf w + 1)) + fuel ≤ 65535 := by
            omega
          have hM4 := ih m (withDib w (dibOf w + 1)) e ((i + 1) &&& m.mask)
            hlen hpow hmask hi2 hw04 hcb4 hA hdist
          constructor
          · simp only [setLoop1, setLoop, hd1_conv hlen, key1_conv hlen,
              val1_conv hlen, conv_mask, conv_length, conv_cap, conv_growAt,
              conv_shrinkAt, conv_buckets]
            rw [if_neg h1, if_neg h1, if_neg h2, if_neg h2, if_neg h3,
              if_neg h3]
            exact hM4.1
          · intro m' r h
            simp only [setLoop] at h
            rw [if_neg h1, if_neg h2, if_neg h3] at h
            exact hM4.2 m' r h

/-- `conv` commutes with a buckets-only slot write (the slot's word is kept). -/
theorem conv_write_val (m : Shard K V) (j : Nat) (e : K × V) :
    conv { m with buckets := m.buckets.set j e } =
      ⟨((m.hdib.zip m.buckets).map fun p => (p.1, p.2.1, p.2.2)).set j
          (hd m j, e.1, e.2),
        m.cap, m.length, m.mask, m.growAt, m.shrinkAt⟩ := by
  have h1 : m.hdib.set j (hd m j) = m.hdib := set_getD_total m.hdib j 0
  show (⟨(m.hdib.zip (m.buckets.set j e)).map fun p => (p.1, p.2.1, p.2.2),
    m.cap, m.length, m.mask, m.growAt, m.shrinkAt⟩ : Shard1 K V) = _
  rw [← conv_zip_set m.hdib m.buckets j (hd m j) e, h1]

/-- The interleaved insert loop walking towards a present key: it reaches the
key's slot without mutating anything and overwrites only the value — the
resulting table is the interleaving of the parallel-array result. -/
theorem setLoop1_present {hf : K → Nat} {m : Shard K V} (hInv : Inv0 hf m)
    {k : K} {v : V} {j : Nat} (hj : j < sz m) (hocc : occ m j)
    (hkey : keyAt m j = k) :
    ∀ fuel t w, t ≤ disp m j → disp m j + 1 - t ≤ fuel →
      hashOf w = hashOf (hd m j) → dibOf w = t + 1 →
      setLoop1 (conv m) w (k, v) (idx (sz m) (home m j) t) fuel =
        some (conv { m with buckets := m.buckets.set j ((bkt m j).1, v) },
          some (valAt m j)) := by
  have hlen : m.hdib.length = m.buckets.length := hInv.hdib_len
  have hN : 0 < sz m := by have := hInv.size_ge; omega
  have hhome : home m j < sz m := home_lt hInv j
  have hidx_j : idx (sz m) (home m j) (disp m j) = j := by
    unfold disp
    exact idx_dist hhome hj
  have hdlt : disp m j < sz m := disp_lt hInv hj
  intro fuel
  induction fuel with
  | zero => intro t w ht hfuel _ _; omega
  | succ fuel ih =>
    intro t w ht hfuel hw_hash hw_dib
    by_cases hlast : t = disp m j
    · subst hlast
      rw [hidx_j]
      simp only [setLoop1, hd1_conv hlen, key1_conv hlen, val1_conv hlen,
        conv_mask, conv_length, conv_cap, conv_growAt, conv_shrinkAt,
        conv_buckets]
      rw [if_neg (by simpa [occ] using hocc)]
      rw [if_pos ⟨by rw [hw_hash], hkey.symm⟩]
      rw [conv_write_val m j ((bkt m j).1, v)]
      rfl
    · have htlt : t < disp m j := by omega
      have hilt : idx (sz m) (home m j) t < sz m := idx_lt hN
      have hch := chain hInv hj hocc t (by omega)
      have hocc_i : occ m (idx (sz m) (home m j) t) := hch.1
      have hne : idx (sz m) (home m j) t ≠ j := by
        intro h
        have h2 : idx (sz m) (home m j) t = idx (sz m) (home m j) (disp m j) := by
          rw [hidx_j]
          exact h
        exact absurd (idx_inj hhome (by omega) (by omega) h2) (by omega)
      simp only [setLoop1, hd1_conv hlen, key1_conv hlen, val1_conv hlen,
        conv_mask, conv_length, conv_cap, conv_growAt, conv_shrinkAt,
        conv_buckets]
      rw [if_neg (by simpa [occ] using hocc_i)]
      rw [if_neg ?_]
      rw [if_neg (by rw [hw_dib]; omega)]
      · rw [show idx (sz m) (home m j) t + 1 &&& m.mask = idx (sz m) (home m j) (t + 1) by
          rw [and_mask_eq hInv.size_pow hInv.mask_eq, idx_succ, step]]
        apply ih (t + 1) _ (by omega) (by omega)
        · rw [hashOf_withDib, hw_hash]
        · rw [dibOf_withDib, hw_dib]
          have : disp m j + 1 < 65536 := hInv.dib_lt j hj hocc
          omega
      · rintro ⟨-, hk⟩
        exact hne (hInv.uniq _ hilt j hj hocc_i hocc (hk.symm.trans hkey.symm))

theorem setLoop_scalars :
    ∀ (fuel : Nat) (m : Shard K V) (w : Nat) (e : K × V) (i : Nat)
      {p : Shard K V × Option V}, setLoop m w e i fuel = some p →
      p.1.mask = m.mask ∧ p.1.growAt = m.growAt ∧ p.1.shrinkAt = m.shrinkAt := by
  intro fuel
  induction fuel with
  | zero =>
    intro m w e i p h
    exact Option.noConfusion h
  | succ fuel ih =>
    intro m w e i p h
    simp only [setLoop] at h
    by_cases h1 : dibOf (hd m i) = 0
    · rw [if_pos h1] at h
      cases h
      exact ⟨rfl, rfl, rfl⟩
    · rw [if_neg h1] at h
      by_cases h2 : hashOf w = hashOf (hd m i) ∧ e.1 = (bkt m i).1
      · rw [if_pos h2] at h
        cases h
        exact ⟨rfl, rfl, rfl⟩
      · rw [if_neg h2] at h
        by_cases h3 : dibOf (hd m i) < dibOf w
        · rw [if_pos h3] at h
          exact ih { m with hdib := m.hdib.set i w, buckets := m.buckets.set i e } _ _ _ h
        · rw [if_neg h3] at h
          exact ih m _ _ _ h

theorem set_scalars {m : Shard K V} {hsh : Nat} {k : K} {v : V}
    {p : Shard K V × Option V} (h : Shard.set m hsh k v = some p) :
    p.1.mask = m.mask ∧ p.1.growAt = m.growAt ∧ p.1.shrinkAt = m.shrinkAt :=
  setLoop_scalars _ _ _ _ _ h

theorem dibOf_mkHdib_any (h : Nat) : dibOf (mkHdib h) = 1 := by
  have hdvd : 65536 ∣ (h <<< 16) % 2 ^ 64 := by
    rw [Nat.dvd_mod_iff (by norm_num)]
    exact ⟨h, by rw [Nat.shiftLeft_eq]; ring⟩
  obtain ⟨y, hy⟩ := hdvd
  have h2 : (1 : Nat) &&& 65535 = 1 := by decide
  show (((h <<< 16) % 2 ^ 64) ||| (1 &&& 65535)) &&& 65535 = 1
  rw [h2, hy, show 65536 * y = 2 ^ 16 * y from rfl,
    ← Nat.mul_add_lt_is_or (by norm_num) y]
  show dibOf (2 ^ 16 * y + 1) = 1
  rw [dibOf_eq]
  omega

theorem szLoop_le_of_le {c : Int} (hc : c ≤ 16384) : szLoop 8 c ≤ 16384 := by
  obtain ⟨t, ht, hub, hmin⟩ := szLoop_spec c
  rcases Nat.lt_or_ge t 12 with h | h
  · rw [ht]
    have h2 : 2 ^ t ≤ 2 ^ 11 := Nat.pow_le_pow_right (by omega) (by omega)
    omega
  · have h11 := hmin 11 (by omega)
    norm_num at h11
    omega

/-- The two lower-case `set`s run in lockstep when the inserted key is absent
(any fingerprint), and the insertion adds exactly that key. -/
theorem set_pair_absent {m : Shard K V}
    (hlen : m.hdib.length = m.buckets.length) (hpow : ∃ t, sz m = 2 ^ t)
    (hmask : m.mask = sz m - 1) (hszb : sz m ≤ 32768) (hash : Nat) {k : K}
    (v : V) (habs : ∀ j, j < sz m → occ m j → keyAt m j ≠ k)
    (hdist : keyDistinct m) :
    (Shard1.set (conv m) hash k v =
      (Shard.set m hash k v).map fun p => (conv p.1, p.2)) ∧
    ∀ m' r, Shard.set m hash k v = some (m', r) →
      m'.hdib.length = m'.buckets.length ∧ sz m' = sz m ∧
      keyDistinct m' ∧ ∀ q, hasKey m' q ↔ q = k ∨ hasKey m q := by
  have hszpos : 0 < sz m := by
    obtain ⟨t, ht⟩ := hpow
    rw [ht]
    exact Nat.pos_pow_of_pos t (by omega)
  have hstart : mkHdib hash >>> 16 &&& m.mask < sz m := by
    rw [and_mask_eq hpow hmask]
    exact Nat.mod_lt _ hszpos
  have hdib1 : dibOf (mkHdib hash) = 1 := dibOf_mkHdib_any hash
  have hpair := setLoop1_pair_absent (sz m) m (mkHdib hash) (k, v)
    (mkHdib hash >>> 16 &&& m.mask) hlen hpow hmask hstart
    (by rw [hdib1]) (by rw [hdib1]; omega) habs hdist
  constructor
  · show setLoop1 (conv m) (mkHdib hash) (k, v)
        ((mkHdib hash >>> 16) &&& (conv m).mask) (sz1 (conv m)) =
      (setLoop m (mkHdib hash) (k, v) ((mkHdib hash >>> 16) &&& m.mask)
        (sz m)).map fun p => (conv p.1, p.2)
    rw [conv_mask, sz1_conv hlen]
    exact hpair.1
  · intro m' r h
    exact hpair.2 m' r h

/-- The two lower-case `set`s run in lockstep when the key is present in an
invariant table: both walk to the slot untouched, and the parallel-array
overwrite rewrites the slot's word with an identical word. -/
theorem set_pair_present {hf : K → Nat} {m : Shard K V} (hInv : Inv0 hf m)
    {k : K} (v : V) {j : Nat} (hj : j < sz m) (hocc : occ m j)
    (hkey : keyAt m j = k) :
    Shard1.set (conv m) (hash64 hf k / 65536) k v =
      (Shard.set m (hash64 hf k / 65536) k v).map fun p => (conv p.1, p.2) := by
  have hN : 0 < sz m := by have := hInv.size_ge; omega
  have hlen : m.hdib.length = m.buckets.length := by
    rw [hInv.hdib_len]
    rfl
  have hhlt : hash64 hf k / 65536 < 2 ^ 48 := hash64_div_lt hf k
  have hw_hash0 : hashOf (mkHdib (hash64 hf k / 65536)) =
      hash64 hf k / 65536 := hashOf_mkHdib _ hhlt
  have hw_dib : dibOf (mkHdib (hash64 hf k / 65536)) = 1 := dibOf_mkHdib _ hhlt
  have hstart : mkHdib (hash64 hf k / 65536) >>> 16 &&& m.mask =
      hash64 hf k / 65536 % sz m := by
    rw [show mkHdib (hash64 hf k / 65536) >>> 16 =
      hashOf (mkHdib (hash64 hf k / 65536)) from rfl, hw_hash0,
      and_mask_eq hInv.size_pow hInv.mask_eq]
  have hhash_j : hashOf (hd m j) = hash64 hf k / 65536 := by
    rw [hInv.hash_eq j hj hocc, hkey]
  have hstart2 : hash64 hf k / 65536 % sz m = idx (sz m) (home m j) 0 := by
    rw [idx_zero (home_lt hInv j)]
    unfold home
    rw [hhash_j]
  have hfuel : disp m j + 1 - 0 ≤ sz m := by
    have := disp_lt hInv hj
    omega
  show setLoop1 (conv m) (mkHdib (hash64 hf k / 65536)) (k, v)
      ((mkHdib (hash64 hf k / 65536) >>> 16) &&& (conv m).mask)
      (sz1 (conv m)) =
    (setLoop m (mkHdib (hash64 hf k / 65536)) (k, v)
      ((mkHdib (hash64 hf k / 65536) >>> 16) &&& m.mask) (sz m)).map
      fun p => (conv p.1, p.2)
  rw [conv_mask, sz1_conv hlen, hstart, hstart2]
  rw [setLoop1_present hInv hj hocc hkey (sz m) 0
    (mkHdib (hash64 hf k / 65536)) (by omega) hfuel
    (by rw [hw_hash0, hhash_j]) (by rw [hw_dib])]
  rw [setLoop_present hInv hj hocc hkey (sz m) 0
    (mkHdib (hash64 hf k / 65536)) (by omega) hfuel
    (by rw [hw_hash0, hhash_j]) (by rw [hw_dib])]
  rfl

/-- Lockstep of the two lower-case `set`s on an invariant table. -/
theorem set_pair {hf : K → Nat} {m : Shard K V} (hInv : Inv0 hf m)
    (hszb : sz m ≤ 32768) (k : K) (v : V) :
    Shard1.set (conv m) (hash64 hf k >>> 16) k v =
      (Shard.set m (hash64 hf k >>> 16) k v).map fun p => (conv p.1, p.2) := by
  have hsh : hash64 hf k >>> 16 = hash64 hf k / 65536 :=
    Nat.shiftRight_eq_div_pow _ _
  rw [hsh]
  by_cases hpres : hasKey m k
  · obtain ⟨j, hj, hocc, hkey⟩ := hpres
    exact set_pair_present hInv v hj hocc hkey
  · have habs : ∀ j, j < sz m → occ m j → keyAt m j ≠ k :=
      fun j hj ho hk => hpres ⟨j, hj, ho, hk⟩
    exact (set_pair_absent (by rw [hInv.hdib_len]; rfl) hInv.size_pow
      hInv.mask_eq hszb (hash64 hf k / 65536) v habs hInv.uniq).1

/-- The reinsertion loops run in lockstep: with the source's occupied keys
pairwise distinct and the target holding exactly the keys reinserted so far,
every insertion is an absent-key insertion. -/
theorem resizeLoop_pair :
    ∀ (fuel : Nat) (s nmap : Shard K V) (i : Nat),
      s.hdib.length = s.buckets.length →
      keyDistinct s →
      nmap.hdib.length = nmap.buckets.length →
      (∃ t, sz nmap = 2 ^ t) → nmap.mask = sz nmap - 1 → sz nmap ≤ 32768 →
      keyDistinct nmap →
      (∀ q, hasKey nmap q → ∃ x, x < i ∧ x < sz s ∧ occ s x ∧ keyAt s x = q) →
      resizeLoop1 (conv s) (conv nmap) i fuel =
        (resizeLoop s nmap i fuel).map conv := by
  intro fuel
  induction fuel with
  | zero =>
    intro s nmap i _ _ _ _ _ _ _ _
    rfl
  | succ fuel ih =>
    intro s nmap i hlens hdists hlenn hpown hmaskn hszbn hdistn hkeys
    simp only [resizeLoop1, resizeLoop, hd1_conv hlens, key1_conv hlens,
      val1_conv hlens]
    by_cases hocc : dibOf (hd s i) ≠ 0
    · rw [if_pos hocc, if_pos hocc]
      have hi_lt : i < sz s := by
        rcases Nat.lt_or_ge i (sz s) with h | h
        · exact h
        · exfalso
          apply hocc
          show dibOf (s.hdib.getD i 0) = 0
          rw [List.getD_eq_default]
          · rfl
          · rw [hlens]
            exact h
      have habs : ∀ x, x < sz nmap → occ nmap x →
          keyAt nmap x ≠ (bkt s i).1 := by
        intro x hx ho hk
        obtain ⟨y, hy, hys, hyo, hyk⟩ := hkeys _ ⟨x, hx, ho, hk⟩
        have hyi := hdists y hys i hi_lt hyo hocc hyk
        omega
      have hpair := set_pair_absent hlenn hpown hmaskn hszbn
        (hashOf (hd s i)) (bkt s i).2 habs hdistn
      rw [hpair.1]
      cases hset : Shard.set nmap (hashOf (hd s i)) (bkt s i).1 (bkt s i).2 with
      | none => rfl
      | some q =>
        obtain ⟨m1, r1⟩ := q
        obtain ⟨hlen1, hsz1, hdist1, hkeys1⟩ := hpair.2 m1 r1 hset
        obtain ⟨hmask1, hgrow1, hshrink1⟩ := set_scalars hset
        show resizeLoop1 (conv s) (conv m1) (i + 1) fuel =
          (resizeLoop s m1 (i + 1) fuel).map conv
        apply ih s m1 (i + 1) hlens hdists hlen1
        · obtain ⟨t, ht⟩ := hpown
          exact ⟨t, by rw [hsz1]; exact ht⟩
        · rw [hsz1, hmask1]
          exact hmaskn
        · rw [hsz1]
          exact hszbn
        · exact hdist1
        · intro q hq
          rcases (hkeys1 q).mp hq with rfl | hq2
          · exact ⟨i, by omega, hi_lt, hocc, rfl⟩
          · obtain ⟨x, hx, hxs, ho, hk⟩ := hkeys q hq2
            exact ⟨x, by omega, hxs, ho, hk⟩
    · rw [if_neg hocc, if_neg hocc]
      apply ih s nmap (i + 1) hlens hdists hlenn hpown hmaskn hszbn hdistn
      intro q hq
      obtain ⟨x, hx, hxs, ho, hk⟩ := hkeys q hq
      exact ⟨x, by omega, hxs, ho, hk⟩

/-- Changing the target's stored `cap` changes nothing but the final `cap`. -/
theorem resizeLoop_nmap_cap (c : Int) :
    ∀ (fuel : Nat) (s nmap : Shard K V) (i : Nat),
      resizeLoop s { nmap with cap := c } i fuel =
        (resizeLoop s nmap i fuel).map fun n => { n with cap := c } := by
  intro fuel
  induction fuel with
  | zero => intro s nmap i; rfl
  | succ fuel ih =>
    intro s nmap i
    simp only [resizeLoop]
    split
    · rw [set_cap]
      cases hset : Shard.set nmap (hashOf (hd s i)) (bkt s i).1 (bkt s i).2 with
      | none => rfl
      | some q =>
        obtain ⟨m1, r1⟩ := q
        show resizeLoop s { m1 with cap := c } (i + 1) fuel = _
        rw [ih]
    · exact ih s nmap (i + 1)

theorem zip_replicate_map :
    ∀ n : Nat, ((List.replicate n (0 : Nat)).zip
        (List.replicate n (default : K × V))).map
          (fun p => (p.1, p.2.1, p.2.2)) =
      List.replicate n (default : Nat × K × V) := by
  intro n
  induction n with
  | zero => rfl
  | succ n ih =>
    show ((0 : Nat), (default : K × V).1, (default : K × V).2) ::
        ((List.replicate n (0 : Nat)).zip
          (List.replicate n (default : K × V))).map
            (fun p => (p.1, p.2.1, p.2.2)) =
      (default : Nat × K × V) :: List.replicate n (default : Nat × K × V)
    rw [ih]
    rfl

/-- The two `resize`s run in lockstep from a key-distinct source. -/
theorem resize_pair {s : Shard K V}
    (hlens : s.hdib.length = s.buckets.length) (hdists : keyDistinct s)
    (c : Int) (hszc : szLoop 8 c ≤ 32768) :
    Shard1.resize (conv s) c = (Shard.resize s c).map conv := by
  obtain ⟨x, hx⟩ : ∃ x : Shard K V, x = Shard.init c := ⟨_, rfl⟩
  show (match resizeLoop1 (conv s) (Shard1.init c) 0 (sz1 (conv s)) with
    | none => none
    | some nmap => some { nmap with cap := (conv s).cap }) =
    (match resizeLoop s (Shard.init c) 0 (sz s) with
     | none => none
     | some nmap => some { nmap with cap := s.cap }).map conv
  rw [sz1_conv hlens, ← hx]
  have hinit : (Shard1.init c : Shard1 K V) = conv { x with cap := c } := by
    subst hx
    show (⟨List.replicate (szLoop 8 c) default, c, 0, szLoop 8 c - 1,
        17 * szLoop 8 c / 20, 3 * szLoop 8 c / 20⟩ : Shard1 K V) =
      ⟨((List.replicate (szLoop 8 c) 0).zip
          (List.replicate (szLoop 8 c) (default : K × V))).map
        fun p => (p.1, p.2.1, p.2.2), c, 0, szLoop 8 c - 1,
        17 * szLoop 8 c / 20, 3 * szLoop 8 c / 20⟩
    rw [zip_replicate_map]
  rw [hinit]
  rw [resizeLoop_pair (sz s) s { x with cap := c } 0 hlens hdists ?hl ?hp ?hm
    ?hb ?hd ?hk]
  case hl =>
    subst hx
    show (List.replicate (szLoop 8 c) (0 : Nat)).length =
      (List.replicate (szLoop 8 c) (default : K × V)).length
    rw [List.length_replicate, List.length_replicate]
  case hp =>
    subst hx
    show ∃ t, sz (Shard.init c : Shard K V) = 2 ^ t
    rw [sz_init]
    exact szLoop_pow2 c
  case hm =>
    subst hx
    show szLoop 8 c - 1 = sz ({ Shard.init c with cap := c } : Shard K V) - 1
    show szLoop 8 c - 1 = sz (Shard.init c : Shard K V) - 1
    rw [sz_init]
  case hb =>
    subst hx
    show sz (Shard.init c : Shard K V) ≤ 32768
    rw [sz_init]
    exact hszc
  case hd =>
    subst hx
    intro j1 hj1 j2 hj2 ho1 ho2 hk
    exact absurd (show occ (Shard.init c : Shard K V) j1 from ho1)
      (init_not_occ c j1)
  case hk =>
    subst hx
    rintro q ⟨j, hj, ho, hk⟩
    exact absurd (show occ (Shard.init c : Shard K V) j from ho)
      (init_not_occ c j)
  rw [resizeLoop_nmap_cap c (sz s) s x 0]
  cases hrl : resizeLoop s x 0 (sz s) with
  | none => rfl
  | some nmap => rfl

/-- Lockstep of the two public `Set`s on an invariant table. -/
theorem Set_pair {hf : K → Nat} {m : Shard K V} (hInv : Inv hf m)
    (hszb : sz m ≤ 16384) (k : K) (v : V) :
    Shard1.Set (conv m) (hash64 hf k) k v =
      (Shard.Set m (hash64 hf k) k v).map fun p => (conv p.1, p.2) := by
  have hlen : m.hdib.length = m.buckets.length := by
    rw [hInv.inv0.hdib_len]
    rfl
  have hsz8 : 8 ≤ sz m := hInv.inv0.size_ge
  have hsz1m : sz1 (conv m) = sz m := sz1_conv hlen
  simp only [Shard1.Set, Shard.Set]
  have e1 : (if sz1 (conv m) = 0 then Shard1.init 0 else conv m) = conv m :=
    if_neg (by omega)
  have e0 : (if sz m = 0 then Shard.init 0 else m) = m := if_neg (by omega)
  rw [e1, e0, conv_growAt, conv_length, hsz1m]
  by_cases hgrow : m.growAt ≤ m.length
  · rw [if_pos hgrow, if_pos hgrow]
    obtain ⟨t, ht⟩ := hInv.inv0.size_pow
    have ht3 : 3 ≤ t := by
      rcases Nat.lt_or_ge t 3 with h | h
      · exfalso
        have h2 : (2 : Nat) ^ t ≤ 2 ^ 2 :=
          Nat.pow_le_pow_right (by omega) (by omega)
        omega
      · exact h
    have hszc : szLoop 8 ((2 * sz m : Nat) : Int) = 2 * sz m :=
      szLoop_eq_self (t + 1) (by omega) (by rw [ht]; ring)
    rw [resize_pair hlen hInv.inv0.uniq ((2 * sz m : Nat) : Int)
      (by rw [hszc]; omega)]
    cases hres : Shard.resize m ((2 * sz m : Nat) : Int) with
    | none => rfl
    | some m1 =>
      have hcnt : countOcc m < sz m := Inv_count_lt hInv
      obtain ⟨m1', hres', hInv1, hsz1', hcap1, hlen1, hcnt1, hmask1, hgrow1,
        hshrink1, hcont1⟩ := resize_spec hInv.inv0 ((2 * sz m : Nat) : Int)
          (by rw [hszc]; omega) (by omega)
      rw [hres] at hres'
      obtain rfl := Option.some.inj hres'
      show Shard1.set (conv m1) (hash64 hf k >>> 16) k v =
        (Shard.set m1 (hash64 hf k >>> 16) k v).map fun p => (conv p.1, p.2)
      exact set_pair hInv1 (by rw [hsz1', hszc]; omega) k v
  · rw [if_neg hgrow, if_neg hgrow]
    show Shard1.set (conv m) (hash64 hf k >>> 16) k v =
      (Shard.set m (hash64 hf k >>> 16) k v).map fun p => (conv p.1, p.2)
    exact set_pair hInv.inv0 (by omega) k v

/-- `conv` commutes with an hdib-only slot write (the slot's entry is kept). -/
theorem conv_write_hd (m : Shard K V) (i : Nat) (w : Nat) :
    conv { m with hdib := m.hdib.set i w } =
      ⟨((m.hdib.zip m.buckets).map fun p => (p.1, p.2.1, p.2.2)).set i
          (w, (bkt m i).1, (bkt m i).2),
        m.cap, m.length, m.mask, m.growAt, m.shrinkAt⟩ := by
  have h1 := conv_zip_set m.hdib m.buckets i w (bkt m i)
  rw [show m.buckets.set i (bkt m i) = m.buckets from
    set_getD_total m.buckets i default] at h1
  show (⟨((m.hdib.set i w).zip m.buckets).map fun p => (p.1, p.2.1, p.2.2),
    m.cap, m.length, m.mask, m.growAt, m.shrinkAt⟩ : Shard1 K V) = _
  rw [h1]

/-- The two backward-shift loops run in lockstep: both read the same words
and write the same hole contents at every step. -/
theorem removeLoop1_pair :
    ∀ (fuel : Nat) (m : Shard K V), m.hdib.length = m.buckets.length →
      ∀ (i : Nat),
        removeLoop1 (conv m) i fuel = (removeLoop m i fuel).map conv := by
  intro fuel
  induction fuel with
  | zero =>
    intro m hlen i
    rfl
  | succ fuel ih =>
    intro m hlen i
    show (if dibOf (hd1 (conv m) ((i + 1) &&& (conv m).mask)) ≤ 1 then some (⟨(conv m).buckets.set i default, (conv m).cap, (conv m).length, (conv m).mask, (conv m).growAt, (conv m).shrinkAt⟩ : Shard1 K V) else removeLoop1 (⟨(conv m).buckets.set i (withDib (hd1 (conv m) ((i + 1) &&& (conv m).mask)) (dibOf (hd1 (conv m) ((i + 1) &&& (conv m).mask)) - 1), key1 (conv m) ((i + 1) &&& (conv m).mask), val1 (conv m) ((i + 1) &&& (conv m).mask)), (conv m).cap, (conv m).length, (conv m).mask, (conv m).growAt, (conv m).shrinkAt⟩ : Shard1 K V) ((i + 1) &&& (conv m).mask) fuel) = (removeLoop m i (fuel + 1)).map conv
    rw [conv_mask, hd1_conv hlen, key1_conv hlen, val1_conv hlen, conv_buckets,
      conv_cap, conv_length, conv_growAt, conv_shrinkAt]
    have hE0 : removeLoop m i (fuel + 1) = (if dibOf (hd m ((i + 1) &&& m.mask)) ≤ 1 then some { m with hdib := m.hdib.set i 0, buckets := m.buckets.set i default } else removeLoop { m with hdib := m.hdib.set i (withDib (hd m ((i + 1) &&& m.mask)) (dibOf (hd m ((i + 1) &&& m.mask)) - 1)), buckets := m.buckets.set i (bkt m ((i + 1) &&& m.mask)) } ((i + 1) &&& m.mask) fuel) := rfl
    rw [hE0]
    by_cases hterm : dibOf (hd m ((i + 1) &&& m.mask)) ≤ 1
    · rw [if_pos hterm, if_pos hterm, Option.map_some',
        conv_write m i 0 default m.length]
      rfl
    · rw [if_neg hterm, if_neg hterm,
        ← conv_write m i (withDib (hd m ((i + 1) &&& m.mask))
          (dibOf (hd m ((i + 1) &&& m.mask)) - 1)) (bkt m ((i + 1) &&& m.mask))
          m.length]
      exact ih { m with hdib := m.hdib.set i (withDib (hd m ((i + 1) &&& m.mask)) (dibOf (hd m ((i + 1) &&& m.mask)) - 1)), buckets := m.buckets.set i (bkt m ((i + 1) &&& m.mask)), length := m.length } (by simpa [List.length_set] using hlen) ((i + 1) &&& m.mask)

/-- The backward-shift phase of `remove` on an occupied slot: the loop
succeeds, keeps the array shapes and scalars, and leaves the occupied keys
pairwise distinct (each surviving slot's key comes from a unique source
slot of the original table). -/
theorem remove_mid_spec {hf : K → Nat} {m : Shard K V} (hInv : Inv0 hf m)
    (hcount : countOcc m < sz m) {j : Nat} (hj : j < sz m)
    (hocc_j : occ m j) :
    ∃ out, removeLoop { m with hdib := m.hdib.set j (withDib (hd m j) 0) } j
        (sz m) = some out ∧
      out.hdib.length = out.buckets.length ∧ keyDistinct out ∧
      out.cap = m.cap ∧ out.length = m.length ∧ out.mask = m.mask ∧
      out.growAt = m.growAt ∧ out.shrinkAt = m.shrinkAt ∧ sz out = sz m := by
  have hN8 : 8 ≤ sz m := hInv.size_ge
  have hN : 0 < sz m := by omega
  have hlenh : m.hdib.length = sz m := hInv.hdib_len
  set m0 : Shard K V := { m with hdib := m.hdib.set j (withDib (hd m j) 0) }
    with hm0
  have hsz0 : sz m0 = sz m := rfl
  have hd0_ne : ∀ x, x ≠ j → hd m0 x = hd m x := by
    intro x hx
    rw [hm0]
    simp only [hd_mk, hd]
    exact getD_set_ne (fun hcon => hx hcon.symm)
  obtain ⟨e, he, hemp⟩ := exists_empty hcount
  have hej : e ≠ j := by
    rintro rfl
    exact hemp hocc_j
  have hPex : ∃ t, 1 ≤ t ∧ dibOf (hd m0 (idx (sz m) j t)) ≤ 1 := by
    refine ⟨dist (sz m) j e, ?_, ?_⟩
    · have h0 : dist (sz m) j e ≠ 0 := by
        intro hcon
        apply hej
        have := idx_dist hj he
        rw [hcon, idx_zero hj] at this
        omega
      omega
    · rw [idx_dist hj he, hd0_ne e hej]
      have : dibOf (hd m e) = 0 := by
        by_contra hcon
        exact hemp hcon
      omega
  set D := Nat.find hPex with hD_def
  obtain ⟨hD1, hDterm⟩ := Nat.find_spec hPex
  have hDmin : ∀ t, 1 ≤ t → t < D → 2 ≤ dibOf (hd m0 (idx (sz m) j t)) := by
    intro t ht1 ht2
    have := Nat.find_min hPex ht2
    push_neg at this
    have := this ht1
    omega
  have hDe : D ≤ dist (sz m) j e := by
    apply Nat.find_min'
    refine ⟨?_, ?_⟩
    · have h0 : dist (sz m) j e ≠ 0 := by
        intro hcon
        apply hej
        have := idx_dist hj he
        rw [hcon, idx_zero hj] at this
        omega
      omega
    · rw [idx_dist hj he, hd0_ne e hej]
      have : dibOf (hd m e) = 0 := by
        by_contra hcon
        exact hemp hcon
      omega
  have hDsz : D < sz m := by
    have := dist_lt hj he
    omega
  obtain ⟨out, hloop, ho_sz, ho_len, ho_cap, ho_length, ho_mask, ho_grow,
      ho_shrink, ho_desc⟩ :=
    removeLoop_spec (sz m0) m0 j D
      (by rw [hsz0]; simpa [hm0, List.length_set] using hlenh)
      (by rw [hsz0]; exact hInv.size_pow) (by rw [hm0, hsz0]; simpa using hInv.mask_eq)
      (by rw [hsz0]; exact hN8) (by rw [hsz0]; exact hj) hD1 (by rw [hsz0]; exact hDsz)
      (by rw [hsz0]; omega) (by rw [hsz0]; exact hDmin) (by rw [hsz0]; exact hDterm)
  rw [hsz0] at ho_desc ho_sz
  have hidx_step : ∀ x, x < sz m →
      step (sz m) x = idx (sz m) j (dist (sz m) j x + 1) := by
    intro x hx
    have h1 : idx (sz m) j (dist (sz m) j x + 1) =
        step (sz m) (idx (sz m) j (dist (sz m) j x)) := idx_succ
    rw [h1, idx_dist hj hx]
  have hminm : ∀ t, 1 ≤ t → t < D → 2 ≤ dibOf (hd m (idx (sz m) j t)) := by
    intro t ht1 ht2
    have := hDmin t ht1 ht2
    rwa [hd0_ne _ (idx_ne_base hj ht1 (by omega))] at this
  have hf1 : ∀ x, x < sz m → dist (sz m) j x + 2 ≤ D →
      hd out x = withDib (hd m (step (sz m) x)) (dibOf (hd m (step (sz m) x)) - 1) ∧
      bkt out x = bkt m (step (sz m) x) := by
    intro x hx hreg
    obtain ⟨hh, hb⟩ := (ho_desc x hx).1 hreg
    have hne : step (sz m) x ≠ j := by
      rw [hidx_step x hx]
      exact idx_ne_base hj (by omega) (by have := dist_lt hj hx; omega)
    rw [hd0_ne _ hne] at hh
    exact ⟨hh, hb⟩
  have hf2 : ∀ x, x < sz m → dist (sz m) j x + 1 = D →
      hd out x = 0 ∧ bkt out x = default := fun x hx => (ho_desc x hx).2.1
  have hf3 : ∀ x, x < sz m → D ≤ dist (sz m) j x →
      hd out x = hd m x ∧ bkt out x = bkt m x := by
    intro x hx hrest
    obtain ⟨hh, hb⟩ := (ho_desc x hx).2.2 hrest
    have hne : x ≠ j := by
      intro hcon
      subst hcon
      rw [dist_self] at hrest
      omega
    rw [hd0_ne _ hne] at hh
    exact ⟨hh, hb⟩
  have hdib_step_ge : ∀ x, x < sz m → dist (sz m) j x + 2 ≤ D →
      2 ≤ dibOf (hd m (step (sz m) x)) := by
    intro x hx hreg
    rw [hidx_step x hx]
    exact hminm _ (by omega) (by omega)
  have hocc_D1 : ∀ x, x < sz m → dist (sz m) j x + 1 = D → ¬ occ out x := by
    intro x hx hcase
    unfold occ
    rw [(hf2 x hx hcase).1]
    simp [dibOf]
  have hocc_rest : ∀ x, x < sz m → D ≤ dist (sz m) j x →
      (occ out x ↔ occ m x) := by
    intro x hx hcase
    unfold occ
    rw [(hf3 x hx hcase).1]
  have hsrc : ∀ x, x < sz m → occ out x →
      ∃ sx, sx < sz m ∧ occ m sx ∧ keyAt out x = keyAt m sx ∧
        ((dist (sz m) j x + 2 ≤ D ∧ sx = step (sz m) x ∧
          dist (sz m) j sx = dist (sz m) j x + 1) ∨
         (D ≤ dist (sz m) j x ∧ sx = x)) := by
    intro x hx hocc
    rcases Nat.lt_or_ge (dist (sz m) j x + 1) D with hc | hc
    · have hreg : dist (sz m) j x + 2 ≤ D := by omega
      refine ⟨step (sz m) x, step_lt hN, ?_, ?_, Or.inl ⟨hreg, rfl, ?_⟩⟩
      · unfold occ
        have := hdib_step_ge x hx hreg
        omega
      · unfold keyAt
        rw [(hf1 x hx hreg).2]
      · rw [hidx_step x hx]
        exact dist_idx hj (by have := dist_lt hj hx; omega)
    · rcases Nat.eq_or_lt_of_le hc with hc' | hc'
      · exfalso
        exact hocc_D1 x hx hc'.symm hocc
      · have hrest : D ≤ dist (sz m) j x := by omega
        refine ⟨x, hx, ?_, ?_, Or.inr ⟨hrest, rfl⟩⟩
        · exact (hocc_rest x hx hrest).mp hocc
        · unfold keyAt
          rw [(hf3 x hx hrest).2]
  have huniq : keyDistinct out := by
    intro x hx y hy hoccx hoccy hkeq
    rw [ho_sz] at hx hy
    obtain ⟨sx, hsx, hoccsx, hkx, hcx⟩ := hsrc x hx hoccx
    obtain ⟨sy, hsy, hoccsy, hky, hcy⟩ := hsrc y hy hoccy
    have hseq : sx = sy := by
      apply hInv.uniq sx hsx sy hsy hoccsx hoccsy
      rw [← hkx, ← hky, hkeq]
    rcases hcx with ⟨hregx, hsx_eq, hdx⟩ | ⟨hrestx, hsx_eq⟩ <;>
      rcases hcy with ⟨hregy, hsy_eq, hdy⟩ | ⟨hresty, hsy_eq⟩
    · have hstep : step (sz m) x = step (sz m) y := by
        rw [← hsx_eq, ← hsy_eq, hseq]
      have hpx := prev_step hN hx
      have hpy := prev_step hN hy
      rw [← hpx, ← hpy, hstep]
    · exfalso
      rw [hseq, hsy_eq] at hdx
      omega
    · exfalso
      rw [← hseq, hsx_eq] at hdy
      omega
    · rw [← hsx_eq, hseq, hsy_eq]
  have h2 : out.hdib.length = sz m := by
    rw [ho_len, hm0]
    simpa [List.length_set] using hlenh
  refine ⟨out, hloop, ?_, huniq, ho_cap, ho_length, ho_mask, ho_grow,
    ho_shrink, ho_sz⟩
  rw [h2]
  exact ho_sz.symm

/-- The two `remove`s run in lockstep on an invariant, not-full table. -/
theorem remove_pair {hf : K → Nat} {m : Shard K V} (hInv : Inv0 hf m)
    (hcount : countOcc m < sz m) (hszb : sz m ≤ 16384)
    {i : Nat} (hi : i < sz m) (hocc_i : occ m i) :
    Shard1.remove (conv m) i = (Shard.remove m i).map conv := by
  have hlen : m.hdib.length = m.buckets.length := by
    rw [hInv.hdib_len]
    rfl
  obtain ⟨out, hloop, ho_hl, ho_kd, ho_cap, ho_length, ho_mask, ho_grow,
    ho_shrink, ho_sz⟩ := remove_mid_spec hInv hcount hi hocc_i
  set M0 : Shard K V := { m with hdib := m.hdib.set i (withDib (hd m i) 0) }
    with hM0
  have hlenM0 : M0.hdib.length = M0.buckets.length := by
    rw [hM0]
    show (m.hdib.set i (withDib (hd m i) 0)).length = m.buckets.length
    rw [List.length_set]
    exact hlen
  have hloop1 : removeLoop1 (conv M0) i (sz m) = some (conv out) := by
    have he1 := removeLoop1_pair (sz m) M0 hlenM0 i
    rw [hloop] at he1
    exact he1
  have hm0conv : (⟨(conv m).buckets.set i (withDib (hd1 (conv m) i) 0, key1 (conv m) i, val1 (conv m) i), (conv m).cap, (conv m).length, (conv m).mask, (conv m).growAt, (conv m).shrinkAt⟩ : Shard1 K V) = conv M0 := by
    rw [hd1_conv hlen, key1_conv hlen, val1_conv hlen, conv_buckets, conv_cap,
      conv_length, conv_mask, conv_growAt, conv_shrinkAt, hM0,
      conv_write_hd m i (withDib (hd m i) 0)]
  have hsz1M0 : sz1 (conv M0) = sz m := by
    rw [sz1_conv hlenM0]
    rfl
  simp only [Shard1.remove]
  rw [hm0conv, hsz1M0, hloop1, remove_eq hM0 hloop]
  set mm2 : Shard K V := { out with length := out.length - 1 } with hmm2
  show (if (conv mm2).cap < (sz1 (conv mm2) : Int) ∧ (conv mm2).length ≤ (conv mm2).shrinkAt then Shard1.resize (conv mm2) ((conv mm2).length : Int) else some (conv mm2)) = (if mm2.cap < (sz mm2 : Int) ∧ mm2.length ≤ mm2.shrinkAt then Shard.resize mm2 ((mm2.length : Nat) : Int) else some mm2).map conv
  have hlen2 : mm2.hdib.length = mm2.buckets.length := ho_hl
  have hdist2 : keyDistinct mm2 := ho_kd
  rw [conv_cap, conv_length, conv_shrinkAt, sz1_conv hlen2]
  by_cases hcond : mm2.cap < (sz mm2 : Int) ∧ mm2.length ≤ mm2.shrinkAt
  · rw [if_pos hcond, if_pos hcond]
    apply resize_pair hlen2 hdist2
    have h1 : mm2.length ≤ 16384 := by
      have h2 : mm2.length = out.length - 1 := rfl
      rw [h2, ho_length]
      have h3 := hInv.len_eq
      omega
    have h4 := szLoop_le_of_le
      (show ((mm2.length : Nat) : Int) ≤ 16384 by exact_mod_cast h1)
    omega
  · rw [if_neg hcond, if_neg hcond]
    rfl

/-- The two `Delete` probe loops run in lockstep on an invariant table. -/
theorem deleteLoop_pair {hf : K → Nat} {m : Shard K V} (hInv : Inv0 hf m)
    (hcount : countOcc m < sz m) (hszb : sz m ≤ 16384)
    (hash : Nat) (key : K) :
    ∀ (fuel i : Nat), i < sz m →
      deleteLoop1 (conv m) hash key i fuel =
        (deleteLoop m hash key i fuel).map fun p => (conv p.1, p.2) := by
  have hlen0 : m.hdib.length = m.buckets.length := by
    rw [hInv.hdib_len]
    rfl
  intro fuel
  induction fuel with
  | zero =>
    intro i hi
    rfl
  | succ fuel ih =>
    intro i hi
    show (if dibOf (hd1 (conv m) i) = 0 then some (conv m, none) else if hashOf (hd1 (conv m) i) = hash ∧ key1 (conv m) i = key then (match Shard1.remove (conv m) i with | none => none | some mr => some (mr, some (val1 (conv m) i))) else deleteLoop1 (conv m) hash key ((i + 1) &&& (conv m).mask) fuel) = (deleteLoop m hash key i (fuel + 1)).map fun p => (conv p.1, p.2)
    rw [hd1_conv hlen0, key1_conv hlen0, val1_conv hlen0, conv_mask]
    have hE0 : deleteLoop m hash key i (fuel + 1) = (if dibOf (hd m i) = 0 then some (m, none) else if hashOf (hd m i) = hash ∧ (bkt m i).1 = key then (match Shard.remove m i with | none => none | some mr => some (mr, some (bkt m i).2)) else deleteLoop m hash key ((i + 1) &&& m.mask) fuel) := rfl
    rw [hE0]
    by_cases h0 : dibOf (hd m i) = 0
    · rw [if_pos h0, if_pos h0]
      rfl
    · rw [if_neg h0, if_neg h0]
      by_cases hmatch : hashOf (hd m i) = hash ∧ (bkt m i).1 = key
      · rw [if_pos hmatch, if_pos hmatch,
          remove_pair hInv hcount hszb hi h0]
        cases Shard.remove m i with
        | none => rfl
        | some mr => rfl
      · rw [if_neg hmatch, if_neg hmatch]
        have hnext : (i + 1) &&& m.mask < sz m := by
          rw [and_mask_eq hInv.size_pow hInv.mask_eq]
          exact Nat.mod_lt _ (by have := hInv.size_ge; omega)
        exact ih _ hnext

/-- Lockstep of the two public `Delete`s on an invariant, not-full table. -/
theorem Delete_pair {hf : K → Nat} {m : Shard K V} (hInv : Inv0 hf m)
    (hcount : countOcc m < sz m) (hszb : sz m ≤ 16384)
    (xxh : Nat) (key : K) :
    Shard1.Delete (conv m) xxh key =
      (Shard.Delete m xxh key).map fun p => (conv p.1, p.2) := by
  have hlen : m.hdib.length = m.buckets.length := by
    rw [hInv.hdib_len]
    rfl
  have hN8 : 8 ≤ sz m := hInv.size_ge
  unfold Shard1.Delete Shard.Delete
  rw [sz1_conv hlen]
  rw [if_neg (show ¬ sz m = 0 by omega), if_neg (show ¬ sz m = 0 by omega),
    conv_mask]
  exact deleteLoop_pair hInv hcount hszb (xxh >>> 16) key (sz m)
    ((xxh >>> 16) &&& m.mask)
    (by rw [and_mask_eq hInv.size_pow hInv.mask_eq]; exact Nat.mod_lt _ (by omega))

/-- One public shard operation (both layouts expose the same API). -/
inductive ShardOp (K V : Type) where
  | set (k : K) (v : V)
  | get (k : K)
  | del (k : K)
  | len
  | range
  | getpos (p : Nat)

/-- The observable output of one shard operation. -/
inductive ShardOut (K V : Type) where
  | val (r : Option V)
  | nat (n : Nat)
  | list (l : List (K × V))
  | entry (e : Option (K × V))
deriving DecidableEq

/-- Run one operation on the parallel-array shard. -/
def runShardOp (hf : K → Nat) (m : Shard K V) :
    ShardOp K V → Option (Shard K V × ShardOut K V)
  | ShardOp.set k v =>
    match Shard.Set m (hash64 hf k) k v with
    | none => none
    | some p => some (p.1, ShardOut.val p.2)
  | ShardOp.get k =>
    match Shard.Get m (hash64 hf k) k with
    | none => none
    | some r => some (m, ShardOut.val r)
  | ShardOp.del k =>
    match Shard.Delete m (hash64 hf k) k with
    | none => none
    | some p => some (p.1, ShardOut.val p.2)
  | ShardOp.len => some (m, ShardOut.nat (Shard.Len m))
  | ShardOp.range => some (m, ShardOut.list (Shard.Range m))
  | ShardOp.getpos p => some (m, ShardOut.entry (Shard.GetPos m p))

/-- Run a sequence of operations on the parallel-array shard. -/
def runShardOps (hf : K → Nat) (m : Shard K V) :
    List (ShardOp K V) → Option (Shard K V × List (ShardOut K V))
  | [] => some (m, [])
  | op :: ops =>
    match runShardOp hf m op with
    | none => none
    | some p =>
      match runShardOps hf p.1 ops with
      | none => none
      | some q => some (q.1, p.2 :: q.2)

/-- Run one operation on the interleaved-entry shard. -/
def runShardOp1 (hf : K → Nat) (m : Shard1 K V) :
    ShardOp K V → Option (Shard1 K V × ShardOut K V)
  | ShardOp.set k v =>
    match Shard1.Set m (hash64 hf k) k v with
    | none => none
    | some p => some (p.1, ShardOut.val p.2)
  | ShardOp.get k =>
    match Shard1.Get m (hash64 hf k) k with
    | none => none
    | some r => some (m, ShardOut.val r)
  | ShardOp.del k =>
    match Shard1.Delete m (hash64 hf k) k with
    | none => none
    | some p => some (p.1, ShardOut.val p.2)
  | ShardOp.len => some (m, ShardOut.nat (Shard1.Len m))
  | ShardOp.range => some (m, ShardOut.list (Shard1.Range m))
  | ShardOp.getpos p => some (m, ShardOut.entry (Shard1.GetPos m p))

/-- Run a sequence of operations on the interleaved-entry shard. -/
def runShardOps1 (hf : K → Nat) (m : Shard1 K V) :
    List (ShardOp K V) → Option (Shard1 K V × List (ShardOut K V))
  | [] => some (m, [])
  | op :: ops =>
    match runShardOp1 hf m op with
    | none => none
    | some p =>
      match runShardOps1 hf p.1 ops with
      | none => none
      | some q => some (q.1, p.2 :: q.2)

/-- One operation taken on both layouts from related states: same output,
related next states, and the table stays invariant and small. -/
theorem runShardOp_pair {hf : K → Nat} {m : Shard K V} (op : ShardOp K V)
    (hInv : Inv hf m) (hsz16 : sz m ≤ 16384) (hlb : m.length ≤ 13924) :
    runShardOp1 hf (conv m) op =
      (runShardOp hf m op).map (fun p => (conv p.1, p.2)) ∧
    ∀ m' r, runShardOp hf m op = some (m', r) →
      Inv hf m' ∧ m'.length ≤ m.length + 1 ∧ sz m' ≤ 16384 := by
  have hlen : m.hdib.length = m.buckets.length := by
    rw [hInv.inv0.hdib_len]
    rfl
  cases op with
  | set k v =>
    constructor
    · show (match Shard1.Set (conv m) (hash64 hf k) k v with | none => none | some p => some (p.1, ShardOut.val p.2)) = (match Shard.Set m (hash64 hf k) k v with | none => none | some p => some (p.1, ShardOut.val p.2)).map (fun p : Shard K V × ShardOut K V => (conv p.1, p.2))
      rw [Set_pair hInv hsz16 k v]
      cases Shard.Set m (hash64 hf k) k v with
      | none => rfl
      | some p => rfl
    · intro m' r hrun
      obtain ⟨m2, r2, hset, hr2, hInv2, hcap2, hlen2, hcont2, hsz2⟩ :=
        Set_spec hInv (by omega) k v
      have h1 : runShardOp hf m (ShardOp.set k v) =
          some (m2, ShardOut.val r2) := by
        show (match Shard.Set m (hash64 hf k) k v with | none => none | some p => some (p.1, ShardOut.val p.2)) = _
        rw [hset]
      rw [h1] at hrun
      cases hrun
      refine ⟨hInv2, ?_, ?_⟩
      · rw [hlen2]
        split <;> omega
      · rw [hsz2]
        by_cases hg : m.growAt ≤ m.length
        · rw [if_pos hg]
          obtain ⟨t, ht⟩ := hInv.inv0.size_pow
          have hga := hInv.inv0.grow_eq
          have h2 : sz m ≤ 16383 := by omega
          have h3 : t ≤ 13 := by
            by_contra hc
            push_neg at hc
            have h4 : (16384 : Nat) ≤ sz m := by
              calc (16384 : Nat) = 2 ^ 14 := by norm_num
                _ ≤ 2 ^ t := Nat.pow_le_pow_right (by omega) hc
                _ = sz m := ht.symm
            omega
          have h5 : sz m ≤ 8192 := by
            calc sz m = 2 ^ t := ht
              _ ≤ 2 ^ 13 := Nat.pow_le_pow_right (by omega) h3
              _ = 8192 := by norm_num
          omega
        · rw [if_neg hg]
          exact hsz16
  | get k =>
    constructor
    · show (match Shard1.Get (conv m) (hash64 hf k) k with | none => none | some r => some (conv m, ShardOut.val r)) = (match Shard.Get m (hash64 hf k) k with | none => none | some r => some (m, ShardOut.val r)).map (fun p : Shard K V × ShardOut K V => (conv p.1, p.2))
      rw [Get_conv hlen (hash64 hf k) k]
      cases Shard.Get m (hash64 hf k) k with
      | none => rfl
      | some r => rfl
    · intro m' r hrun
      cases hget : Shard.Get m (hash64 hf k) k with
      | none =>
        have h1 : runShardOp hf m (ShardOp.get k) = none := by
          show (match Shard.Get m (hash64 hf k) k with | none => none | some r => some (m, ShardOut.val r)) = _
          rw [hget]
        rw [h1] at hrun
        exact Option.noConfusion hrun
      | some rr =>
        have h1 : runShardOp hf m (ShardOp.get k) =
            some (m, ShardOut.val rr) := by
          show (match Shard.Get m (hash64 hf k) k with | none => none | some r => some (m, ShardOut.val r)) = _
          rw [hget]
        rw [h1] at hrun
        cases hrun
        exact ⟨hInv, by omega, hsz16⟩
  | del k =>
    constructor
    · show (match Shard1.Delete (conv m) (hash64 hf k) k with | none => none | some p => some (p.1, ShardOut.val p.2)) = (match Shard.Delete m (hash64 hf k) k with | none => none | some p => some (p.1, ShardOut.val p.2)).map (fun p : Shard K V × ShardOut K V => (conv p.1, p.2))
      rw [Delete_pair hInv.inv0 (Inv_count_lt hInv) hsz16 (hash64 hf k) k]
      cases Shard.Delete m (hash64 hf k) k with
      | none => rfl
      | some p => rfl
    · intro m' r hrun
      obtain ⟨m2, r2, hdel, hr2, hInv2, hcap2, hlen2, hcont2, hshr2, habs2⟩ :=
        Delete_spec hInv (by omega) k
      have h1 : runShardOp hf m (ShardOp.del k) =
          some (m2, ShardOut.val r2) := by
        show (match Shard.Delete m (hash64 hf k) k with | none => none | some p => some (p.1, ShardOut.val p.2)) = _
        rw [hdel]
      rw [h1] at hrun
      cases hrun
      refine ⟨hInv2, ?_, ?_⟩
      · rw [hlen2]
        split <;> omega
      · by_cases hsome : (contents m k).isSome
        · obtain ⟨hA, hB⟩ := hshr2 hsome
          by_cases hcond : m.cap < (sz m : Int) ∧ m.length - 1 ≤ m.shrinkAt
          · rw [hA hcond]
            have h2 := szLoop_le_of_le
              (show ((m.length - 1 : Nat) : Int) ≤ 16384 by
                exact_mod_cast (show m.length - 1 ≤ 16384 by omega))
            omega
          · rw [hB hcond]
            exact hsz16
        · rw [habs2 (Option.not_isSome_iff_eq_none.mp hsome)]
          exact hsz16
  | len =>
    constructor
    · show some (conv m, ShardOut.nat (Shard1.Len (conv m))) = _
      rw [Len_conv]
      rfl
    · intro m' r hrun
      have h1 : runShardOp hf m ShardOp.len =
          some (m, ShardOut.nat (Shard.Len m)) := rfl
      rw [h1] at hrun
      cases hrun
      exact ⟨hInv, by omega, hsz16⟩
  | range =>
    constructor
    · show some (conv m, ShardOut.list (Shard1.Range (conv m))) = _
      rw [Range_conv hlen]
      rfl
    · intro m' r hrun
      have h1 : runShardOp hf m ShardOp.range =
          some (m, ShardOut.list (Shard.Range m)) := rfl
      rw [h1] at hrun
      cases hrun
      exact ⟨hInv, by omega, hsz16⟩
  | getpos p =>
    constructor
    · show some (conv m, ShardOut.entry (Shard1.GetPos (conv m) p)) = _
      rw [GetPos_conv hlen p]
      rfl
    · intro m' r hrun
      have h1 : runShardOp hf m (ShardOp.getpos p) =
          some (m, ShardOut.entry (Shard.GetPos m p)) := rfl
      rw [h1] at hrun
      cases hrun
      exact ⟨hInv, by omega, hsz16⟩

/-- Whole-sequence lockstep of the two layouts from related states: with a
bounded operation count the tables stay small enough that neither layout
ever hits its probe-fuel or dib-width limits, and the runs agree exactly. -/
theorem runShardOps_pair {hf : K → Nat} :
    ∀ (ops : List (ShardOp K V)) (m : Shard K V) (b : Nat),
      Inv hf m → m.length ≤ b → b + ops.length ≤ 13925 → sz m ≤ 16384 →
      runShardOps1 hf (conv m) ops =
        (runShardOps hf m ops).map fun p => (conv p.1, p.2) := by
  intro ops
  induction ops with
  | nil =>
    intro m b hInv hlb hb hsz
    rfl
  | cons op ops ih =>
    intro m b hInv hlb hb hsz
    simp only [List.length_cons] at hb
    have hlb2 : m.length ≤ 13924 := by omega
    obtain ⟨hop, hpres⟩ := runShardOp_pair op hInv hsz hlb2
    show (match runShardOp1 hf (conv m) op with | none => none | some p => match runShardOps1 hf p.1 ops with | none => none | some q => some (q.1, p.2 :: q.2)) = (match runShardOp hf m op with | none => none | some p => match runShardOps hf p.1 ops with | none => none | some q => some (q.1, p.2 :: q.2)).map (fun x : Shard K V × List (ShardOut K V) => (conv x.1, x.2))
    rw [hop]
    cases hcase : runShardOp hf m op with
    | none => rfl
    | some p =>
      obtain ⟨hInv2, hlen2, hsz2⟩ := hpres p.1 p.2 (by rw [hcase])
      show (match runShardOps1 hf (conv p.1) ops with | none => none | some q => some (q.1, p.2 :: q.2)) = (match runShardOps hf p.1 ops with | none => none | some q => some (q.1, p.2 :: q.2)).map (fun x : Shard K V × List (ShardOut K V) => (conv x.1, x.2))
      rw [ih p.1 (b + 1) hInv2 (by omega) (by omega) hsz2]
      cases runShardOps hf p.1 ops with
      | none => rfl
      | some q => rfl

/-- C6 (amended): the two shard-table layouts in the source — parallel
arrays (`hdib` word array beside the bucket array) and interleaved entries —
are observably equivalent only when the requested capacity is stored
unrounded by both (`(init c).cap = c`, e.g. any `c ≤ 0` or any `c` already
equal to its allocation size): then, from the same capacity, every
single-threaded sequence of at most 13925 `Set`/`Get`/`Delete`/`Len`/
`Range`/`GetPos` calls with the same fingerprints returns identical outputs
on both layouts and leaves entry-wise identical tables.  For a capacity the
parallel-array `init` rounds up (such as 9), the layouts diverge
(`C6_layouts_diverge_counterexample`): the stored `cap` differs, so a
delete shrinks one layout but not the other, and later `GetPos`/size
observations differ. -/
theorem C6_layouts_equivalent_amended (hf : K → Nat) (c : Int)
    (hcap : (Shard.init c : Shard K V).cap = c) (hc2 : szLoop 8 c ≤ 16384)
    (ops : List (ShardOp K V)) (hops : ops.length ≤ 13925) :
    runShardOps1 hf (Shard1.init c) ops =
      (runShardOps hf (Shard.init c) ops).map fun p => (conv p.1, p.2) := by
  have hinit : (Shard1.init c : Shard1 K V) =
      conv (Shard.init c : Shard K V) := by
    show (⟨List.replicate (szLoop 8 c) default, c, 0, szLoop 8 c - 1, 17 * szLoop 8 c / 20, 3 * szLoop 8 c / 20⟩ : Shard1 K V) = (⟨((List.replicate (szLoop 8 c) 0).zip (List.replicate (szLoop 8 c) (default : K × V))).map fun p => (p.1, p.2.1, p.2.2), (Shard.init c : Shard K V).cap, 0, szLoop 8 c - 1, 17 * szLoop 8 c / 20, 3 * szLoop 8 c / 20⟩ : Shard1 K V)
    rw [zip_replicate_map, hcap]
  rw [hinit]
  exact runShardOps_pair ops (Shard.init c) 0 (Inv_init hf c)
    (le_of_eq (init_length c)) (by omega) (by rw [sz_init]; exact hc2)

theorem C6_layouts_equivalent_amended_witness :
    (Shard.init (K := Nat) (V := Nat) 16).cap = 16 ∧ szLoop 8 16 ≤ 16384 ∧
    ([ShardOp.set 1 10, ShardOp.getpos 0, ShardOp.len] :
      List (ShardOp Nat Nat)).length ≤ 13925 ∧
    runShardOps1 (fun k => k) (Shard1.init 16)
        [ShardOp.set 1 10, ShardOp.getpos 0, ShardOp.len] =
      (runShardOps (fun k => k) (Shard.init 16)
        [ShardOp.set 1 10, ShardOp.getpos 0, ShardOp.len]).map
          fun p => (conv p.1, p.2) :=
  ⟨by decide, by decide, by decide,
    C6_layouts_equivalent_amended (fun k => k) 16 (by decide) (by decide)
      [ShardOp.set 1 10, ShardOp.getpos 0, ShardOp.len] (by decide)⟩

end Shardmap
